import Mathlib

/-!
# Verification of the jyuusetu-check core components

Shallow embedding of the repository's algorithmic core, translated from the
Python sources:

* `src/utils.py`         — `crop_evidence_region` (normalized-box crop with padding)
* `src/ai_extractor.py`  — `_rescue_incomplete_json_array`, `_parse_issues_json`,
                            and the merge / index-shift logic of
                            `verify_disclosure_against_evidence`
* `app.py`               — `_normalize_box_2d`

Python machine reals are modelled as exact rationals (`ℚ`), Python `int()`
truncation as truncation toward zero, and the JSON layer (`json.loads` /
`json.dumps`) as an executable parser/serializer over `List Char`.
-/

/-! ## Python numeric primitives -/

/-- Python `int(x)` on a real number: truncation toward zero. -/
def pyTrunc (q : ℚ) : ℤ := if 0 ≤ q then ⌊q⌋ else -⌊-q⌋

theorem pyTrunc_eq_floor {q : ℚ} (h : 0 ≤ q) : pyTrunc q = ⌊q⌋ := by
  simp [pyTrunc, h]

/-! ## Region Cropper (`src/utils.py`, `crop_evidence_region`)

The Python function takes a PIL image and a `box_2d = [ymin, xmin, ymax, xmax]`
on the 0–1000 normalized scale.  We model the image by its pixel size `(w, h)`
and the result by the pixel rectangle passed to `pil_image.crop`, or the marker
`originalImage` for the short-circuit branch. -/

/-- The pixel rectangle handed to `PIL.Image.crop((xmin, ymin, xmax, ymax))`. -/
structure PixelRect where
  xmin : ℤ
  ymin : ℤ
  xmax : ℤ
  ymax : ℤ
deriving DecidableEq, Repr

/-- Result of the cropper: either the untouched original image (structurally
invalid box) or a concrete pixel rectangle to crop. -/
inductive CropOutcome where
  | originalImage
  | cropped (r : PixelRect)
deriving DecidableEq, Repr

/-- One axis-aligned box in normalized coordinates, as the 4-tuple
`(ymin, xmin, ymax, xmax)` the Python code unpacks. -/
structure NormBox where
  ymin : ℚ
  xmin : ℚ
  ymax : ℚ
  xmax : ℚ
deriving DecidableEq, Repr

/-- Lines 33–42 of `utils.py`: add `padding_ratio_y` of the box height above and
below, and `padding_ratio_x` of the box width left and right, in normalized
coordinates (before any clamping). -/
def expandBox (b : NormBox) (padding_ratio_y padding_ratio_x : ℚ) : NormBox :=
  let box_h := b.ymax - b.ymin
  let box_w := b.xmax - b.xmin
  let pad_y := box_h * padding_ratio_y
  let pad_x := box_w * padding_ratio_x
  ⟨b.ymin - pad_y, b.xmin - pad_x, b.ymax + pad_y, b.xmax + pad_x⟩

/-- Lines 45–48 of `utils.py`: clamp the normalized coordinates into `[0, 1000]`,
forcing each max coordinate at least one unit above its min. -/
def clampNorm (b : NormBox) : NormBox :=
  let ymin := max 0 (min b.ymin 1000)
  let xmin := max 0 (min b.xmin 1000)
  let ymax := max (ymin + 1) (min b.ymax 1000)
  let xmax := max (xmin + 1) (min b.xmax 1000)
  ⟨ymin, xmin, ymax, xmax⟩

/-- Lines 50–54 of `utils.py`: `int((v / 1000.0) * dim)` — normalized-to-pixel
conversion by Python `int()` truncation. -/
def toPixel (v : ℚ) (dim : ℕ) : ℤ := pyTrunc (v / 1000 * dim)

/-- Lines 56–60 of `utils.py`: clamp the pixel rectangle into the image,
guaranteeing at least one pixel of width and height. -/
def clampPixels (w h : ℕ) (xmin ymin xmax ymax : ℤ) : PixelRect :=
  let xmin' := max 0 (min xmin ((w : ℤ) - 1))
  let ymin' := max 0 (min ymin ((h : ℤ) - 1))
  let xmax' := max (xmin' + 1) (min xmax (w : ℤ))
  let ymax' := max (ymin' + 1) (min ymax (h : ℤ))
  ⟨xmin', ymin', xmax', ymax'⟩

/-- `crop_evidence_region` from `src/utils.py`: guard on a structurally valid
box (`not box_2d or len(box_2d) != 4` returns the original image), then expand,
clamp in normalized space, convert to pixels, and clamp to the image. -/
def crop_evidence_region (w h : ℕ) (box_2d : List ℚ)
    (padding_ratio_y : ℚ := 1/2) (padding_ratio_x : ℚ := 3/10) : CropOutcome :=
  match box_2d with
  | [ymin_n, xmin_n, ymax_n, xmax_n] =>
      let e := expandBox ⟨ymin_n, xmin_n, ymax_n, xmax_n⟩ padding_ratio_y padding_ratio_x
      let c := clampNorm e
      let ymin_px := toPixel c.ymin h
      let xmin_px := toPixel c.xmin w
      let ymax_px := toPixel c.ymax h
      let xmax_px := toPixel c.xmax w
      .cropped (clampPixels w h xmin_px ymin_px xmax_px ymax_px)
  | _ => .originalImage

/-! ## Crop properties (claims C3, C4, C5) -/

/-- The pixel clamp always produces a rectangle inside `[0,w] × [0,h]` with at
least one pixel of extent on each axis, whatever the raw pixel inputs were. -/
theorem clampPixels_bounds (w h : ℕ) (hw : 1 ≤ w) (hh : 1 ≤ h)
    (a b c d : ℤ) :
    let r := clampPixels w h a b c d
    0 ≤ r.xmin ∧ r.xmin + 1 ≤ r.xmax ∧ r.xmax ≤ (w : ℤ) ∧
    0 ≤ r.ymin ∧ r.ymin + 1 ≤ r.ymax ∧ r.ymax ≤ (h : ℤ) := by
  have hw' : (1 : ℤ) ≤ (w : ℤ) := by exact_mod_cast hw
  have hh' : (1 : ℤ) ≤ (h : ℤ) := by exact_mod_cast hh
  simp only [clampPixels]
  refine ⟨le_max_left _ _, ?_, ?_, le_max_left _ _, ?_, ?_⟩
  · exact le_max_left _ _
  · apply max_le
    · have : max 0 (min a ((w : ℤ) - 1)) ≤ (w : ℤ) - 1 :=
        max_le (by omega) (min_le_right _ _)
      omega
    · exact min_le_right _ _
  · exact le_max_left _ _
  · apply max_le
    · have : max 0 (min b ((h : ℤ) - 1)) ≤ (h : ℤ) - 1 :=
        max_le (by omega) (min_le_right _ _)
      omega
    · exact min_le_right _ _

/-- `toPixel` is monotone on non-negative coordinates. -/
theorem toPixel_mono {v v' : ℚ} (dim : ℕ) (h0 : 0 ≤ v) (hle : v ≤ v') :
    toPixel v dim ≤ toPixel v' dim := by
  have h0' : 0 ≤ v' := le_trans h0 hle
  have e1 : toPixel v dim = ⌊v / 1000 * dim⌋ :=
    pyTrunc_eq_floor (by positivity)
  have e2 : toPixel v' dim = ⌊v' / 1000 * dim⌋ :=
    pyTrunc_eq_floor (by positivity)
  rw [e1, e2]
  apply Int.floor_le_floor
  have : v / 1000 ≤ v' / 1000 := by
    apply div_le_div_of_nonneg_right hle
    norm_num
  exact mul_le_mul_of_nonneg_right this (by positivity)

/-- The clamping steps of the cropper act as the identity: the expanded box is
already inside the normalized `[0,1000]` bounds and the converted pixel
rectangle is already inside the image.  This is the "absent clamping" side
condition of the containment claim. -/
def NoClamping (w h : ℕ) (b : NormBox) (ry rx : ℚ) : Prop :=
  clampNorm (expandBox b ry rx) = expandBox b ry rx ∧
  clampPixels w h (toPixel (expandBox b ry rx).xmin w) (toPixel (expandBox b ry rx).ymin h)
      (toPixel (expandBox b ry rx).xmax w) (toPixel (expandBox b ry rx).ymax h)
    = ⟨toPixel (expandBox b ry rx).xmin w, toPixel (expandBox b ry rx).ymin h,
       toPixel (expandBox b ry rx).xmax w, toPixel (expandBox b ry rx).ymax h⟩

/-- An un-clamped `clampNorm` fixpoint has non-negative min coordinates and a
strictly larger (by ≥ 1) max coordinate on each axis. -/
theorem clampNorm_fixpoint {e : NormBox} (h : clampNorm e = e) :
    0 ≤ e.ymin ∧ 0 ≤ e.xmin ∧ e.ymin + 1 ≤ e.ymax ∧ e.xmin + 1 ≤ e.xmax := by
  obtain ⟨y0, x0, y1, x1⟩ := e
  simp only [clampNorm, NormBox.mk.injEq] at h
  obtain ⟨h1, h2, h3, h4⟩ := h
  rw [h1] at h3
  rw [h2] at h4
  refine ⟨?_, ?_, ?_, ?_⟩
  · rw [← h1]; exact le_max_left _ _
  · rw [← h2]; exact le_max_left _ _
  · conv_rhs => rw [← h3]
    exact le_max_left _ _
  · conv_rhs => rw [← h4]
    exact le_max_left _ _

/-- C3: for any image of size `(W,H)` with `W,H ≥ 1` and any structurally valid
box (a list of exactly 4 numbers), the cropper yields a pixel rectangle that is
contained in `[0,W] × [0,H]` and has width ≥ 1 and height ≥ 1; and whenever no
clamping occurs, that rectangle contains the pixel image of the unpadded box. -/
theorem crop_containment (w h : ℕ) (hw : 1 ≤ w) (hh : 1 ≤ h)
    (box : List ℚ) (hbox : box.length = 4) :
    ∃ r : PixelRect, crop_evidence_region w h box = .cropped r ∧
      (0 ≤ r.xmin ∧ r.xmin + 1 ≤ r.xmax ∧ r.xmax ≤ (w : ℤ) ∧
       0 ≤ r.ymin ∧ r.ymin + 1 ≤ r.ymax ∧ r.ymax ≤ (h : ℤ)) ∧
      (∀ y0 x0 y1 x1 : ℚ, box = [y0, x0, y1, x1] →
        NoClamping w h ⟨y0, x0, y1, x1⟩ (1/2) (3/10) →
        r.ymin ≤ toPixel y0 h ∧ r.xmin ≤ toPixel x0 w ∧
        toPixel y1 h ≤ r.ymax ∧ toPixel x1 w ≤ r.xmax) := by
  obtain ⟨y0, x0, y1, x1, rfl⟩ : ∃ a b c d : ℚ, box = [a, b, c, d] := by
    match box, hbox with
    | [a, b, c, d], _ => exact ⟨a, b, c, d, rfl⟩
  refine ⟨_, rfl, clampPixels_bounds w h hw hh _ _ _ _, ?_⟩
  rintro a0 b0 a1 b1 heq hnc
  obtain ⟨h1, h2, h3, h4⟩ : y0 = a0 ∧ x0 = b0 ∧ y1 = a1 ∧ x1 = b1 := by
    simpa using heq
  rw [← h1, ← h2, ← h3, ← h4] at hnc ⊢
  obtain ⟨hn, hp⟩ := hnc
  set e := expandBox ⟨y0, x0, y1, x1⟩ (1/2) (3/10) with he
  obtain ⟨hy0, hx0, hyy, hxx⟩ := clampNorm_fixpoint hn
  have heymin : e.ymin = y0 - (y1 - y0) * (1/2) := by rw [he]; simp [expandBox]
  have heymax : e.ymax = y1 + (y1 - y0) * (1/2) := by rw [he]; simp [expandBox]
  have hexmin : e.xmin = x0 - (x1 - x0) * (3/10) := by rw [he]; simp [expandBox]
  have hexmax : e.xmax = x1 + (x1 - x0) * (3/10) := by rw [he]; simp [expandBox]
  have hpady : 0 ≤ (y1 - y0) * (1/2) := by
    rw [heymin, heymax] at hyy; nlinarith
  have hpadx : 0 ≤ (x1 - x0) * (3/10) := by
    rw [hexmin, hexmax] at hxx; nlinarith
  have hy0e : e.ymin ≤ y0 := by rw [heymin]; linarith
  have hy1e : y1 ≤ e.ymax := by rw [heymax]; linarith
  have hx0e : e.xmin ≤ x0 := by rw [hexmin]; linarith
  have hx1e : x1 ≤ e.xmax := by rw [hexmax]; linarith
  have hy0n : (0 : ℚ) ≤ y0 := le_trans hy0 hy0e
  have hx0n : (0 : ℚ) ≤ x0 := le_trans hx0 hx0e
  have hy1n : (0 : ℚ) ≤ y1 := by
    have := clampNorm_fixpoint hn; linarith [hy0e, this.2.2.1]
  have hy1pos : (0 : ℚ) ≤ y1 := hy1n
  have hx1pos : (0 : ℚ) ≤ x1 := by linarith [hx0e, hxx]
  show (clampPixels w h (toPixel (clampNorm e).xmin w) (toPixel (clampNorm e).ymin h)
      (toPixel (clampNorm e).xmax w) (toPixel (clampNorm e).ymax h)).ymin ≤ toPixel y0 h ∧ _
  rw [hn, hp]
  exact ⟨toPixel_mono h hy0 hy0e, toPixel_mono w hx0 hx0e,
         toPixel_mono h hy1pos hy1e, toPixel_mono w hx1pos hx1e⟩

/-- C3 witness: a concrete instance of `crop_containment` — a 1000×1000 image
and the box `[300, 300, 400, 400]`, for which no clamping occurs. -/
theorem crop_containment_witness :
    1 ≤ 1000 ∧ ([(300 : ℚ), 300, 400, 400].length = 4) ∧
    ∃ r : PixelRect, crop_evidence_region 1000 1000 [300, 300, 400, 400] = .cropped r ∧
      (0 ≤ r.xmin ∧ r.xmin + 1 ≤ r.xmax ∧ r.xmax ≤ (1000 : ℤ) ∧
       0 ≤ r.ymin ∧ r.ymin + 1 ≤ r.ymax ∧ r.ymax ≤ (1000 : ℤ)) ∧
      (∀ y0 x0 y1 x1 : ℚ, [(300 : ℚ), 300, 400, 400] = [y0, x0, y1, x1] →
        NoClamping 1000 1000 ⟨y0, x0, y1, x1⟩ (1/2) (3/10) →
        r.ymin ≤ toPixel y0 1000 ∧ r.xmin ≤ toPixel x0 1000 ∧
        toPixel y1 1000 ≤ r.ymax ∧ toPixel x1 1000 ≤ r.xmax) :=
  ⟨by decide, by decide,
   crop_containment 1000 1000 (by decide) (by decide) [300, 300, 400, 400] (by decide)⟩

/-- Amount by which the spec's words say the box is expanded on each axis:
"50% of the box's height added split above/below, 30% of the box's width
added split left/right", so the expanded extents are 1.5× the height and
1.3× the width.  (Spec-side definition, for comparison with `expandBox`.) -/
def specExpandedExtents (b : NormBox) : ℚ × ℚ :=
  ((3/2) * (b.ymax - b.ymin), (13/10) * (b.xmax - b.xmin))

/-- C4 counterexample: for the box `[0, 0, 100, 100]` the code's expansion
(`expandBox` with the cropper's fixed ratios) yields extents 200 × 160, not the
150 × 130 the claim's "1.5 times / 1.3 times" figures demand. -/
theorem c4_counterexample :
    (expandBox ⟨0, 0, 100, 100⟩ (1/2) (3/10)).ymax
        - (expandBox ⟨0, 0, 100, 100⟩ (1/2) (3/10)).ymin = 200 ∧
    (expandBox ⟨0, 0, 100, 100⟩ (1/2) (3/10)).xmax
        - (expandBox ⟨0, 0, 100, 100⟩ (1/2) (3/10)).xmin = 160 ∧
    (specExpandedExtents ⟨0, 0, 100, 100⟩).1 = 150 ∧
    (specExpandedExtents ⟨0, 0, 100, 100⟩).2 = 130 ∧
    (200 : ℚ) ≠ 150 ∧ (160 : ℚ) ≠ 130 := by
  refine ⟨?_, ?_, ?_, ?_, by norm_num, by norm_num⟩ <;>
    norm_num [expandBox, specExpandedExtents]

/-- C4 amended: before clamping, the cropper expands the box by 50% of the box
height on EACH side (above and below) and 30% of the box width on EACH side
(left and right), so the expanded height is 2.0× the box height and the
expanded width is 1.6× the box width. -/
theorem expandBox_padding (b : NormBox) :
    (expandBox b (1/2) (3/10)).ymin = b.ymin - (1/2) * (b.ymax - b.ymin) ∧
    (expandBox b (1/2) (3/10)).ymax = b.ymax + (1/2) * (b.ymax - b.ymin) ∧
    (expandBox b (1/2) (3/10)).xmin = b.xmin - (3/10) * (b.xmax - b.xmin) ∧
    (expandBox b (1/2) (3/10)).xmax = b.xmax + (3/10) * (b.xmax - b.xmin) ∧
    (expandBox b (1/2) (3/10)).ymax - (expandBox b (1/2) (3/10)).ymin
      = 2 * (b.ymax - b.ymin) ∧
    (expandBox b (1/2) (3/10)).xmax - (expandBox b (1/2) (3/10)).xmin
      = (8/5) * (b.xmax - b.xmin) := by
  refine ⟨?_, ?_, ?_, ?_, ?_, ?_⟩ <;> (simp only [expandBox]; ring)

/-- The spec's wording of the normalized-to-pixel conversion:
`pixel = round(normalized/1000 * dimension)` — rounding to nearest.
(Spec-side definition, for comparison with `toPixel`.) -/
def specRoundPixel (v : ℚ) (dim : ℕ) : ℤ := round (v / 1000 * (dim : ℚ))

/-- C5 counterexample: on a 170×170 image with the degenerate box
`[10, 10, 10, 10]`, the clamped normalized min coordinate is 10 and the code
computes pixel `int(10/1000*170) = int(1.7) = 1`, while the claimed rounding
rule gives `round(1.7) = 2`; the full cropper indeed returns min corner 1. -/
theorem c5_counterexample :
    crop_evidence_region 170 170 [10, 10, 10, 10] = .cropped ⟨1, 1, 2, 2⟩ ∧
    toPixel 10 170 = 1 ∧ specRoundPixel 10 170 = 2 ∧ (1 : ℤ) ≠ 2 := by
  refine ⟨?_, ?_, ?_, by decide⟩
  · norm_num [crop_evidence_region, expandBox, clampNorm, toPixel, pyTrunc, clampPixels,
      PixelRect.mk.injEq]
  · norm_num [toPixel, pyTrunc]
  · norm_num [specRoundPixel, round_eq]

/-- C5 amended: the conversion the cropper applies to each clamped normalized
coordinate is truncation toward zero, which on the (always non-negative)
clamped coordinates equals the floor `⌊v/1000 * dim⌋`, not rounding to
nearest.  Stated over every box and both image dimensions, for all four
coordinates actually fed to `toPixel` by `crop_evidence_region`. -/
theorem toPixel_is_floor_on_clamped (b : NormBox) (w h : ℕ) :
    toPixel (clampNorm b).ymin h = ⌊(clampNorm b).ymin / 1000 * (h : ℚ)⌋ ∧
    toPixel (clampNorm b).xmin w = ⌊(clampNorm b).xmin / 1000 * (w : ℚ)⌋ ∧
    toPixel (clampNorm b).ymax h = ⌊(clampNorm b).ymax / 1000 * (h : ℚ)⌋ ∧
    toPixel (clampNorm b).xmax w = ⌊(clampNorm b).xmax / 1000 * (w : ℚ)⌋ := by
  have h1 : (0 : ℚ) ≤ (clampNorm b).ymin := le_max_left _ _
  have h2 : (0 : ℚ) ≤ (clampNorm b).xmin := le_max_left _ _
  have h3 : (0 : ℚ) ≤ (clampNorm b).ymax := by
    have : (clampNorm b).ymin + 1 ≤ (clampNorm b).ymax := le_max_left _ _
    linarith
  have h4 : (0 : ℚ) ≤ (clampNorm b).xmax := by
    have : (clampNorm b).xmin + 1 ≤ (clampNorm b).xmax := le_max_left _ _
    linarith
  refine ⟨?_, ?_, ?_, ?_⟩ <;>
    exact pyTrunc_eq_floor (by positivity)

/-! ## JSON values (the Python objects produced by `json.loads`)

`json.dumps` / `json.loads` move between text and Python values (`None`, `bool`,
numbers, `str`, `list`, `dict`).  Machine floats are modelled as exact
rationals; `NaN`/`Infinity` literals are outside the model. -/

inductive PyJson where
  | null
  | bool (b : Bool)
  | num (q : ℚ)
  | str (s : String)
  | arr (elems : List PyJson)
  | obj (fields : List (String × PyJson))

/-- The whitespace characters `json.loads` skips between tokens. -/
def isJsonWs (c : Char) : Bool := c = ' ' || c = '\t' || c = '\n' || c = '\r'

/-- The characters matched by the regex class `\s` and stripped by Python's
`str.strip` (ASCII range): space, tab, newline, carriage return, vertical tab,
form feed. -/
def isPyWs (c : Char) : Bool := isJsonWs c || c.toNat = 11 || c.toNat = 12

/-- Python `str.rstrip()`. -/
def pyRstrip (cs : List Char) : List Char :=
  (cs.reverse.dropWhile isPyWs).reverse

/-- Python `str.strip()`. -/
def pyStrip (cs : List Char) : List Char :=
  pyRstrip (cs.dropWhile isPyWs)

/-! ## `json.loads` — an executable model of Python's JSON decoder

Number grammar follows `json.scanner.NUMBER_RE`
(`(-?(?:0|[1-9]\d*))(\.\d+)?([eE][-+]?\d+)?`); strings follow `py_scanstring`
in strict mode (raw control characters rejected, the standard escapes and
`\uXXXX` with surrogate pairing accepted).  The `NaN`/`Infinity` constants are
outside the model. -/

def isDigitChar (c : Char) : Bool := '0' ≤ c && c ≤ '9'

/-- Longest digit run at the head of the input, and the remainder. -/
def takeDigitRun : List Char → List Char × List Char
  | c :: cs =>
      if isDigitChar c then
        let p := takeDigitRun cs
        (c :: p.1, p.2)
      else ([], c :: cs)
  | [] => ([], [])

def digitsToNat (ds : List Char) : ℕ :=
  ds.foldl (fun a c => a * 10 + (c.toNat - '0'.toNat)) 0

/-- The integer part of a JSON number: `0`, or a nonzero digit followed by a
digit run (no leading zeros, per `NUMBER_RE`). -/
def parseIntDigits : List Char → Option (List Char × List Char)
  | '0' :: cs => some (['0'], cs)
  | c :: cs =>
      if isDigitChar c then
        let p := takeDigitRun cs
        some (c :: p.1, p.2)
      else none
  | [] => none

/-- The optional `(\.\d+)?` fraction group: consumed only when the dot is
followed by at least one digit. -/
def parseFracDigits (cs : List Char) : List Char × List Char :=
  match cs with
  | '.' :: r =>
      match takeDigitRun r with
      | ([], _) => ([], cs)
      | (ds, r2) => (ds, r2)
  | _ => ([], cs)

/-- The optional `([eE][-+]?\d+)?` exponent group: consumed only when at least
one digit follows the (optionally signed) marker. -/
def parseExpPart (cs : List Char) : ℤ × List Char :=
  match cs with
  | 'e' :: r | 'E' :: r =>
      (match r with
       | '+' :: r2 =>
           (match takeDigitRun r2 with
            | ([], _) => (0, cs)
            | (ds, r3) => ((digitsToNat ds : ℤ), r3))
       | '-' :: r2 =>
           (match takeDigitRun r2 with
            | ([], _) => (0, cs)
            | (ds, r3) => (-(digitsToNat ds : ℤ), r3))
       | _ =>
           (match takeDigitRun r with
            | ([], _) => (0, cs)
            | (ds, r3) => ((digitsToNat ds : ℤ), r3)))
  | _ => (0, cs)

def parseNumberCore (cs : List Char) : Option (ℚ × List Char) :=
  match parseIntDigits cs with
  | none => none
  | some (ids, cs2) =>
      let fp := parseFracDigits cs2
      let ep := parseExpPart fp.2
      some (((digitsToNat ids : ℚ) + (digitsToNat fp.1 : ℚ) / (10 : ℚ) ^ fp.1.length)
              * (10 : ℚ) ^ ep.1, ep.2)

def parseNumber (cs : List Char) : Option (ℚ × List Char) :=
  match cs with
  | '-' :: r => (parseNumberCore r).map fun p => (-p.1, p.2)
  | _ => parseNumberCore cs

def hexDigitToNat (c : Char) : Option ℕ :=
  if isDigitChar c then some (c.toNat - '0'.toNat)
  else if 'a' ≤ c ∧ c ≤ 'f' then some (10 + (c.toNat - 'a'.toNat))
  else if 'A' ≤ c ∧ c ≤ 'F' then some (10 + (c.toNat - 'A'.toNat))
  else none

def hexQuad (a b c d : Char) : Option ℕ :=
  match hexDigitToNat a, hexDigitToNat b, hexDigitToNat c, hexDigitToNat d with
  | some va, some vb, some vc, some vd => some (((va * 16 + vb) * 16 + vc) * 16 + vd)
  | _, _, _, _ => none

/-- The one-character escapes of `json.decoder.BACKSLASH`. -/
def unescapeChar : Char → Option Char
  | '"' => some '"'
  | '\\' => some '\\'
  | '/' => some '/'
  | 'b' => some (Char.ofNat 8)
  | 'f' => some (Char.ofNat 12)
  | 'n' => some '\n'
  | 'r' => some '\r'
  | 't' => some '\t'
  | _ => none

/-- String body after the opening quote (`py_scanstring`, strict mode). -/
def parseStringBody (acc : List Char) : List Char → Option (String × List Char)
  | '"' :: r => some (String.mk acc.reverse, r)
  | '\\' :: 'u' :: a :: b :: c :: d :: r =>
      (match hexQuad a b c d with
       | none => none
       | some n =>
           if 0xd800 ≤ n ∧ n ≤ 0xdbff then
             match r with
             | '\\' :: 'u' :: a2 :: b2 :: c2 :: d2 :: r2 =>
                 (match hexQuad a2 b2 c2 d2 with
                  | some m =>
                      if 0xdc00 ≤ m ∧ m ≤ 0xdfff then
                        parseStringBody
                          (Char.ofNat (0x10000 + (n - 0xd800) * 0x400 + (m - 0xdc00)) :: acc) r2
                      else
                        parseStringBody (Char.ofNat n :: acc)
                          ('\\' :: 'u' :: a2 :: b2 :: c2 :: d2 :: r2)
                  | none =>
                      parseStringBody (Char.ofNat n :: acc)
                        ('\\' :: 'u' :: a2 :: b2 :: c2 :: d2 :: r2))
             | r3 => parseStringBody (Char.ofNat n :: acc) r3
           else parseStringBody (Char.ofNat n :: acc) r)
  | '\\' :: e :: r =>
      (match unescapeChar e with
       | some c => parseStringBody (c :: acc) r
       | none => none)
  | c :: r => if c.toNat < 32 then none else parseStringBody (c :: acc) r
  | [] => none
termination_by cs => cs.length

mutual
def parseJsonValue : ℕ → List Char → Option (PyJson × List Char)
  | 0, _ => none
  | f + 1, cs =>
    match cs.dropWhile isJsonWs with
    | 'n' :: 'u' :: 'l' :: 'l' :: r => some (.null, r)
    | 't' :: 'r' :: 'u' :: 'e' :: r => some (.bool true, r)
    | 'f' :: 'a' :: 'l' :: 's' :: 'e' :: r => some (.bool false, r)
    | '"' :: r =>
        (match parseStringBody [] r with
         | some (s, r2) => some (.str s, r2)
         | none => none)
    | '[' :: r =>
        (match r.dropWhile isJsonWs with
         | ']' :: r2 => some (.arr [], r2)
         | r2 =>
             match parseJsonElems f r2 with
             | some (es, r3) => some (.arr es, r3)
             | none => none)
    | '{' :: r =>
        (match r.dropWhile isJsonWs with
         | '}' :: r2 => some (.obj [], r2)
         | r2 =>
             match parseJsonFields f r2 with
             | some (ms, r3) => some (.obj ms, r3)
             | none => none)
    | c :: r =>
        if c = '-' ∨ isDigitChar c then
          match parseNumber (c :: r) with
          | some (q, r2) => some (.num q, r2)
          | none => none
        else none
    | [] => none

def parseJsonElems : ℕ → List Char → Option (List PyJson × List Char)
  | 0, _ => none
  | f + 1, cs =>
    match parseJsonValue f cs with
    | none => none
    | some (v, r) =>
      match r.dropWhile isJsonWs with
      | ',' :: r2 =>
          (match parseJsonElems f r2 with
           | some (vs, r3) => some (v :: vs, r3)
           | none => none)
      | ']' :: r2 => some ([v], r2)
      | _ => none

def parseJsonFields : ℕ → List Char → Option (List (String × PyJson) × List Char)
  | 0, _ => none
  | f + 1, cs =>
    match cs.dropWhile isJsonWs with
    | '"' :: r =>
      (match parseStringBody [] r with
       | none => none
       | some (k, r1) =>
         match r1.dropWhile isJsonWs with
         | ':' :: r2 =>
             (match parseJsonValue f r2 with
              | none => none
              | some (v, r3) =>
                match r3.dropWhile isJsonWs with
                | ',' :: r4 =>
                    (match parseJsonFields f r4 with
                     | some (ms, r5) => some ((k, v) :: ms, r5)
                     | none => none)
                | '}' :: r4 => some ([(k, v)], r4)
                | _ => none)
         | _ => none)
    | _ => none
end

/-- `json.loads`: parse one JSON document, allowing only whitespace after it. -/
def jsonLoads (cs : List Char) : Option PyJson :=
  match parseJsonValue (cs.length + 1) cs with
  | some (v, rest) => if rest.dropWhile isJsonWs = [] then some v else none
  | none => none

/-! ## `json.dumps` — an executable model of Python's JSON encoder

Default separators `", "` and `": "`; strings escaped as by the encoder with
`ensure_ascii=False` (quote, backslash and control characters escaped, all
other characters literal).  Numbers with denominator 1 print as integers;
other finite-decimal rationals print in fixed-point decimal form (machine
floats are always of this shape). -/

def toLowerHexChar (n : ℕ) : Char :=
  if n < 10 then Char.ofNat ('0'.toNat + n) else Char.ofNat ('a'.toNat + n - 10)

def escapeJsonChar (c : Char) : List Char :=
  if c = '"' then ['\\', '"']
  else if c = '\\' then ['\\', '\\']
  else if c = '\n' then ['\\', 'n']
  else if c = '\t' then ['\\', 't']
  else if c = '\r' then ['\\', 'r']
  else if c.toNat = 8 then ['\\', 'b']
  else if c.toNat = 12 then ['\\', 'f']
  else if c.toNat < 32 then
    ['\\', 'u', '0', '0', toLowerHexChar (c.toNat / 16), toLowerHexChar (c.toNat % 16)]
  else [c]

def serStr (s : String) : List Char :=
  '"' :: (s.data.flatMap escapeJsonChar ++ ['"'])

/-- Decimal digit characters of a natural number, most significant first. -/
def natDigits (n : ℕ) : List Char :=
  if n < 10 then [Char.ofNat ('0'.toNat + n)]
  else natDigits (n / 10) ++ [Char.ofNat ('0'.toNat + n % 10)]
termination_by n
decreasing_by omega

def serInt (i : ℤ) : List Char :=
  (if i < 0 then ['-'] else []) ++ natDigits i.natAbs

/-- Smallest number of decimal places that makes `q` an integer, when one of at
most 1080 suffices (machine floats always have one: their denominators divide
`2^1074`, and `2^k ∣ 10^k`). -/
def decPlaces (q : ℚ) : Option ℕ :=
  (List.range 1080).find? fun k => (q * (10 : ℚ) ^ k).den = 1

def serNum (q : ℚ) : List Char :=
  if q.den = 1 then serInt q.num
  else
    match decPlaces q with
    | some k =>
        let m := (q * (10 : ℚ) ^ k).num
        let ds := natDigits m.natAbs
        let padded := List.replicate (k + 1 - ds.length) '0' ++ ds
        (if m < 0 then ['-'] else [])
          ++ padded.take (padded.length - k) ++ '.' :: padded.drop (padded.length - k)
    | none => serInt q.num

mutual
def serValue : PyJson → List Char
  | .num q => serNum q
  | .str s => serStr s
  | .null => ['n', 'u', 'l', 'l']
  | .bool false => ['f', 'a', 'l', 's', 'e']
  | .bool true => ['t', 'r', 'u', 'e']
  | .arr es => '[' :: (serElemsList es ++ [']'])
  | .obj ms => '{' :: (serFieldsList ms ++ ['}'])

def serElemsList : List PyJson → List Char
  | [] => []
  | e :: es => serValue e ++ serElemsTail es

def serElemsTail : List PyJson → List Char
  | [] => []
  | e :: es => ',' :: ' ' :: (serValue e ++ serElemsTail es)

def serFieldsList : List (String × PyJson) → List Char
  | [] => []
  | (k, v) :: ms => serStr k ++ ':' :: ' ' :: (serValue v ++ serFieldsTail ms)

def serFieldsTail : List (String × PyJson) → List Char
  | [] => []
  | (k, v) :: ms => ',' :: ' ' :: (serStr k ++ ':' :: ' ' :: (serValue v ++ serFieldsTail ms))
end

/-- `json.dumps` with the default separators. -/
def pyJsonDumps (v : PyJson) : String := String.mk (serValue v)

/-! ## Python text primitives used by the Response Repair / Parser

Models of `str.replace(..., "")`, `str.split("\n")`, `"\n".join`, the
anchored/unanchored `re.sub` patterns of `ai_extractor.py`, and
`re.finditer(r"}\s*,")`. -/

/-- Whether `pat` is an initial segment of `cs`. -/
def startsWithChars : List Char → List Char → Bool
  | [], _ => true
  | _ :: _, [] => false
  | p :: ps, c :: cs => p = c && startsWithChars ps cs

/-- Python `text.replace(pat, "")`: delete non-overlapping occurrences of `pat`
scanning left to right. -/
def pyReplaceEmpty (pat : List Char) (cs : List Char) : List Char :=
  match cs with
  | [] => []
  | c :: rest =>
      if pat ≠ [] ∧ startsWithChars pat (c :: rest) then
        pyReplaceEmpty pat ((c :: rest).drop pat.length)
      else c :: pyReplaceEmpty pat rest
termination_by cs.length
decreasing_by
  · rename_i hp
    have hlen := List.length_drop pat.length (c :: rest)
    simp only [hlen, List.length_cons]
    have : pat.length ≠ 0 := by
      intro h0
      exact hp.1 (List.eq_nil_of_length_eq_zero h0)
    omega
  · simp only [List.length_cons]; omega

/-- Python `text.split("\n")` (empty pieces kept). -/
def splitOnNewline : List Char → List (List Char)
  | [] => [[]]
  | '\n' :: r => [] :: splitOnNewline r
  | c :: r =>
      match splitOnNewline r with
      | l :: ls => (c :: l) :: ls
      | [] => [[c]]

/-- `re.sub(r"^.*?\[", "[", text, count=1, flags=re.DOTALL)` under the guard
`"[" in text`: drop everything before the first `[`. -/
def cutToFirstBracket (cs : List Char) : List Char :=
  if '[' ∈ cs then cs.dropWhile (fun c => ¬ c = '[') else cs

/-- One global pass of `re.sub(r",\s*]", "]", text)`: each comma followed by
whitespace and a closing bracket collapses to the bracket alone. -/
def subCommaWsBracket : List Char → List Char
  | [] => []
  | ',' :: rest =>
      match h : rest.dropWhile isPyWs with
      | ']' :: tail => ']' :: subCommaWsBracket tail
      | _ => ',' :: subCommaWsBracket rest
  | c :: rest => c :: subCommaWsBracket rest
termination_by cs => cs.length
decreasing_by
  · have hd : (rest.dropWhile isPyWs).length ≤ rest.length :=
      (List.dropWhile_sublist isPyWs).length_le
    rw [h] at hd
    simp only [List.length_cons] at hd ⊢
    omega
  · simp only [List.length_cons]; omega
  · simp only [List.length_cons]; omega

/-- `re.sub(r",\s*]$", "]", text)`: a trailing comma (with optional whitespace)
immediately before a final closing bracket is removed. -/
def subTrailingCommaBracket (cs : List Char) : List Char :=
  match cs.reverse with
  | ']' :: r =>
      (match r.dropWhile isPyWs with
       | ',' :: a => (']' :: a).reverse
       | _ => cs)
  | _ => cs

/-- `re.sub(r",\s*$", "", text)`: a trailing comma plus trailing whitespace is
removed from the end. -/
def stripTrailingComma (cs : List Char) : List Char :=
  match cs.reverse.dropWhile isPyWs with
  | ',' :: a => a.reverse
  | _ => cs

/-- `re.search(r"^\s*\[\s*\{", text)`: the text opens a single-object array. -/
def matchesSingleObjectOpen (cs : List Char) : Bool :=
  match cs.dropWhile isPyWs with
  | '[' :: r =>
      (match r.dropWhile isPyWs with
       | '{' :: _ => true
       | _ => false)
  | _ => false

def endsWithBracket (cs : List Char) : Bool := cs.getLast? = some ']'

/-- Does the pattern `}\s*,` of the rescue routine match at offset `i`? -/
def boundaryAt (cs : List Char) (i : ℕ) : Bool :=
  match cs.drop i with
  | '}' :: rest =>
      (match rest.dropWhile isPyWs with
       | ',' :: _ => true
       | _ => false)
  | _ => false

/-- All match offsets of `re.finditer(r"}\s*,", cs)`, in increasing order.
(Two matches of this pattern can never overlap, so the non-overlapping
left-to-right scan of `finditer` finds exactly every offset where the
pattern matches.) -/
def boundaryPositions (cs : List Char) : List ℕ :=
  (List.range cs.length).filter (fun i => boundaryAt cs i)

/-! ## `_rescue_incomplete_json_array` and `_parse_issues_json`
(`src/ai_extractor.py` lines 33–66 and 618–650) -/

/-- The candidate loop of `_rescue_incomplete_json_array`: truncate after the
`}` of each boundary match (tried from the last match backward), append `]`,
collapse `,\s*]` artifacts, and return the first candidate `json.loads`
accepts as a list. -/
def rescueCandidates (t : List Char) : List ℕ → Option (List Char)
  | [] => none
  | i :: is =>
      let candidate := subCommaWsBracket (t.take (i + 1) ++ [']'])
      match jsonLoads candidate with
      | some (.arr _) => some candidate
      | _ => rescueCandidates t is

/-- `_rescue_incomplete_json_array` from `src/ai_extractor.py`. -/
def _rescue_incomplete_json_array (text : List Char) : Option (List Char) :=
  if text = [] ∨ ¬ '[' ∈ text then none
  else
    let t := subTrailingCommaBracket (pyRstrip (text.dropWhile (fun c => ¬ c = '[')))
    if endsWithBracket t then some t
    else
      match rescueCandidates t (boundaryPositions t).reverse with
      | some c => some c
      | none =>
          if matchesSingleObjectOpen t then
            let single := stripTrailingComma t ++ [']']
            match jsonLoads single with
            | some (.arr _) => some single
            | _ => none
          else none

/-- `JSONParseError` (`src/ai_extractor.py` lines 21–25): parse failure carrying
the raw response text. -/
structure JSONParseError where
  raw_response : String
deriving DecidableEq, Repr

/-- A line dropped by `_parse_issues_json`'s fence filter: its strip equals one
of the fence tokens. -/
def isFenceLine (line : List Char) : Bool :=
  pyStrip line == "```".toList || pyStrip line == "```json".toList
    || pyStrip line == "```python".toList

/-- The cleanup prefix of `_parse_issues_json`: strip, remove fence markers,
drop fence-only lines, strip again, and cut to the first `[`. -/
def preClean (cs : List Char) : List Char :=
  let c1 := pyStrip cs
  let c2 := pyStrip (pyReplaceEmpty ("```".toList) (pyReplaceEmpty ("```json".toList) c1))
  let kept := (splitOnNewline c2).filter (fun l => ¬ isFenceLine l)
  cutToFirstBracket (pyStrip (List.intercalate ['\n'] kept))

/-- `_parse_issues_json` from `src/ai_extractor.py`: cleanup, truncation
rescue, trailing-comma collapse, `json.loads`, with a rescue retry before
raising `JSONParseError` (which carries the original response text). -/
def _parse_issues_json (response_text : String) : Except JSONParseError (List PyJson) :=
  let text_before_rescue := pyRstrip (preClean response_text.toList)
  let cleaned_text :=
    if text_before_rescue ≠ [] ∧ ¬ endsWithBracket text_before_rescue then
      match _rescue_incomplete_json_array text_before_rescue with
      | some r => r
      | none => text_before_rescue ++ [']']
    else text_before_rescue
  match jsonLoads (subCommaWsBracket cleaned_text) with
  | some (.arr issues) => .ok issues
  | some _ => .ok []
  | none =>
      if text_before_rescue ≠ [] ∧ ¬ endsWithBracket text_before_rescue then
        match _rescue_incomplete_json_array text_before_rescue with
        | some r =>
            if r ≠ [] then
              match jsonLoads r with
              | some (.arr issues) => .ok issues
              | _ => .error ⟨response_text⟩
            else .error ⟨response_text⟩
        | none => .error ⟨response_text⟩
      else .error ⟨response_text⟩

/-! ## Merge and index-shift logic of `verify_disclosure_against_evidence`
(`src/ai_extractor.py` lines 700–895) -/

/-- Python dict lookup `issue.get(k)` on a parsed JSON object (parsed dicts
have unique keys; on duplicates the last parsed value wins, as in `dict`).
`.get` on a non-dict raises in Python, so theorems restrict to objects. -/
def PyJson.getField : PyJson → String → Option PyJson
  | .obj ms, k => (ms.reverse.find? (fun kv => kv.1 == k)).map Prod.snd
  | _, _ => none

/-- Python dict assignment `issue[k] = v`. -/
def PyJson.setField : PyJson → String → PyJson → PyJson
  | .obj ms, k, v =>
      if ms.any (fun kv => kv.1 == k) then
        .obj (ms.map (fun kv => if kv.1 == k then (kv.1, v) else kv))
      else .obj (ms ++ [(k, v)])
  | j, _, _ => j

def PyJson.isObj : PyJson → Bool
  | .obj _ => true
  | _ => false

/-- `i.get("category") in ("添付資料不足", "資料不足")` — the gating
categories (missing-attachment / insufficient-material findings). -/
def isGatingIssue (issue : PyJson) : Bool :=
  match issue.getField "category" with
  | some (.str s) => s == "添付資料不足" || s == "資料不足"
  | _ => false

/-- Lines 891–894: gating findings of the cross-reference pass first, then the
form-check findings, then the remaining cross-reference findings. -/
def mergeVerifyResults (form_issues issues : List PyJson) : List PyJson :=
  let attachment_items := issues.filter (fun i => isGatingIssue i)
  let other_items := issues.filter (fun i => ! isGatingIssue i)
  attachment_items ++ form_issues ++ other_items

/-- Python `idx is not None and isinstance(idx, (int, float))` on a parsed
JSON value, together with the value `int(idx)` would see: JSON numbers, and
booleans (`bool` is a subclass of `int`; `True`/`False` count 1/0). -/
def pyNumericValue : PyJson → Option ℚ
  | .num q => some q
  | .bool b => some (if b then 1 else 0)
  | _ => none

/-- Lines 746–751: shift a form-check finding's numeric `image_index` by the
evidence-image count: `issue["image_index"] = int(idx) + ref_count`. -/
def shiftImageIndex (ref_count : ℕ) (issue : PyJson) : PyJson :=
  match issue.getField "image_index" with
  | some v =>
      (match pyNumericValue v with
       | some q => issue.setField "image_index" (.num ((pyTrunc q + (ref_count : ℤ) : ℤ) : ℚ))
       | none => issue)
  | none => issue

/-- Outcome of the form-check call, as seen by the orchestrator's `try` on
lines 743–763: a parsed issue list, or one of the two caught failures. -/
inductive FormCheckOutcome where
  | ok (issues : List PyJson)
  | safetyBlocked
  | parseFailed

/-- Lines 754–763: the single synthetic warning finding substituted when the
form-check pass fails. -/
def formCheckFallback : PyJson :=
  .obj [("category", .str "フォームチェック"), ("status", .str "warning"),
        ("item", .str "実行エラー"), ("evidence", .str ""), ("target", .str ""),
        ("message", .str "フォーム記載チェックの実行に失敗しました。照合結果のみ表示しています。"),
        ("box_2d", .null), ("image_index", .null)]

/-- Lines 743–763: the form issues carried into the merge — index-shifted on
success, the synthetic warning on a caught `SafetyBlockError`/`JSONParseError`. -/
def resolveFormIssues (ref_count : ℕ) : FormCheckOutcome → List PyJson
  | .ok issues => issues.map (shiftImageIndex ref_count)
  | .safetyBlocked => [formCheckFallback]
  | .parseFailed => [formCheckFallback]

/-- The cross-reference model call as the orchestrator sees it: blocked (no
candidates / non-STOP finish reason), or a raw response text. -/
inductive CrossCallResult where
  | blocked
  | text (t : String)

/-- The error taxonomy surfaced by the orchestrator. -/
inductive VerifyError where
  | safetyBlock
  | jsonParse (raw : String)

/-- `cleaned_text.rfind("},")`: offset of the `}` of the last exact `},`
occurrence, if any. -/
def lastBraceComma (cs : List Char) : Option ℕ :=
  ((List.range cs.length).filter
    (fun i => startsWithChars ("\x7d,".toList) (cs.drop i))).getLast?

/-- Lines 808–895 of `verify_disclosure_against_evidence`: handle the
cross-reference response (block check, cleanup, rescue, `rfind("},")`
last-resort truncation) and merge with the form issues. -/
def verifyCrossStage (form_issues : List PyJson) (cross : CrossCallResult) :
    Except VerifyError (List PyJson) :=
  match cross with
  | .blocked => .error .safetyBlock
  | .text raw =>
    let response_text := pyStrip raw.toList
    if response_text = [] then .ok form_issues
    else
      let text_before_rescue := pyRstrip (preClean response_text)
      let cleaned_text :=
        if text_before_rescue ≠ [] ∧ ¬ endsWithBracket text_before_rescue then
          match _rescue_incomplete_json_array text_before_rescue with
          | some r => r
          | none => text_before_rescue ++ [']']
        else text_before_rescue
      let final := subCommaWsBracket cleaned_text
      match jsonLoads final with
      | some (.arr issues) => .ok (mergeVerifyResults form_issues issues)
      | some _ => .ok form_issues
      | none =>
        let viaRescue : Option (List PyJson) :=
          if text_before_rescue ≠ [] ∧ ¬ endsWithBracket text_before_rescue then
            match _rescue_incomplete_json_array text_before_rescue with
            | some r =>
                if r ≠ [] then
                  match jsonLoads r with
                  | some (.arr issues) => some issues
                  | some _ => some []
                  | none => none
                else none
            | none => none
          else none
        match viaRescue with
        | some issues => .ok (mergeVerifyResults form_issues issues)
        | none =>
          match lastBraceComma final with
          | some i =>
              (match jsonLoads (subCommaWsBracket (final.take (i + 1) ++ [']'])) with
               | some (.arr issues) => .ok (mergeVerifyResults form_issues issues)
               | some _ => .ok (mergeVerifyResults form_issues [])
               | none => .error (.jsonParse (String.mk response_text)))
          | none => .error (.jsonParse (String.mk response_text))

/-- The merge/error phase of `verify_disclosure_against_evidence` as a function
of the two call outcomes and the evidence-image count. -/
def verify_disclosure_against_evidence (formResult : FormCheckOutcome)
    (ref_count : ℕ) (cross : CrossCallResult) : Except VerifyError (List PyJson) :=
  verifyCrossStage (resolveFormIssues ref_count formResult) cross

/-! ## `_normalize_box_2d` (`app.py` lines 24–38) -/

/-- A Python value as may reach `_normalize_box_2d` (untrusted input). -/
inductive PyVal where
  | none
  | bool (b : Bool)
  | num (q : ℚ)
  | str (s : String)
  | list (elems : List PyVal)
  | dict (fields : List (String × PyVal))

mutual
def pyValOfJson : PyJson → PyVal
  | .null => .none
  | .bool b => .bool b
  | .num q => .num q
  | .str s => .str s
  | .arr es => .list (pyValOfJsonList es)
  | .obj ms => .dict (pyValOfJsonFields ms)

def pyValOfJsonList : List PyJson → List PyVal
  | [] => []
  | e :: es => pyValOfJson e :: pyValOfJsonList es

def pyValOfJsonFields : List (String × PyJson) → List (String × PyVal)
  | [] => []
  | (k, v) :: ms => (k, pyValOfJson v) :: pyValOfJsonFields ms
end

/-- Spec-side wording: a finding "categorized as attachment-completeness or
evidence-sufficiency gating" — the two gating categories of the prompt
(添付資料不足 = missing attachment, 資料不足 = insufficient material). -/
def SpecGatingFinding (f : PyJson) : Prop :=
  f.getField "category" = some (.str "添付資料不足") ∨
  f.getField "category" = some (.str "資料不足")

theorem isGatingIssue_iff (f : PyJson) : isGatingIssue f = true ↔ SpecGatingFinding f := by
  unfold isGatingIssue SpecGatingFinding
  cases h : f.getField "category" with
  | none => simp [h]
  | some v =>
    cases v with
    | str s => simp [h, beq_iff_eq]
    | null => simp [h]
    | bool b => simp [h]
    | num q => simp [h]
    | arr es => simp [h]
    | obj ms => simp [h]

/-- Example findings for the spec's merge-ordering scenario. -/
def exCrossRefFinding : PyJson :=
  .obj [("category", .str "所在"), ("status", .str "error"), ("item", .str "cross-ref A")]

def exAttachmentGapFinding : PyJson :=
  .obj [("category", .str "添付資料不足"), ("status", .str "warning"),
        ("item", .str "attachment-gap")]

def exFormFinding : PyJson :=
  .obj [("category", .str "宅地建物取引士"), ("status", .str "error"),
        ("item", .str "form-issue B")]

/-- C2: the merged output is exactly three groups — the cross-reference
findings with a gating category (in input order), then all form-compliance
findings, then the remaining cross-reference findings — whatever the input
order was; it is a permutation of the two inputs; the gating test agrees with
the spec's wording; and the spec's example instance holds:
`[cross-ref A, attachment-gap]` crossed with `[form-issue B]` merges to
`[attachment-gap, form-issue B, cross-ref A]`. -/
theorem merge_ordering :
    (∀ form cross : List PyJson,
      mergeVerifyResults form cross
        = cross.filter (fun i => isGatingIssue i) ++ form
            ++ cross.filter (fun i => ! isGatingIssue i) ∧
      (mergeVerifyResults form cross).Perm (form ++ cross)) ∧
    (∀ f, isGatingIssue f = true ↔ SpecGatingFinding f) ∧
    mergeVerifyResults [exFormFinding] [exCrossRefFinding, exAttachmentGapFinding]
      = [exAttachmentGapFinding, exFormFinding, exCrossRefFinding] := by
  refine ⟨fun form cross => ⟨by simp only [mergeVerifyResults], ?_⟩, isGatingIssue_iff, ?_⟩
  · have heq : mergeVerifyResults form cross
        = (cross.filter (fun i => isGatingIssue i) ++ form)
            ++ cross.filter (fun i => ! isGatingIssue i) := by
      simp only [mergeVerifyResults]
    rw [heq]
    have hsplit := List.filter_append_perm (fun i => isGatingIssue i) cross
    refine List.Perm.trans (List.perm_append_comm.append_right _) ?_
    rw [List.append_assoc]
    exact hsplit.append_left form
  · simp +decide [mergeVerifyResults, isGatingIssue, PyJson.getField,
      exCrossRefFinding, exAttachmentGapFinding, exFormFinding]

/-! ## Index shift (claim C6) -/

theorem find_map_replace (k : String) (v : PyJson) :
    ∀ l : List (String × PyJson), l.any (fun kv => kv.1 == k) = true →
      ((l.map (fun kv => if kv.1 == k then (kv.1, v) else kv)).find?
          (fun kv => kv.1 == k)).map Prod.snd = some v
  | [], h => by simp at h
  | (k1, v1) :: t, h => by
      by_cases hk : k1 = k
      · subst hk
        simp [List.find?]
      · have hbeq : (k1 == k) = false := by simpa using hk
        have ht : t.any (fun kv => kv.1 == k) = true := by
          simp only [List.any_cons, Bool.or_eq_true] at h
          rcases h with h1 | h1
          · exact absurd (by simpa using h1) hk
          · exact h1
        simp only [List.map_cons, hbeq, Bool.false_eq_true, if_false]
        rw [List.find?_cons_of_neg _ (by simp [hbeq])]
        exact find_map_replace k v t ht

/-- After `issue[k] = v` on an object, reading `k` yields `v`. -/
theorem getField_setField (ms : List (String × PyJson)) (k : String) (v : PyJson) :
    (PyJson.setField (.obj ms) k v).getField k = some v := by
  simp only [PyJson.setField]
  by_cases hany : ms.any (fun kv => kv.1 == k) = true
  · rw [if_pos hany]
    show ((ms.map _).reverse.find? _).map Prod.snd = some v
    rw [← List.map_reverse]
    apply find_map_replace
    rwa [List.any_reverse]
  · rw [if_neg hany]
    show (((ms ++ [(k, v)]).reverse.find? _).map Prod.snd) = some v
    simp [List.reverse_append, List.find?]

/-- A form finding holding a non-integer numeric `image_index`. -/
def exHalfIndexFinding : PyJson :=
  .obj [("category", .str "供託所等"), ("image_index", .num (1/2))]

/-- C6 counterexample: a form-pass finding with numeric `image_index` i = 1/2
and evidence count n = 3 appears in the merged output with `image_index` 3
(`int(0.5) + 3`), not i + n = 3.5 as the claim states for every numeric i. -/
theorem c6_counterexample :
    mergeVerifyResults (resolveFormIssues 3 (.ok [exHalfIndexFinding])) []
      = [.obj [("category", .str "供託所等"), ("image_index", .num 3)]] ∧
    PyJson.getField (.obj [("category", .str "供託所等"), ("image_index", .num 3)]) "image_index"
      = some (.num 3) ∧
    ¬ ((3 : ℚ) = 1/2 + 3) := by
  have htr : pyTrunc ((2 : ℚ)⁻¹) = 0 := by norm_num [pyTrunc]
  refine ⟨?_, ?_, by norm_num⟩
  · simp [mergeVerifyResults, resolveFormIssues, shiftImageIndex, exHalfIndexFinding,
      PyJson.getField, PyJson.setField, pyNumericValue, List.find?, htr]
  · simp [PyJson.getField, List.find?]

/-- C6 amended: a form-pass finding with numeric `image_index` i appears in the
merged output (middle group, form order preserved) with `image_index` equal to
`int(i) + n` — truncation of i, plus the evidence count; for integer-valued i
this is i + n. -/
theorem index_shift (n : ℕ) (form cross : List PyJson) :
    mergeVerifyResults (resolveFormIssues n (.ok form)) cross
      = cross.filter (fun i => isGatingIssue i) ++ form.map (shiftImageIndex n)
          ++ cross.filter (fun i => ! isGatingIssue i) ∧
    (∀ f : PyJson, ∀ i : ℚ, f.getField "image_index" = some (.num i) →
      (shiftImageIndex n f).getField "image_index" = some (.num ((pyTrunc i + (n : ℤ) : ℤ) : ℚ))) := by
  constructor
  · simp only [resolveFormIssues, mergeVerifyResults]
  · intro f i hget
    obtain ⟨ms, rfl⟩ : ∃ ms, f = .obj ms := by
      cases f <;> simp_all [PyJson.getField]
    unfold shiftImageIndex
    rw [hget]
    simp only [pyNumericValue]
    exact getField_setField ms "image_index" _

/-- C6 witness: the spec's own example — a form finding with `image_index` 0
and evidence count 3 is shifted to `image_index` 3. -/
theorem index_shift_witness :
    PyJson.getField (.obj [("image_index", .num 0)]) "image_index" = some (.num 0) ∧
    (shiftImageIndex 3 (.obj [("image_index", .num 0)])).getField "image_index"
      = some (.num 3) := by
  have h0 : PyJson.getField (.obj [("image_index", .num 0)]) "image_index"
      = some (.num 0) := by
    simp [PyJson.getField, List.find?]
  refine ⟨h0, ?_⟩
  have := (index_shift 3 [] []).2 (.obj [("image_index", .num 0)]) 0 h0
  have htr : pyTrunc (0 : ℚ) = 0 := by norm_num [pyTrunc]
  rw [htr] at this
  simpa using this

/-! ## Form-check failure isolation (claim C7) -/

/-- The cross-reference response processing of lines 808–890, separated from
the merge: `some issues` when a finding list is (possibly after repair)
obtained — with `[]` standing for the degrade-to-empty non-list cases — and
`none` when the `JSONParseError` is raised.  (The processing of the response
text never depends on the form-check result.) -/
def crossIssuesOfText (raw : String) : Option (List PyJson) :=
  let response_text := pyStrip raw.toList
  if response_text = [] then some []
  else
    let text_before_rescue := pyRstrip (preClean response_text)
    let cleaned_text :=
      if text_before_rescue ≠ [] ∧ ¬ endsWithBracket text_before_rescue then
        match _rescue_incomplete_json_array text_before_rescue with
        | some r => r
        | none => text_before_rescue ++ [']']
      else text_before_rescue
    let final := subCommaWsBracket cleaned_text
    match jsonLoads final with
    | some (.arr issues) => some issues
    | some _ => some []
    | none =>
      let viaRescue : Option (List PyJson) :=
        if text_before_rescue ≠ [] ∧ ¬ endsWithBracket text_before_rescue then
          match _rescue_incomplete_json_array text_before_rescue with
          | some r =>
              if r ≠ [] then
                match jsonLoads r with
                | some (.arr issues) => some issues
                | some _ => some []
                | none => none
              else none
          | none => none
        else none
      match viaRescue with
      | some issues => some issues
      | none =>
        match lastBraceComma final with
        | some i =>
            (match jsonLoads (subCommaWsBracket (final.take (i + 1) ++ [']'])) with
             | some (.arr issues) => some issues
             | some _ => some []
             | none => none)
        | none => none

theorem mergeVerifyResults_nil (form : List PyJson) :
    mergeVerifyResults form [] = form := by
  simp [mergeVerifyResults]

set_option maxHeartbeats 2000000 in
/-- The cross stage factors as response processing followed by the merge: it
fails exactly when the processing fails, and on success returns the merge of
the form issues with the processed cross issues. -/
theorem verifyCrossStage_factor (form : List PyJson) (raw : String) :
    verifyCrossStage form (.text raw)
      = match crossIssuesOfText raw with
        | some issues => .ok (mergeVerifyResults form issues)
        | none => .error (.jsonParse (String.mk (pyStrip raw.toList))) := by
  simp only [verifyCrossStage, crossIssuesOfText]
  generalize pyStrip raw.toList = rt
  by_cases hempty : rt = []
  · simp [hempty, mergeVerifyResults_nil]
  · simp only [if_neg hempty]
    generalize pyRstrip (preClean rt) = tbr
    by_cases hc : tbr ≠ [] ∧ ¬ endsWithBracket tbr = true
    · simp only [if_pos hc]
      cases hr : _rescue_incomplete_json_array tbr with
      | some r =>
          simp only []
          generalize subCommaWsBracket r = fin
          repeat' split
          all_goals simp_all [mergeVerifyResults_nil]
      | none =>
          simp only []
          generalize subCommaWsBracket (tbr ++ [']']) = fin
          repeat' split
          all_goals simp_all [mergeVerifyResults_nil]
    · simp only [if_neg hc]
      generalize subCommaWsBracket tbr = fin
      repeat' split
      all_goals simp_all [mergeVerifyResults_nil]

/-- C7: when the form-compliance pass fails with a safety block or a parse
failure, exactly one synthetic warning finding (saying the sub-check could not
run) is substituted, the whole operation does not fail, and the
cross-reference pass results are still returned (merged with that single
synthetic finding). -/
theorem form_failure_isolation (outcome : FormCheckOutcome) (n : ℕ)
    (hfail : outcome = .safetyBlocked ∨ outcome = .parseFailed) :
    resolveFormIssues n outcome = [formCheckFallback] ∧
    formCheckFallback.getField "status" = some (.str "warning") ∧
    formCheckFallback.getField "message"
      = some (.str "フォーム記載チェックの実行に失敗しました。照合結果のみ表示しています。") ∧
    (∀ raw issues, crossIssuesOfText raw = some issues →
      verify_disclosure_against_evidence outcome n (.text raw)
        = .ok (mergeVerifyResults [formCheckFallback] issues) ∧
      (mergeVerifyResults [formCheckFallback] issues).Perm
        (formCheckFallback :: issues)) := by
  have hres : resolveFormIssues n outcome = [formCheckFallback] := by
    rcases hfail with rfl | rfl <;> rfl
  refine ⟨hres, ?_, ?_, ?_⟩
  · simp +decide [formCheckFallback, PyJson.getField, List.find?]
  · simp +decide [formCheckFallback, PyJson.getField, List.find?]
  · intro raw issues hcross
    constructor
    · rw [verify_disclosure_against_evidence, hres, verifyCrossStage_factor, hcross]
    · have heq : mergeVerifyResults [formCheckFallback] issues
          = (issues.filter (fun i => isGatingIssue i) ++ [formCheckFallback])
              ++ issues.filter (fun i => ! isGatingIssue i) := by
        simp only [mergeVerifyResults]
      rw [heq]
      have hsplit := List.filter_append_perm (fun i => isGatingIssue i) issues
      refine List.Perm.trans (List.perm_append_comm.append_right _) ?_
      rw [List.append_assoc]
      exact hsplit.append_left [formCheckFallback]

/-- C7 witness: concrete instance — safety-blocked form pass, evidence count 0,
cross response `"[]"`. -/
theorem form_failure_isolation_witness :
    crossIssuesOfText "[]" = some [] ∧
    verify_disclosure_against_evidence .safetyBlocked 0 (.text "[]")
      = .ok (mergeVerifyResults [formCheckFallback] []) := by
  have hcross : crossIssuesOfText "[]" = some [] := by
    simp +decide [crossIssuesOfText, pyStrip, pyRstrip, preClean, pyReplaceEmpty,
      startsWithChars, splitOnNewline, isFenceLine, cutToFirstBracket, isPyWs, isJsonWs,
      subCommaWsBracket, jsonLoads, parseJsonValue, endsWithBracket, List.intercalate,
      List.dropWhile]
  exact ⟨hcross,
    ((form_failure_isolation .safetyBlocked 0 (Or.inl rfl)).2.2.2 "[]" [] hcross).1⟩

/-! ## Round-trip of the JSON codec on integral values

`json.loads` provably inverts `json.dumps` for values whose numbers are all
integers (`IntegralJson`); no restriction on strings is needed, since every
escape the encoder emits is undone by the decoder. -/

mutual
def IntegralJson : PyJson → Prop
  | .null => True
  | .bool _ => True
  | .num q => q.den = 1
  | .str _ => True
  | .arr es => IntegralElems es
  | .obj ms => IntegralFields ms

def IntegralElems : List PyJson → Prop
  | [] => True
  | e :: es => IntegralJson e ∧ IntegralElems es

def IntegralFields : List (String × PyJson) → Prop
  | [] => True
  | (_, v) :: ms => IntegralJson v ∧ IntegralFields ms
end

/-- A continuation that cannot extend a number literal: empty, or starting
with something that is no digit, dot, or exponent marker. -/
def numBreak : List Char → Bool
  | [] => true
  | c :: _ => !(isDigitChar c || c = '.' || c = 'e' || c = 'E')

theorem digitChar_spec (k : ℕ) (hk : k < 10) :
    isDigitChar (Char.ofNat ('0'.toNat + k)) = true ∧
    (Char.ofNat ('0'.toNat + k)).toNat - '0'.toNat = k ∧
    (0 < k → Char.ofNat ('0'.toNat + k) ≠ '0') := by
  interval_cases k <;> refine ⟨by decide, by decide, by decide⟩

theorem natDigits_notNil (n : ℕ) : natDigits n ≠ [] := by
  rw [natDigits]
  split <;> simp

theorem natDigits_digits (n : ℕ) : ∀ c ∈ natDigits n, isDigitChar c = true := by
  induction n using Nat.strongRecOn with
  | ind n ih =>
    intro c hc
    rw [natDigits] at hc
    split at hc
    · rename_i h10
      rw [List.mem_singleton] at hc
      subst hc
      exact (digitChar_spec n h10).1
    · rename_i h10
      rcases List.mem_append.mp hc with h | h
      · exact ih (n / 10) (by omega) c h
      · rw [List.mem_singleton] at h
        subst h
        exact (digitChar_spec (n % 10) (by omega)).1

theorem natDigits_head (n : ℕ) :
    ∃ c t, natDigits n = c :: t ∧ isDigitChar c = true ∧ (0 < n → c ≠ '0') := by
  induction n using Nat.strongRecOn with
  | ind n ih =>
    rw [natDigits]
    split
    · rename_i h10
      exact ⟨_, _, rfl, (digitChar_spec n h10).1, fun hp => (digitChar_spec n h10).2.2 hp⟩
    · rename_i h10
      obtain ⟨c, t, hct, hd, hz⟩ := ih (n / 10) (by omega)
      refine ⟨c, t ++ [Char.ofNat ('0'.toNat + n % 10)], ?_, hd, fun _ => hz (by omega)⟩
      rw [hct]
      rfl

theorem digitsToNat_append_digit (ds : List Char) (c : Char) :
    digitsToNat (ds ++ [c]) = digitsToNat ds * 10 + (c.toNat - '0'.toNat) := by
  simp [digitsToNat, List.foldl_append]

theorem digitsToNat_natDigits (n : ℕ) : digitsToNat (natDigits n) = n := by
  induction n using Nat.strongRecOn with
  | ind n ih =>
    rw [natDigits]
    split
    · rename_i h10
      simp only [digitsToNat, List.foldl_cons, List.foldl_nil]
      have h1 := (digitChar_spec n h10).2.1
      omega
    · rename_i h10
      rw [digitsToNat_append_digit, ih (n / 10) (by omega),
          (digitChar_spec (n % 10) (by omega)).2.1]
      omega

theorem takeDigitRun_stop {cs : List Char} (h : cs = [] ∨ ∀ c t, cs = c :: t → isDigitChar c = false) :
    takeDigitRun cs = ([], cs) := by
  match cs, h with
  | [], _ => rfl
  | c :: t, h =>
      have hc : isDigitChar c = false := by
        rcases h with h | h
        · exact absurd h (by simp)
        · exact h c t rfl
      simp [takeDigitRun, hc]

theorem takeDigitRun_run (ds : List Char) (hds : ∀ c ∈ ds, isDigitChar c = true)
    (rest : List Char) (hrest : takeDigitRun rest = ([], rest)) :
    takeDigitRun (ds ++ rest) = (ds, rest) := by
  induction ds with
  | nil => simpa using hrest
  | cons c t ih =>
      have hc := hds c (by simp)
      have := ih (fun x hx => hds x (by simp [hx]))
      simp [takeDigitRun, hc, this]

theorem numBreak_no_digit {c : Char} {t : List Char} (h : numBreak (c :: t) = true) :
    isDigitChar c = false ∧ c ≠ '.' ∧ c ≠ 'e' ∧ c ≠ 'E' := by
  simp only [numBreak, Bool.not_eq_true', Bool.or_eq_false_iff] at h
  exact ⟨h.1.1.1, by simpa using h.1.1.2, by simpa using h.1.2, by simpa using h.2⟩

theorem takeDigitRun_numBreak {rest : List Char} (h : numBreak rest = true) :
    takeDigitRun rest = ([], rest) := by
  apply takeDigitRun_stop
  match rest, h with
  | [], _ => exact Or.inl rfl
  | c :: t, h =>
      exact Or.inr (fun c' t' heq => by
        cases heq
        exact (numBreak_no_digit h).1)

theorem parseIntDigits_cons_nonzero {c : Char} (hc0 : c ≠ '0')
    (hd : isDigitChar c = true) (cs : List Char) :
    parseIntDigits (c :: cs) = some (c :: (takeDigitRun cs).1, (takeDigitRun cs).2) := by
  unfold parseIntDigits
  split
  · rename_i heq
    obtain ⟨h1, -⟩ := List.cons.injEq .. |>.mp heq
    exact absurd h1 hc0
  · rename_i heq
    obtain ⟨rfl, rfl⟩ := List.cons.injEq .. |>.mp heq
    simp [hd]
  · rename_i heq
    simp at heq

theorem parseIntDigits_natDigits (n : ℕ) (rest : List Char)
    (hrest : takeDigitRun rest = ([], rest)) :
    parseIntDigits (natDigits n ++ rest) = some (natDigits n, rest) := by
  obtain ⟨c, t, hct, hd, hz⟩ := natDigits_head n
  by_cases hn : n = 0
  · subst hn
    have h0 : natDigits 0 = ['0'] := by
      rw [natDigits]
      norm_num
    rw [h0]
    simp [parseIntDigits]
  · have hc0 : c ≠ '0' := hz (Nat.pos_of_ne_zero hn)
    have htail : takeDigitRun (t ++ rest) = (t, rest) :=
      takeDigitRun_run t (fun x hx => natDigits_digits n x (hct ▸ List.mem_cons_of_mem c hx))
        rest hrest
    rw [hct, List.cons_append, parseIntDigits_cons_nonzero hc0 hd, htail]

theorem digitChar_props {c : Char} (h : isDigitChar c = true) :
    c ≠ '-' ∧ isJsonWs c = false ∧ c ≠ ']' ∧ c ≠ '}' ∧ c ≠ '"' ∧ c ≠ '[' ∧
    c ≠ '{' ∧ c ≠ 'n' ∧ c ≠ 't' ∧ c ≠ 'f' ∧ c ≠ ',' ∧ c ≠ ':' := by
  refine ⟨?_, ?_, ?_, ?_, ?_, ?_, ?_, ?_, ?_, ?_, ?_, ?_⟩
  · intro heq; subst heq; exact absurd h (by decide)
  · simp only [isJsonWs, Bool.or_eq_false_iff, decide_eq_false_iff_not]
    refine ⟨⟨⟨?_, ?_⟩, ?_⟩, ?_⟩ <;> (intro heq; subst heq; exact absurd h (by decide))
  all_goals (intro heq; subst heq; exact absurd h (by decide))

theorem parseFracDigits_break {rest : List Char} (hr : numBreak rest = true) :
    parseFracDigits rest = ([], rest) := by
  match rest, hr with
  | [], _ => rfl
  | c :: t, hr =>
      obtain ⟨-, hdot, -, -⟩ := numBreak_no_digit hr
      unfold parseFracDigits
      split
      · rename_i r heq
        obtain ⟨h1, -⟩ := List.cons.injEq .. |>.mp heq
        exact absurd h1 hdot
      · rfl

theorem parseExpPart_break {rest : List Char} (hr : numBreak rest = true) :
    parseExpPart rest = (0, rest) := by
  match rest, hr with
  | [], _ => rfl
  | c :: t, hr =>
      obtain ⟨-, -, he, hE⟩ := numBreak_no_digit hr
      unfold parseExpPart
      split
      all_goals first
        | rfl
        | (rename_i r heq
           obtain ⟨h1, -⟩ := List.cons.injEq .. |>.mp heq
           first
             | exact absurd h1 he
             | exact absurd h1 hE)

theorem parseNumberCore_natDigits (n : ℕ) (rest : List Char) (hr : numBreak rest = true) :
    parseNumberCore (natDigits n ++ rest) = some ((n : ℚ), rest) := by
  unfold parseNumberCore
  rw [parseIntDigits_natDigits n rest (takeDigitRun_numBreak hr)]
  simp only [parseFracDigits_break hr, parseExpPart_break hr, digitsToNat_natDigits]
  norm_num [digitsToNat]

theorem parseNumber_cons_notMinus {c : Char} (hc : c ≠ '-') (cs : List Char) :
    parseNumber (c :: cs) = parseNumberCore (c :: cs) := by
  unfold parseNumber
  split
  · rename_i heq
    obtain ⟨h1, -⟩ := List.cons.injEq .. |>.mp heq
    exact absurd h1 hc
  · rfl

theorem parseNumber_serInt (i : ℤ) (rest : List Char) (hr : numBreak rest = true) :
    parseNumber (serInt i ++ rest) = some ((i : ℚ), rest) := by
  by_cases hi : i < 0
  · have hser : serInt i ++ rest = '-' :: (natDigits i.natAbs ++ rest) := by
      simp [serInt, hi]
    rw [hser]
    show (parseNumberCore (natDigits i.natAbs ++ rest)).map _ = _
    rw [parseNumberCore_natDigits _ _ hr]
    have habs : ((i.natAbs : ℚ)) = -(i : ℚ) := by
      rw [Int.cast_natAbs, abs_of_neg hi]
      push_cast
      ring
    simp [habs]
  · have hser : serInt i ++ rest = natDigits i.natAbs ++ rest := by
      simp [serInt, hi]
    rw [hser]
    obtain ⟨c, t, hct, hd, -⟩ := natDigits_head i.natAbs
    rw [hct, List.cons_append, parseNumber_cons_notMinus (digitChar_props hd).1,
        ← List.cons_append, ← hct, parseNumberCore_natDigits _ _ hr]
    have habs : ((i.natAbs : ℚ)) = (i : ℚ) := by
      rw [Int.cast_natAbs, abs_of_nonneg (not_lt.mp hi)]
    rw [habs]

theorem hexDigit_inverse (d : ℕ) (hd : d < 16) : hexDigitToNat (toLowerHexChar d) = some d := by
  interval_cases d <;> decide

/-- Decoding one encoder-escaped character consumes exactly that character. -/
theorem parseStringBody_escape (c : Char) (acc rest : List Char) :
    parseStringBody acc (escapeJsonChar c ++ rest) = parseStringBody (c :: acc) rest := by
  unfold escapeJsonChar
  by_cases h1 : c = '"'
  · subst h1; simp [parseStringBody, unescapeChar]
  · rw [if_neg h1]
    by_cases h2 : c = '\\'
    · subst h2; simp [parseStringBody, unescapeChar]
    · rw [if_neg h2]
      by_cases h3 : c = '\n'
      · subst h3; simp [parseStringBody, unescapeChar]
      · rw [if_neg h3]
        by_cases h4 : c = '\t'
        · subst h4; simp [parseStringBody, unescapeChar]
        · rw [if_neg h4]
          by_cases h5 : c = '\r'
          · subst h5; simp [parseStringBody, unescapeChar]
          · rw [if_neg h5]
            by_cases h6 : c.toNat = 8
            · rw [if_pos h6]
              have hc : c = Char.ofNat 8 := by
                rw [← h6, Char.ofNat_toNat]
              rw [hc]
              simp [parseStringBody, unescapeChar]
            · rw [if_neg h6]
              by_cases h7 : c.toNat = 12
              · rw [if_pos h7]
                have hc : c = Char.ofNat 12 := by
                  rw [← h7, Char.ofNat_toNat]
                rw [hc]
                simp [parseStringBody, unescapeChar]
              · rw [if_neg h7]
                by_cases h8 : c.toNat < 32
                · rw [if_pos h8]
                  have hhex : hexQuad '0' '0' (toLowerHexChar (c.toNat / 16))
                      (toLowerHexChar (c.toNat % 16)) = some c.toNat := by
                    unfold hexQuad
                    rw [show hexDigitToNat '0' = some 0 from by decide,
                        hexDigit_inverse (c.toNat / 16) (by omega),
                        hexDigit_inverse (c.toNat % 16) (by omega)]
                    simp only [Option.some.injEq]
                    omega
                  have hns : ¬ (0xd800 ≤ c.toNat ∧ c.toNat ≤ 0xdbff) := by omega
                  simp [parseStringBody, hhex, hns, Char.ofNat_toNat]
                · rw [if_neg h8]
                  show parseStringBody acc (c :: rest) = _
                  have hq : c ≠ '"' := h1
                  have hb : c ≠ '\\' := h2
                  rw [parseStringBody.eq_def]
                  split
                  · rename_i heq
                    exact absurd (List.cons.injEq .. |>.mp heq).1 hq
                  · rename_i heq
                    exact absurd (List.cons.injEq .. |>.mp heq).1 hb
                  · rename_i heq
                    exact absurd (List.cons.injEq .. |>.mp heq).1 hb
                  · rename_i heq
                    obtain ⟨hx, hy⟩ := List.cons.injEq .. |>.mp heq
                    cases hy
                    cases hx
                    simp [h8]
                  · rename_i heq
                    simp at heq

/-- Decoding an encoder-escaped character run stops exactly at the closing
quote and recovers the original characters. -/
theorem parseStringBody_encoded (cs : List Char) : ∀ (acc rest : List Char),
    parseStringBody acc (cs.flatMap escapeJsonChar ++ '"' :: rest)
      = some (String.mk (acc.reverse ++ cs), rest) := by
  induction cs with
  | nil => intro acc rest; simp [parseStringBody]
  | cons c t ih =>
      intro acc rest
      rw [List.flatMap_cons, List.append_assoc, parseStringBody_escape, ih]
      simp

/-- The string codec round-trip, in the form the value parser uses. -/
theorem parseStringBody_serStr (s : String) (rest : List Char) :
    parseStringBody [] (s.data.flatMap escapeJsonChar ++ '"' :: rest) = some (s, rest) := by
  rw [parseStringBody_encoded]
  rfl

/-- `serStr` with a continuation, shaped for the parser's quote-consuming
step. -/
theorem serStr_append (s : String) (rest : List Char) :
    serStr s ++ rest = '"' :: (s.data.flatMap escapeJsonChar ++ '"' :: rest) := by
  simp [serStr]

/-- Every rendered integral value starts with a character that is neither
whitespace nor one of the closing delimiters, and is not a comma. -/
theorem serValue_head (v : PyJson) (hv : IntegralJson v) :
    ∃ c t, serValue v = c :: t ∧ isJsonWs c = false ∧ c ≠ ']' ∧ c ≠ '}' ∧ c ≠ ',' := by
  cases v with
  | null => exact ⟨'n', _, rfl, by decide, by decide, by decide, by decide⟩
  | bool b =>
      cases b with
      | true => exact ⟨'t', _, rfl, by decide, by decide, by decide, by decide⟩
      | false => exact ⟨'f', _, rfl, by decide, by decide, by decide, by decide⟩
  | str s => exact ⟨'"', _, rfl, by decide, by decide, by decide, by decide⟩
  | arr es => exact ⟨'[', _, rfl, by decide, by decide, by decide, by decide⟩
  | obj ms => exact ⟨'{', _, rfl, by decide, by decide, by decide, by decide⟩
  | num q =>
      have hden : q.den = 1 := hv
      have hser : serValue (.num q) = serInt q.num := by
        simp [serValue, serNum, hden]
      by_cases hm : q.num < 0
      · refine ⟨'-', natDigits q.num.natAbs, ?_, by decide, by decide, by decide, by decide⟩
        rw [hser]
        simp [serInt, hm]
      · obtain ⟨c, t, hct, hd, -⟩ := natDigits_head q.num.natAbs
        obtain ⟨-, hws, hbr, hbc, -, -, -, -, -, -, hcm, -⟩ := digitChar_props hd
        refine ⟨c, t, ?_, hws, hbr, hbc, hcm⟩
        rw [hser]
        simp [serInt, hm, hct]

/-- Leading JSON whitespace is transparent to the value parser. -/
theorem parseJsonValue_cons_ws (f : ℕ) {c : Char} (hc : isJsonWs c = true) (cs : List Char) :
    parseJsonValue f (c :: cs) = parseJsonValue f cs := by
  cases f with
  | zero => rfl
  | succ f =>
      conv_lhs => rw [parseJsonValue.eq_def]
      conv_rhs => rw [parseJsonValue.eq_def]
      dsimp only
      rw [List.dropWhile_cons_of_pos hc]

theorem parseJsonElems_cons_ws (f : ℕ) {c : Char} (hc : isJsonWs c = true) (cs : List Char) :
    parseJsonElems f (c :: cs) = parseJsonElems f cs := by
  cases f with
  | zero => rfl
  | succ f =>
      conv_lhs => rw [parseJsonElems.eq_def]
      conv_rhs => rw [parseJsonElems.eq_def]
      dsimp only
      rw [parseJsonValue_cons_ws f hc]

theorem parseJsonFields_cons_ws (f : ℕ) {c : Char} (hc : isJsonWs c = true) (cs : List Char) :
    parseJsonFields f (c :: cs) = parseJsonFields f cs := by
  cases f with
  | zero => rfl
  | succ f =>
      conv_lhs => rw [parseJsonFields.eq_def]
      conv_rhs => rw [parseJsonFields.eq_def]
      dsimp only
      rw [List.dropWhile_cons_of_pos hc]

theorem parseJsonValue_serStr (f : ℕ) (s : String) (rest : List Char) :
    parseJsonValue (f + 1) (serStr s ++ rest) = some (.str s, rest) := by
  rw [serStr_append]
  conv_lhs => rw [parseJsonValue.eq_def]
  dsimp only
  rw [List.dropWhile_cons_of_neg (by decide)]
  simp [parseStringBody_serStr]

theorem parseJsonValue_null (f : ℕ) (rest : List Char) :
    parseJsonValue (f + 1) (serValue .null ++ rest) = some (.null, rest) := by
  conv_lhs => rw [parseJsonValue.eq_def]
  dsimp only [serValue]
  simp +decide [List.dropWhile, isJsonWs]

theorem parseJsonValue_bool (f : ℕ) (b : Bool) (rest : List Char) :
    parseJsonValue (f + 1) (serValue (.bool b) ++ rest) = some (.bool b, rest) := by
  cases b <;> (conv_lhs => rw [parseJsonValue.eq_def])
  all_goals (dsimp only [serValue]; simp +decide [List.dropWhile, isJsonWs])

theorem parseJsonValue_to_number (f : ℕ) {c : Char} (t : List Char)
    (hws : isJsonWs c = false) (hn : c ≠ 'n') (ht : c ≠ 't') (hf : c ≠ 'f')
    (hq : c ≠ '"') (hk : c ≠ '[') (hb : c ≠ '{') (hg : c = '-' ∨ isDigitChar c = true) :
    parseJsonValue (f + 1) (c :: t)
      = match parseNumber (c :: t) with
        | some (q, r2) => some (.num q, r2)
        | none => none := by
  conv_lhs => rw [parseJsonValue.eq_def]
  dsimp only
  rw [List.dropWhile_cons_of_neg (by simp [hws])]
  split
  all_goals
    (rename_i heq;
     first
       | (injection heq with hx hy;
          first
            | exact absurd hx hn
            | exact absurd hx ht
            | exact absurd hx hf
            | exact absurd hx hq
            | exact absurd hx hk
            | exact absurd hx hb
            | (cases hy; cases hx; rw [if_pos hg]))
       | injection heq)

theorem rat_cast_num_of_den_one {q : ℚ} (hq : q.den = 1) : ((q.num : ℚ)) = q := by
  have h := Rat.num_div_den q
  rw [hq] at h
  simpa using h

theorem parseJsonValue_serNum (f : ℕ) (q : ℚ) (hden : q.den = 1) (rest : List Char)
    (hr : numBreak rest = true) :
    parseJsonValue (f + 1) (serValue (.num q) ++ rest) = some (.num q, rest) := by
  have hser : serValue (.num q) = serInt q.num := by
    simp [serValue, serNum, hden]
  have hnum := parseNumber_serInt q.num rest hr
  have hcast := rat_cast_num_of_den_one hden
  by_cases hm : q.num < 0
  · have hshape : serInt q.num ++ rest = '-' :: (natDigits q.num.natAbs ++ rest) := by
      simp [serInt, hm]
    rw [hser, hshape,
        parseJsonValue_to_number f _ (by decide) (by decide) (by decide) (by decide)
          (by decide) (by decide) (by decide) (Or.inl rfl),
        ← hshape, hnum, hcast]
  · obtain ⟨c, t, hct, hd, -⟩ := natDigits_head q.num.natAbs
    obtain ⟨hminus, hws, -, -, hq', hk, hb, hn, ht, hf, -, -⟩ := digitChar_props hd
    have hshape : serInt q.num ++ rest = c :: (t ++ rest) := by
      simp [serInt, hm, hct]
    rw [hser, hshape,
        parseJsonValue_to_number f _ hws hn ht hf hq' hk hb (Or.inr hd),
        ← hshape, hnum, hcast]

theorem parseJsonValue_open_bracket (f : ℕ) (r : List Char) :
    parseJsonValue (f + 1) ('[' :: r)
      = match r.dropWhile isJsonWs with
        | ']' :: r2 => some (.arr [], r2)
        | r2 =>
            match parseJsonElems f r2 with
            | some (es, r3) => some (.arr es, r3)
            | none => none := by
  conv_lhs => rw [parseJsonValue.eq_def]
  dsimp only
  rw [List.dropWhile_cons_of_neg (by decide)]
  rfl

theorem parseJsonValue_open_brace (f : ℕ) (r : List Char) :
    parseJsonValue (f + 1) ('{' :: r)
      = match r.dropWhile isJsonWs with
        | '}' :: r2 => some (.obj [], r2)
        | r2 =>
            match parseJsonFields f r2 with
            | some (ms, r3) => some (.obj ms, r3)
            | none => none := by
  conv_lhs => rw [parseJsonValue.eq_def]
  dsimp only
  rw [List.dropWhile_cons_of_neg (by decide)]
  rfl

theorem numBreak_bracket (t : List Char) : numBreak (']' :: t) = true := rfl
theorem numBreak_brace (t : List Char) : numBreak ('}' :: t) = true := rfl
theorem numBreak_comma (t : List Char) : numBreak (',' :: t) = true := rfl

mutual
theorem rtValue : ∀ (v : PyJson) (f : ℕ) (rest : List Char),
    IntegralJson v → (serValue v).length < f → numBreak rest = true →
    parseJsonValue f (serValue v ++ rest) = some (v, rest)
  | .null, f, rest, _, hf, _ => by
      cases f with
      | zero => simp [serValue] at hf
      | succ f => exact parseJsonValue_null f rest
  | .bool b, f, rest, _, hf, _ => by
      cases f with
      | zero => cases b <;> simp [serValue] at hf
      | succ f => exact parseJsonValue_bool f b rest
  | .num q, f, rest, hv, hf, hr => by
      cases f with
      | zero => exact absurd hf (by omega)
      | succ f => exact parseJsonValue_serNum f q hv rest hr
  | .str s, f, rest, _, hf, _ => by
      cases f with
      | zero => exact absurd hf (by omega)
      | succ f =>
          have : serValue (.str s) = serStr s := rfl
          rw [this]
          exact parseJsonValue_serStr f s rest
  | .arr [], f, rest, _, hf, _ => by
      cases f with
      | zero => simp [serValue, serElemsList] at hf
      | succ f =>
          have hshape : serValue (.arr []) ++ rest = '[' :: (']' :: rest) := by
            simp [serValue, serElemsList]
          rw [hshape, parseJsonValue_open_bracket]
          rw [List.dropWhile_cons_of_neg (by decide)]
          rfl
  | .arr (e :: es), f, rest, hv, hf, _ => by
      cases f with
      | zero => exact absurd hf (by omega)
      | succ f =>
          have hint : IntegralElems (e :: es) := hv
          have hshape : serValue (.arr (e :: es)) ++ rest
              = '[' :: (serElemsList (e :: es) ++ ']' :: rest) := by
            simp [serValue]
          rw [hshape, parseJsonValue_open_bracket]
          obtain ⟨c, t, hct, hws, hbr, -, -⟩ := serValue_head e hint.1
          have hcons : serElemsList (e :: es) ++ ']' :: rest
              = c :: (t ++ serElemsTail es ++ ']' :: rest) := by
            simp [serElemsList, hct]
          have hfe : (serElemsList (e :: es)).length + 1 < f := by
            simp only [serValue, List.length_cons, List.length_append] at hf
            omega
          have key := rtElems e es f rest hint hfe
          rw [hcons, List.dropWhile_cons_of_neg (by simp [hws])]
          split
          · rename_i heq
            obtain ⟨hx, -⟩ := List.cons.injEq .. |>.mp heq
            exact absurd hx hbr
          · rw [← hcons, key]
  | .obj [], f, rest, _, hf, _ => by
      cases f with
      | zero => simp [serValue, serFieldsList] at hf
      | succ f =>
          have hshape : serValue (.obj []) ++ rest = '{' :: ('}' :: rest) := by
            simp [serValue, serFieldsList]
          rw [hshape, parseJsonValue_open_brace]
          rw [List.dropWhile_cons_of_neg (by decide)]
          rfl
  | .obj (kv :: ms), f, rest, hv, hf, _ => by
      cases f with
      | zero => exact absurd hf (by omega)
      | succ f =>
          have hint : IntegralFields (kv :: ms) := hv
          have hshape : serValue (.obj (kv :: ms)) ++ rest
              = '{' :: (serFieldsList (kv :: ms) ++ '}' :: rest) := by
            simp [serValue]
          rw [hshape, parseJsonValue_open_brace]
          have hcons : serFieldsList (kv :: ms) ++ '}' :: rest
              = '"' :: (kv.1.data.flatMap escapeJsonChar
                  ++ '"' :: (':' :: ' ' :: (serValue kv.2 ++ serFieldsTail ms)
                      ++ '}' :: rest)) := by
            obtain ⟨k, v⟩ := kv
            simp [serFieldsList, serStr]
          have hfm : (serFieldsList (kv :: ms)).length + 1 < f := by
            simp only [serValue, List.length_cons, List.length_append] at hf
            omega
          have key := rtFields kv ms f rest hint hfm
          rw [hcons, List.dropWhile_cons_of_neg (by decide)]
          split
          · rename_i heq
            injection heq with hx hy
            exact absurd hx (by decide)
          · rw [← hcons, key]
  termination_by v => sizeOf v

theorem rtElems : ∀ (e : PyJson) (es : List PyJson) (f : ℕ) (rest : List Char),
    IntegralElems (e :: es) → (serElemsList (e :: es)).length + 1 < f →
    parseJsonElems f (serElemsList (e :: es) ++ ']' :: rest) = some (e :: es, rest)
  | e, [], f, rest, hint, hf => by
      cases f with
      | zero => omega
      | succ f =>
          have hfe : (serValue e).length < f := by
            simp only [serElemsList, serElemsTail, List.length_append,
              List.length_nil] at hf
            omega
          have hv := rtValue e f (']' :: rest) hint.1 hfe (numBreak_bracket rest)
          have hshape : serElemsList (e :: []) ++ ']' :: rest
              = serValue e ++ ']' :: rest := by
            simp [serElemsList, serElemsTail]
          conv_lhs => rw [parseJsonElems.eq_def]
          dsimp only
          rw [hshape, hv]
          dsimp only
          rw [List.dropWhile_cons_of_neg (by decide)]
          rfl
  | e, x :: xs, f, rest, hint, hf => by
      cases f with
      | zero => omega
      | succ f =>
          have hlen : (serElemsList (e :: x :: xs)).length
              = (serValue e).length + 2 + (serElemsList (x :: xs)).length := by
            simp [serElemsList, serElemsTail]
            omega
          have hfe : (serValue e).length < f := by omega
          have hfx : (serElemsList (x :: xs)).length + 1 < f := by omega
          have hv := rtValue e f (',' :: ' ' :: (serElemsList (x :: xs) ++ ']' :: rest))
            hint.1 hfe (numBreak_comma _)
          have key := rtElems x xs f rest hint.2 hfx
          have hshape : serElemsList (e :: x :: xs) ++ ']' :: rest
              = serValue e ++ ',' :: ' ' :: (serElemsList (x :: xs) ++ ']' :: rest) := by
            simp [serElemsList, serElemsTail]
          conv_lhs => rw [parseJsonElems.eq_def]
          dsimp only
          rw [hshape, hv]
          dsimp only
          rw [List.dropWhile_cons_of_neg (by decide)]
          have hws : isJsonWs ' ' = true := by decide
          split
          · rename_i r2 heq
            injection heq with hx hy
            cases hy
            rw [parseJsonElems_cons_ws f hws, key]
          · rename_i heq
            injection heq with hx hy
            exact absurd hx (by decide)
          · rename_i g1 g2
            exact absurd rfl (g1 _)
  termination_by e es => sizeOf e + sizeOf es

theorem rtFields : ∀ (kv : String × PyJson) (ms : List (String × PyJson)) (f : ℕ)
    (rest : List Char),
    IntegralFields (kv :: ms) → (serFieldsList (kv :: ms)).length + 1 < f →
    parseJsonFields f (serFieldsList (kv :: ms) ++ '}' :: rest) = some (kv :: ms, rest)
  | (k, v), [], f, rest, hint, hf => by
      cases f with
      | zero => omega
      | succ f =>
          have hfe : (serValue v).length < f := by
            simp only [serFieldsList, serFieldsTail, serStr, List.length_append,
              List.length_cons, List.length_nil] at hf
            omega
          have hv := rtValue v f ('}' :: rest) hint.1 hfe (numBreak_brace rest)
          have hshape : serFieldsList ((k, v) :: []) ++ '}' :: rest
              = '"' :: (k.data.flatMap escapeJsonChar
                  ++ '"' :: (':' :: (' ' :: (serValue v ++ '}' :: rest)))) := by
            simp [serFieldsList, serFieldsTail, serStr]
          conv_lhs => rw [parseJsonFields.eq_def]
          dsimp only
          rw [hshape, List.dropWhile_cons_of_neg (by decide)]
          split
          · rename_i r0 heq0
            injection heq0 with hx0 hy0
            cases hy0
            rw [parseStringBody_serStr]
            dsimp only
            rw [List.dropWhile_cons_of_neg (by decide)]
            split
            · rename_i r2 heq
              injection heq with hx hy
              cases hy
              rw [parseJsonValue_cons_ws f (by decide), hv]
              dsimp only
              rw [List.dropWhile_cons_of_neg (by decide)]
              rfl
            · rename_i g
              exact absurd rfl (g _)
          · rename_i g
            exact absurd rfl (g _)
  | (k, v), m :: ms, f, rest, hint, hf => by
      cases f with
      | zero => omega
      | succ f =>
          have hlen : (serFieldsList ((k, v) :: m :: ms)).length
              = (serStr k).length + 2 + (serValue v).length + 2
                  + (serFieldsList (m :: ms)).length := by
            obtain ⟨k2, v2⟩ := m
            simp [serFieldsList, serFieldsTail, serStr]
            omega
          have hfe : (serValue v).length < f := by omega
          have hfx : (serFieldsList (m :: ms)).length + 1 < f := by omega
          have hv := rtValue v f
            (',' :: ' ' :: (serFieldsList (m :: ms) ++ '}' :: rest))
            hint.1 hfe (numBreak_comma _)
          have key := rtFields m ms f rest hint.2 hfx
          have hshape : serFieldsList ((k, v) :: m :: ms) ++ '}' :: rest
              = '"' :: (k.data.flatMap escapeJsonChar
                  ++ '"' :: (':' :: (' ' :: (serValue v
                      ++ ',' :: ' ' :: (serFieldsList (m :: ms) ++ '}' :: rest))))) := by
            obtain ⟨k2, v2⟩ := m
            simp [serFieldsList, serFieldsTail, serStr]
          conv_lhs => rw [parseJsonFields.eq_def]
          dsimp only
          rw [hshape, List.dropWhile_cons_of_neg (by decide)]
          split
          · rename_i r0 heq0
            injection heq0 with hx0 hy0
            cases hy0
            rw [parseStringBody_serStr]
            dsimp only
            rw [List.dropWhile_cons_of_neg (by decide)]
            split
            · rename_i r2 heq
              injection heq with hx hy
              cases hy
              rw [parseJsonValue_cons_ws f (by decide), hv]
              dsimp only
              rw [List.dropWhile_cons_of_neg (by decide)]
              split
              · rename_i r4 heq2
                injection heq2 with hx2 hy2
                cases hy2
                rw [parseJsonFields_cons_ws f (by decide), key]
              · rename_i heq2
                injection heq2 with hx2 hy2
                exact absurd hx2 (by decide)
              · rename_i g1 g2
                exact absurd rfl (g1 _)
            · rename_i g
              exact absurd rfl (g _)
          · rename_i g
            exact absurd rfl (g _)
  termination_by kv ms => sizeOf kv + sizeOf ms
end

theorem jsonLoads_serValue (v : PyJson) (hv : IntegralJson v) :
    jsonLoads (serValue v) = some v := by
  have h := rtValue v ((serValue v).length + 1) [] hv (by omega) rfl
  rw [List.append_nil] at h
  simp [jsonLoads, h]

/-! ### Consumed-prefix analysis of the parser

For the unrecoverable-input theorem we characterise the text a successful
parse consumes: it is a prefix of the input whose last character is a digit,
a closing quote, a letter of a literal, `]` or `}` — and it can end in `]`
only when it contains `[`. -/

theorem takeDigitRun_split : ∀ cs : List Char,
    cs = (takeDigitRun cs).1 ++ (takeDigitRun cs).2 ∧
    ∀ d ∈ (takeDigitRun cs).1, isDigitChar d = true
  | [] => by simp [takeDigitRun]
  | c :: cs => by
      by_cases h : isDigitChar c
      · have ih := takeDigitRun_split cs
        simp only [takeDigitRun, if_pos h]
        refine ⟨by simpa using ih.1, ?_⟩
        intro d hd
        rcases List.mem_cons.mp hd with rfl | hd
        · exact h
        · exact ih.2 d hd
      · simp [takeDigitRun, if_neg h]

theorem parseIntDigits_split (cs ids r : List Char)
    (h : parseIntDigits cs = some (ids, r)) :
    cs = ids ++ r ∧ ∃ d, ids.getLast? = some d ∧ isDigitChar d = true := by
  rw [parseIntDigits.eq_def] at h
  split at h
  · simp only [Option.some.injEq, Prod.mk.injEq] at h
    obtain ⟨rfl, rfl⟩ := h
    exact ⟨rfl, '0', rfl, by decide⟩
  · rename_i c2 cs2 hg
    split at h
    · rename_i hd
      simp only [Option.some.injEq, Prod.mk.injEq] at h
      obtain ⟨rfl, rfl⟩ := h
      have hrun := takeDigitRun_split cs2
      refine ⟨by simpa using hrun.1, ?_⟩
      rcases heq : (takeDigitRun cs2).1.getLast? with _ | d
      · refine ⟨c2, ?_, hd⟩
        rw [List.getLast?_eq_none_iff] at heq
        rw [heq]; rfl
      · refine ⟨d, ?_, hrun.2 d (List.mem_of_mem_getLast? heq)⟩
        have hne : (takeDigitRun cs2).1 ≠ [] := by
          intro hnil; rw [hnil] at heq; simp at heq
        have hc : (c2 :: (takeDigitRun cs2).1) = [c2] ++ (takeDigitRun cs2).1 := rfl
        rw [hc, List.getLast?_append_of_ne_nil _ hne, heq]
    · simp at h
  · simp at h

theorem takeDigitRun_success (X ds r3 : List Char) (hg : ds ≠ [])
    (heq : takeDigitRun X = (ds, r3)) :
    X = ds ++ r3 ∧ ∃ d, ds.getLast? = some d ∧ isDigitChar d = true := by
  have hrun := takeDigitRun_split X
  rw [heq] at hrun
  refine ⟨by simpa using hrun.1, ?_⟩
  rcases hlast : ds.getLast? with _ | d
  · rw [List.getLast?_eq_none_iff] at hlast
    exact absurd hlast hg
  · exact ⟨d, rfl, hrun.2 d (List.mem_of_mem_getLast? hlast)⟩

theorem parseFracDigits_split (cs : List Char) :
    parseFracDigits cs = ([], cs) ∨
    (cs = '.' :: (parseFracDigits cs).1 ++ (parseFracDigits cs).2 ∧
     ∃ d, (parseFracDigits cs).1.getLast? = some d ∧ isDigitChar d = true) := by
  rw [parseFracDigits.eq_def]
  split
  · rename_i r
    split
    · left; rfl
    · rename_i ds r2 hg heq
      right
      obtain ⟨h1, d, hl, hd⟩ := takeDigitRun_success r ds r2 (fun h => hg h) heq
      refine ⟨?_, d, hl, hd⟩
      rw [h1]
      rfl
  · left; rfl

theorem expCons_last (c0 : Char) (ds : List Char) (d : Char)
    (hl : ds.getLast? = some d) : (c0 :: ds).getLast? = some d := by
  have hne : ds ≠ [] := by intro hnil; rw [hnil] at hl; simp at hl
  have hc : (c0 :: ds) = [c0] ++ ds := rfl
  rw [hc, List.getLast?_append_of_ne_nil _ hne, hl]

theorem expTail_last (c0 s0 : Char) (ds : List Char) (d : Char)
    (hl : ds.getLast? = some d) : (c0 :: s0 :: ds).getLast? = some d := by
  have hne : ds ≠ [] := by intro hnil; rw [hnil] at hl; simp at hl
  have hc : (c0 :: s0 :: ds) = [c0, s0] ++ ds := rfl
  rw [hc, List.getLast?_append_of_ne_nil _ hne, hl]

theorem parseExpPart_split (cs : List Char) :
    (parseExpPart cs).2 = cs ∨
    ∃ mid d, cs = mid ++ (parseExpPart cs).2 ∧ mid.getLast? = some d ∧
      isDigitChar d = true := by
  rw [parseExpPart.eq_def]
  split
  · rename_i r
    split
    · rename_i r2
      split
      · left; rfl
      · rename_i ds r3 hg heq
        obtain ⟨h1, d, hl, hd⟩ := takeDigitRun_success r2 ds r3 (fun h => hg h) heq
        exact Or.inr ⟨'e' :: '+' :: ds, d, by rw [h1]; rfl, expTail_last _ _ _ _ hl, hd⟩
    · rename_i r2
      split
      · left; rfl
      · rename_i ds r3 hg heq
        obtain ⟨h1, d, hl, hd⟩ := takeDigitRun_success r2 ds r3 (fun h => hg h) heq
        exact Or.inr ⟨'e' :: '-' :: ds, d, by rw [h1]; rfl, expTail_last _ _ _ _ hl, hd⟩
    · split
      · left; rfl
      · rename_i ds r3 hg heq
        obtain ⟨h1, d, hl, hd⟩ := takeDigitRun_success r ds r3 (fun h => hg h) heq
        exact Or.inr ⟨'e' :: ds, d, by rw [h1]; rfl, expCons_last _ _ _ hl, hd⟩
  · rename_i r
    split
    · rename_i r2
      split
      · left; rfl
      · rename_i ds r3 hg heq
        obtain ⟨h1, d, hl, hd⟩ := takeDigitRun_success r2 ds r3 (fun h => hg h) heq
        exact Or.inr ⟨'E' :: '+' :: ds, d, by rw [h1]; rfl, expTail_last _ _ _ _ hl, hd⟩
    · rename_i r2
      split
      · left; rfl
      · rename_i ds r3 hg heq
        obtain ⟨h1, d, hl, hd⟩ := takeDigitRun_success r2 ds r3 (fun h => hg h) heq
        exact Or.inr ⟨'E' :: '-' :: ds, d, by rw [h1]; rfl, expTail_last _ _ _ _ hl, hd⟩
    · split
      · left; rfl
      · rename_i ds r3 hg heq
        obtain ⟨h1, d, hl, hd⟩ := takeDigitRun_success r ds r3 (fun h => hg h) heq
        exact Or.inr ⟨'E' :: ds, d, by rw [h1]; rfl, expCons_last _ _ _ hl, hd⟩
  · left; rfl

theorem parseNumberCore_split (cs : List Char) (q : ℚ) (rest : List Char)
    (h : parseNumberCore cs = some (q, rest)) :
    ∃ pre d, cs = pre ++ rest ∧ pre.getLast? = some d ∧ isDigitChar d = true := by
  rw [parseNumberCore.eq_def] at h
  split at h
  · simp at h
  · rename_i ids cs2 heq
    simp only [Option.some.injEq, Prod.mk.injEq] at h
    obtain ⟨-, hrest⟩ := h
    obtain ⟨hint, d1, hl1, hd1⟩ := parseIntDigits_split cs ids cs2 heq
    rcases parseFracDigits_split cs2 with hF | ⟨hcs2, d2, hl2, hd2⟩
    · rcases parseExpPart_split (parseFracDigits cs2).2 with hE |
        ⟨mid, d3, hE, hl3, hd3⟩
      · have hrc : rest = cs2 := by rw [← hrest, hE, hF]
        exact ⟨ids, d1, by rw [hint, hrc], hl1, hd1⟩
      · have hmidne : mid ≠ [] := by intro hnil; rw [hnil] at hl3; simp at hl3
        rw [hF] at hE hrest
        dsimp only at hE hrest
        rw [hrest] at hE
        refine ⟨ids ++ mid, d3, ?_, ?_, hd3⟩
        · rw [hint, hE]; simp [List.append_assoc]
        · rw [List.getLast?_append_of_ne_nil _ hmidne, hl3]
    · rcases parseExpPart_split (parseFracDigits cs2).2 with hE |
        ⟨mid, d3, hE, hl3, hd3⟩
      · have hrc : rest = (parseFracDigits cs2).2 := by rw [← hrest, hE]
        refine ⟨ids ++ '.' :: (parseFracDigits cs2).1, d2, ?_, ?_, hd2⟩
        · rw [hint, hrc]
          conv_lhs => rw [hcs2]
          simp [List.append_assoc]
        · rw [List.getLast?_append_of_ne_nil _ (by simp)]
          exact expCons_last _ _ _ hl2
      · have hmidne : mid ≠ [] := by intro hnil; rw [hnil] at hl3; simp at hl3
        rw [hrest] at hE
        refine ⟨ids ++ ('.' :: (parseFracDigits cs2).1 ++ mid), d3, ?_, ?_, hd3⟩
        · rw [hint]
          conv_lhs => rw [hcs2, hE]
          simp [List.append_assoc]
        · rw [List.getLast?_append_of_ne_nil _ (by simp),
            List.getLast?_append_of_ne_nil _ hmidne, hl3]

theorem parseNumber_split (cs : List Char) (q : ℚ) (rest : List Char)
    (h : parseNumber cs = some (q, rest)) :
    ∃ pre d, cs = pre ++ rest ∧ pre.getLast? = some d ∧ isDigitChar d = true := by
  rw [parseNumber.eq_def] at h
  split at h
  · rename_i r
    rcases hc : parseNumberCore r with _ | p
    · rw [hc] at h; simp at h
    · rw [hc] at h
      simp only [Option.map_some', Option.some.injEq, Prod.mk.injEq] at h
      obtain ⟨-, hrest⟩ := h
      obtain ⟨pre, d, h1, hl, hd⟩ := parseNumberCore_split r p.1 p.2 (by rw [hc])
      refine ⟨'-' :: pre, d, ?_, expCons_last _ _ _ hl, hd⟩
      rw [← hrest, h1]
      rfl
  · exact parseNumberCore_split cs q rest h

theorem preExtend (xs pre : List Char) (hl : pre.getLast? = some '"') :
    (xs ++ pre).getLast? = some '"' := by
  have hne : pre ≠ [] := by intro hnil; rw [hnil] at hl; simp at hl
  rw [List.getLast?_append_of_ne_nil _ hne, hl]

theorem parseStringBody_split (acc cs : List Char) :
    ∀ (s : String) (rest : List Char),
      parseStringBody acc cs = some (s, rest) →
      ∃ pre, cs = pre ++ rest ∧ pre.getLast? = some '"' := by
  induction acc, cs using parseStringBody.induct with
  | case1 acc r =>
      intro s rest h
      simp only [parseStringBody, Option.some.injEq, Prod.mk.injEq] at h
      exact ⟨['"'], by rw [h.2]; rfl, rfl⟩
  | case2 acc a b c d r hq =>
      intro s rest h
      rw [parseStringBody.eq_def] at h
      split at h
      · rename_i r2 heq
        injection heq with hx _
        exact absurd hx (by decide)
      · rename_i ax bx cx dx rx heq
        injection heq with h0 heq
        injection heq with h0u heq
        injection heq with h1 heq
        injection heq with h2 heq
        injection heq with h3 heq
        injection heq with h4 heq
        subst h1; subst h2; subst h3; subst h4; subst heq
        simp only [hq] at h
        exact Option.noConfusion h
      · rename_i e2 rr hg heq
        injection heq with h0 heq
        injection heq with he hr2
        exact (hg a b c d r he.symm hr2.symm).elim
      · rename_i c2 r2 hga hgb hgc heq
        injection heq with h1 h2
        exact (hgb a b c d r h1.symm h2.symm).elim
      · rename_i heq
        exact List.noConfusion heq
  | case3 acc a b c d n hq hr a2 b2 c2 d2 r2 m hq2 hm ih =>
      intro s rest h
      rw [parseStringBody.eq_def] at h
      split at h
      · rename_i r0 heq
        injection heq with hx _
        exact absurd hx (by decide)
      · rename_i ax bx cx dx rx heq
        injection heq with h0 heq
        injection heq with h0u heq
        injection heq with h1 heq
        injection heq with h2 heq
        injection heq with h3 heq
        injection heq with h4 heq
        subst h1; subst h2; subst h3; subst h4; subst heq
        simp only [hq] at h
        rw [if_pos hr] at h
        simp only [hq2] at h
        rw [if_pos hm] at h
        obtain ⟨pre2, hp1, hp2⟩ := ih s rest h
        refine ⟨['\\', 'u', a, b, c, d, '\\', 'u', a2, b2, c2, d2] ++ pre2, ?_,
          preExtend _ _ hp2⟩
        rw [hp1]
        simp
      · rename_i e2 rr hg heq
        injection heq with h0 heq
        injection heq with he hr2
        exact (hg a b c d _ he.symm hr2.symm).elim
      · rename_i c2 r0 hga hgb hgc heq
        injection heq with h1 h2
        exact (hgb a b c d _ h1.symm h2.symm).elim
      · rename_i heq
        exact List.noConfusion heq
  | case4 acc a b c d n hq hr a2 b2 c2 d2 r2 m hq2 hm ih =>
      intro s rest h
      rw [parseStringBody.eq_def] at h
      split at h
      · rename_i r0 heq
        injection heq with hx _
        exact absurd hx (by decide)
      · rename_i ax bx cx dx rx heq
        injection heq with h0 heq
        injection heq with h0u heq
        injection heq with h1 heq
        injection heq with h2 heq
        injection heq with h3 heq
        injection heq with h4 heq
        subst h1; subst h2; subst h3; subst h4; subst heq
        simp only [hq] at h
        rw [if_pos hr] at h
        simp only [hq2] at h
        rw [if_neg hm] at h
        obtain ⟨pre2, hp1, hp2⟩ := ih s rest h
        refine ⟨['\\', 'u', a, b, c, d] ++ pre2, ?_, preExtend _ _ hp2⟩
        rw [hp1]
        simp
      · rename_i e2 rr hg heq
        injection heq with h0 heq
        injection heq with he hr2
        exact (hg a b c d _ he.symm hr2.symm).elim
      · rename_i c2 r0 hga hgb hgc heq
        injection heq with h1 h2
        exact (hgb a b c d _ h1.symm h2.symm).elim
      · rename_i heq
        exact List.noConfusion heq
  | case5 acc a b c d n hq hr a2 b2 c2 d2 r2 hq2 ih =>
      intro s rest h
      rw [parseStringBody.eq_def] at h
      split at h
      · rename_i r0 heq
        injection heq with hx _
        exact absurd hx (by decide)
      · rename_i ax bx cx dx rx heq
        injection heq with h0 heq
        injection heq with h0u heq
        injection heq with h1 heq
        injection heq with h2 heq
        injection heq with h3 heq
        injection heq with h4 heq
        subst h1; subst h2; subst h3; subst h4; subst heq
        simp only [hq] at h
        rw [if_pos hr] at h
        simp only [hq2] at h
        obtain ⟨pre2, hp1, hp2⟩ := ih s rest h
        refine ⟨['\\', 'u', a, b, c, d] ++ pre2, ?_, preExtend _ _ hp2⟩
        rw [hp1]
        simp
      · rename_i e2 rr hg heq
        injection heq with h0 heq
        injection heq with he hr2
        exact (hg a b c d _ he.symm hr2.symm).elim
      · rename_i c2 r0 hga hgb hgc heq
        injection heq with h1 h2
        exact (hgb a b c d _ h1.symm h2.symm).elim
      · rename_i heq
        exact List.noConfusion heq
  | case6 acc a b c d n hq hr r3 hshape ih =>
      intro s rest h
      rw [parseStringBody.eq_def] at h
      split at h
      · rename_i r0 heq
        injection heq with hx _
        exact absurd hx (by decide)
      · rename_i ax bx cx dx rx heq
        injection heq with h0 heq
        injection heq with h0u heq
        injection heq with h1 heq
        injection heq with h2 heq
        injection heq with h3 heq
        injection heq with h4 heq
        subst h1; subst h2; subst h3; subst h4; subst heq
        simp only [hq] at h
        rw [if_pos hr] at h
        obtain ⟨pre2, hp1, hp2⟩ := ih s rest h
        refine ⟨['\\', 'u', a, b, c, d] ++ pre2, ?_, preExtend _ _ hp2⟩
        rw [hp1]
        simp
      · rename_i e2 rr hg heq
        injection heq with h0 heq
        injection heq with he hr2
        exact (hg a b c d _ he.symm hr2.symm).elim
      · rename_i c2 r0 hga hgb hgc heq
        injection heq with h1 h2
        exact (hgb a b c d _ h1.symm h2.symm).elim
      · rename_i heq
        exact List.noConfusion heq
  | case7 acc a b c d r n hq hr ih =>
      intro s rest h
      rw [parseStringBody.eq_def] at h
      split at h
      · rename_i r0 heq
        injection heq with hx _
        exact absurd hx (by decide)
      · rename_i ax bx cx dx rx heq
        injection heq with h0 heq
        injection heq with h0u heq
        injection heq with h1 heq
        injection heq with h2 heq
        injection heq with h3 heq
        injection heq with h4 heq
        subst h1; subst h2; subst h3; subst h4; subst heq
        simp only [hq] at h
        rw [if_neg hr] at h
        obtain ⟨pre2, hp1, hp2⟩ := ih s rest h
        refine ⟨['\\', 'u', a, b, c, d] ++ pre2, ?_, preExtend _ _ hp2⟩
        rw [hp1]
        simp
      · rename_i e2 rr hg heq
        injection heq with h0 heq
        injection heq with he hr2
        exact (hg a b c d _ he.symm hr2.symm).elim
      · rename_i c2 r0 hga hgb hgc heq
        injection heq with h1 h2
        exact (hgb a b c d _ h1.symm h2.symm).elim
      · rename_i heq
        exact List.noConfusion heq
  | case8 acc e r hguard c hc ih =>
      intro s rest h
      rw [parseStringBody.eq_def] at h
      split at h
      · rename_i r2 heq
        injection heq with hx _
        exact absurd hx (by decide)
      · rename_i a b c2 d r2 heq
        injection heq with _ heq
        injection heq with he heq
        exact (hguard a b c2 d r2 he heq).elim
      · rename_i e2 r2 hg heq
        injection heq with _ heq
        injection heq with he hr2
        subst he; subst hr2
        rw [hc] at h
        obtain ⟨pre2, hp1, hp2⟩ := ih s rest h
        refine ⟨['\\', e] ++ pre2, ?_, preExtend _ _ hp2⟩
        rw [hp1]
        simp
      · rename_i c2 r2 hg1 hg2 hg3 heq
        injection heq with h1 h2
        exact (hg3 e r h1.symm h2.symm).elim
      · rename_i heq
        exact List.noConfusion heq
  | case9 acc e r hguard hc =>
      intro s rest h
      rw [parseStringBody.eq_def] at h
      split at h
      · rename_i r2 heq
        injection heq with hx _
        exact absurd hx (by decide)
      · rename_i a b c2 d r2 heq
        injection heq with _ heq
        injection heq with he heq
        exact (hguard a b c2 d r2 he heq).elim
      · rename_i e2 r2 hg heq
        injection heq with _ heq
        injection heq with he hr2
        subst he; subst hr2
        rw [hc] at h
        exact Option.noConfusion h
      · rename_i c2 r2 hg1 hg2 hg3 heq
        injection heq with h1 h2
        exact (hg3 e r h1.symm h2.symm).elim
      · rename_i heq
        exact List.noConfusion heq
  | case10 acc c r hg1 hg2 hg3 hlt =>
      intro s rest h
      rw [parseStringBody.eq_def] at h
      split at h
      · rename_i r2 heq
        injection heq with hx _
        exact (hg1 hx).elim
      · rename_i a b c2 d r2 heq
        injection heq with h1 h2
        exact (hg2 a b c2 d r2 h1 h2).elim
      · rename_i e2 r2 hg heq
        injection heq with h1 h2
        exact (hg3 e2 r2 h1 h2).elim
      · rename_i c2 r2 hga hgb hgc heq
        injection heq with h1 h2
        subst h1; subst h2
        rw [if_pos hlt] at h
        exact Option.noConfusion h
      · rename_i heq
        exact List.noConfusion heq
  | case11 acc c r hg1 hg2 hg3 hlt ih =>
      intro s rest h
      rw [parseStringBody.eq_def] at h
      split at h
      · rename_i r2 heq
        injection heq with hx _
        exact (hg1 hx).elim
      · rename_i a b c2 d r2 heq
        injection heq with h1 h2
        exact (hg2 a b c2 d r2 h1 h2).elim
      · rename_i e2 r2 hg heq
        injection heq with h1 h2
        exact (hg3 e2 r2 h1 h2).elim
      · rename_i c2 r2 hga hgb hgc heq
        injection heq with h1 h2
        subst h1; subst h2
        rw [if_neg hlt] at h
        obtain ⟨pre2, hp1, hp2⟩ := ih s rest h
        refine ⟨[c] ++ pre2, ?_, preExtend _ _ hp2⟩
        rw [hp1]
        simp
      · rename_i heq
        exact List.noConfusion heq
  | case12 acc =>
      intro s rest h
      simp only [parseStringBody] at h
      exact Option.noConfusion h

theorem dropWhile_decomp {p : Char → Bool} {cs X : List Char}
    (h : cs.dropWhile p = X) : ∃ W, cs = W ++ X :=
  ⟨cs.takeWhile p, by rw [← h, List.takeWhile_append_dropWhile]⟩

theorem preExtendC (e : Char) (xs pre : List Char) (hl : pre.getLast? = some e) :
    (xs ++ pre).getLast? = some e := by
  have hne : pre ≠ [] := by intro hnil; rw [hnil] at hl; simp at hl
  rw [List.getLast?_append_of_ne_nil _ hne, hl]

theorem lastOfConcat (c0 e : Char) (xs : List Char) :
    (c0 :: (xs ++ [e])).getLast? = some e := by
  have h : c0 :: (xs ++ [e]) = (c0 :: xs) ++ [e] := by simp
  rw [h, List.getLast?_concat]

theorem valuePre (W L : List Char) (c : Char) (hL : L.getLast? = some c)
    (hc : c = ']' → False) :
    (W ++ L) ≠ [] ∧ ((W ++ L).getLast? = some ']' → '[' ∈ W ++ L) := by
  have hne : L ≠ [] := by intro hnil; rw [hnil] at hL; simp at hL
  constructor
  · intro hnil
    exact hne (List.append_eq_nil.mp hnil).2
  · intro hlast
    rw [List.getLast?_append_of_ne_nil _ hne, hL] at hlast
    exact (hc (Option.some.inj hlast)).elim

theorem valuePreBracket (W X : List Char) :
    (W ++ '[' :: X) ≠ [] ∧ ((W ++ '[' :: X).getLast? = some ']' → '[' ∈ W ++ '[' :: X) :=
  ⟨by simp, fun _ => by simp⟩

theorem parseConsumed : ∀ f : ℕ,
    (∀ cs v rest, parseJsonValue f cs = some (v, rest) →
      ∃ pre, cs = pre ++ rest ∧ pre ≠ [] ∧
        (pre.getLast? = some ']' → '[' ∈ pre)) ∧
    (∀ cs vs rest, parseJsonElems f cs = some (vs, rest) →
      ∃ pre, cs = pre ++ rest) ∧
    (∀ cs ms rest, parseJsonFields f cs = some (ms, rest) →
      ∃ pre, cs = pre ++ rest ∧ pre.getLast? = some '}') := by
  intro f
  induction f with
  | zero =>
      exact ⟨fun cs v rest h => absurd h (by simp [parseJsonValue]),
        fun cs vs rest h => absurd h (by simp [parseJsonElems]),
        fun cs ms rest h => absurd h (by simp [parseJsonFields])⟩
  | succ f IH =>
      obtain ⟨IHv, IHe, IHf⟩ := IH
      refine ⟨fun cs v rest h => ?_, fun cs vs rest h => ?_, fun cs ms rest h => ?_⟩
      · rw [parseJsonValue.eq_def] at h
        dsimp only at h
        split at h
        · rename_i r heq
          obtain ⟨W, hsplit⟩ := dropWhile_decomp heq
          simp only [Option.some.injEq, Prod.mk.injEq] at h
          refine ⟨W ++ ['n', 'u', 'l', 'l'], ?_, valuePre W _ 'l' rfl (by decide)⟩
          rw [List.append_assoc, ← h.2]
          exact hsplit
        · rename_i r heq
          obtain ⟨W, hsplit⟩ := dropWhile_decomp heq
          simp only [Option.some.injEq, Prod.mk.injEq] at h
          refine ⟨W ++ ['t', 'r', 'u', 'e'], ?_, valuePre W _ 'e' rfl (by decide)⟩
          rw [List.append_assoc, ← h.2]
          exact hsplit
        · rename_i r heq
          obtain ⟨W, hsplit⟩ := dropWhile_decomp heq
          simp only [Option.some.injEq, Prod.mk.injEq] at h
          refine ⟨W ++ ['f', 'a', 'l', 's', 'e'], ?_, valuePre W _ 'e' rfl (by decide)⟩
          rw [List.append_assoc, ← h.2]
          exact hsplit
        · rename_i r heq
          obtain ⟨W, hsplit⟩ := dropWhile_decomp heq
          split at h
          · rename_i s2 r2 heq2
            simp only [Option.some.injEq, Prod.mk.injEq] at h
            obtain ⟨pS, hp1, hp2⟩ := parseStringBody_split [] r s2 r2 heq2
            refine ⟨W ++ '"' :: pS, ?_,
              valuePre W ('"' :: pS) '"' (expCons_last _ _ _ hp2) (by decide)⟩
            rw [hsplit, hp1, ← h.2]
            simp
          · exact Option.noConfusion h
        · rename_i r heq
          obtain ⟨W, hsplit⟩ := dropWhile_decomp heq
          split at h
          · rename_i r2 heq2
            obtain ⟨W2, hsplit2⟩ := dropWhile_decomp heq2
            simp only [Option.some.injEq, Prod.mk.injEq] at h
            refine ⟨W ++ '[' :: (W2 ++ [']']), ?_, valuePreBracket W (W2 ++ [']'])⟩
            rw [hsplit, hsplit2, ← h.2]
            simp
          · rename_i hgx
            split at h
            · rename_i es r3 heq3
              simp only [Option.some.injEq, Prod.mk.injEq] at h
              obtain ⟨preE, hE⟩ := IHe _ es r3 heq3
              have hr : r = r.takeWhile isJsonWs ++ r.dropWhile isJsonWs := by
                rw [List.takeWhile_append_dropWhile]
              refine ⟨W ++ '[' :: (r.takeWhile isJsonWs ++ preE), ?_,
                valuePreBracket _ _⟩
              rw [hsplit, ← h.2]
              conv_lhs => rw [hr, hE]
              simp
            · exact Option.noConfusion h
        · rename_i r heq
          obtain ⟨W, hsplit⟩ := dropWhile_decomp heq
          split at h
          · rename_i r2 heq2
            obtain ⟨W2, hsplit2⟩ := dropWhile_decomp heq2
            simp only [Option.some.injEq, Prod.mk.injEq] at h
            refine ⟨W ++ '{' :: (W2 ++ ['}']), ?_,
              valuePre W ('{' :: (W2 ++ ['}'])) '}' (lastOfConcat _ _ _) (by decide)⟩
            rw [hsplit, hsplit2, ← h.2]
            simp
          · rename_i hgx
            split at h
            · rename_i ms2 r3 heq3
              simp only [Option.some.injEq, Prod.mk.injEq] at h
              obtain ⟨preF, hF, hFl⟩ := IHf _ ms2 r3 heq3
              have hr : r = r.takeWhile isJsonWs ++ r.dropWhile isJsonWs := by
                rw [List.takeWhile_append_dropWhile]
              have hL : ('{' :: (r.takeWhile isJsonWs ++ preF)).getLast? = some '}' := by
                have h2 : '{' :: (r.takeWhile isJsonWs ++ preF)
                    = ('{' :: r.takeWhile isJsonWs) ++ preF := by simp
                rw [h2]
                exact preExtendC '}' _ preF hFl
              refine ⟨W ++ '{' :: (r.takeWhile isJsonWs ++ preF), ?_,
                valuePre W ('{' :: (r.takeWhile isJsonWs ++ preF)) '}' hL (by decide)⟩
              rw [hsplit, ← h.2]
              conv_lhs => rw [hr, hF]
              simp
            · exact Option.noConfusion h
        · rename_i c r hg1 hg2 hg3 hg4 hg5 hg6 heq
          obtain ⟨W, hsplit⟩ := dropWhile_decomp heq
          split at h
          · rename_i hcond
            split at h
            · rename_i q r2 heqN
              simp only [Option.some.injEq, Prod.mk.injEq] at h
              obtain ⟨preN, d, hN, hNl, hNd⟩ := parseNumber_split (c :: r) q r2 heqN
              refine ⟨W ++ preN, ?_, valuePre W preN d hNl ?_⟩
              · rw [hsplit, hN, ← h.2]
                simp
              · intro he
                rw [he] at hNd
                exact absurd hNd (by decide)
            · exact Option.noConfusion h
          · exact Option.noConfusion h
        · exact Option.noConfusion h
      · rw [parseJsonElems.eq_def] at h
        dsimp only at h
        split at h
        · exact Option.noConfusion h
        · rename_i v2 r heqV
          obtain ⟨preV, hV, -, -⟩ := IHv cs v2 r heqV
          split at h
          · rename_i r2 heq2
            obtain ⟨W2, hsplit2⟩ := dropWhile_decomp heq2
            split at h
            · rename_i vs2 r3 heq3
              simp only [Option.some.injEq, Prod.mk.injEq] at h
              obtain ⟨preE2, hE2⟩ := IHe r2 vs2 r3 heq3
              refine ⟨preV ++ W2 ++ ',' :: preE2, ?_⟩
              rw [hV, hsplit2, hE2, ← h.2]
              simp
            · exact Option.noConfusion h
          · rename_i r2 heq2
            obtain ⟨W2, hsplit2⟩ := dropWhile_decomp heq2
            simp only [Option.some.injEq, Prod.mk.injEq] at h
            refine ⟨preV ++ W2 ++ [']'], ?_⟩
            rw [hV, hsplit2, ← h.2]
            simp
          · exact Option.noConfusion h
      · rw [parseJsonFields.eq_def] at h
        dsimp only at h
        split at h
        · rename_i r heq
          obtain ⟨W, hsplit⟩ := dropWhile_decomp heq
          split at h
          · exact Option.noConfusion h
          · rename_i k r1 heqS
            obtain ⟨pS, hS, hSl⟩ := parseStringBody_split [] r k r1 heqS
            split at h
            · rename_i r2 heq1
              obtain ⟨W1, hsplit1⟩ := dropWhile_decomp heq1
              split at h
              · exact Option.noConfusion h
              · rename_i v2 r3 heqV
                obtain ⟨pV, hV, -, -⟩ := IHv r2 v2 r3 heqV
                split at h
                · rename_i r4 heq3
                  obtain ⟨W3, hsplit3⟩ := dropWhile_decomp heq3
                  split at h
                  · rename_i ms2 r5 heqF
                    simp only [Option.some.injEq, Prod.mk.injEq] at h
                    obtain ⟨pF, hF, hFl⟩ := IHf r4 ms2 r5 heqF
                    refine ⟨(W ++ '"' :: pS ++ W1 ++ ':' :: pV ++ W3 ++ [',']) ++ pF, ?_,
                      preExtendC '}' _ pF hFl⟩
                    rw [hsplit, hS, hsplit1, hV, hsplit3, hF, ← h.2]
                    simp
                  · exact Option.noConfusion h
                · rename_i r4 heq3
                  obtain ⟨W3, hsplit3⟩ := dropWhile_decomp heq3
                  simp only [Option.some.injEq, Prod.mk.injEq] at h
                  refine ⟨(W ++ '"' :: pS ++ W1 ++ ':' :: pV ++ W3) ++ ['}'], ?_,
                    List.getLast?_concat _⟩
                  rw [hsplit, hS, hsplit1, hV, hsplit3, ← h.2]
                  simp
                · exact Option.noConfusion h
            · exact Option.noConfusion h
        · exact Option.noConfusion h

/-- With no `[` anywhere, a text whose last character is `]` is never a valid
JSON document: a successful parse consumes a prefix that can end in `]` only
by containing `[`, and the all-whitespace remainder cannot supply the `]`. -/
theorem jsonLoads_no_bracket (cs : List Char) (hnb : '[' ∉ cs)
    (hlast : cs.getLast? = some ']') : jsonLoads cs = none := by
  rcases hP : parseJsonValue (cs.length + 1) cs with _ | p
  · simp only [jsonLoads, hP]
  · obtain ⟨pre, hpre, hpne, himp⟩ :=
      (parseConsumed (cs.length + 1)).1 cs p.1 p.2 (by rw [hP])
    simp only [jsonLoads, hP]
    by_cases hr : p.2.dropWhile isJsonWs = []
    · exfalso
      have hall := List.dropWhile_eq_nil_iff.mp hr
      rcases hrest : p.2 with _ | ⟨c0, rr⟩
      · rw [hrest, List.append_nil] at hpre
        subst hpre
        exact hnb (himp hlast)
      · have hrne : p.2 ≠ [] := by rw [hrest]; simp
        have hl2 : p.2.getLast? = some ']' := by
          rw [hpre, List.getLast?_append_of_ne_nil _ hrne] at hlast
          exact hlast
        have := hall ']' (List.mem_of_mem_getLast? hl2)
        exact absurd this (by decide)
    · rw [if_neg hr]

/-! ### Character-provenance of the cleanup pipeline: no step introduces a
character other than the newline separators of the line filter. -/

theorem mem_pyRstrip {c : Char} {cs : List Char} (h : c ∈ pyRstrip cs) : c ∈ cs := by
  simp only [pyRstrip, List.mem_reverse] at h
  exact List.mem_reverse.mp ((List.dropWhile_sublist isPyWs).subset h)

theorem mem_pyStrip {c : Char} {cs : List Char} (h : c ∈ pyStrip cs) : c ∈ cs := by
  simp only [pyStrip] at h
  exact (List.dropWhile_sublist isPyWs).subset (mem_pyRstrip h)

theorem mem_pyReplaceEmpty : ∀ (n : ℕ) (pat cs : List Char), cs.length ≤ n →
    ∀ c, c ∈ pyReplaceEmpty pat cs → c ∈ cs := by
  intro n
  induction n with
  | zero =>
      intro pat cs hlen c h
      have hnil : cs = [] := List.eq_nil_of_length_eq_zero (Nat.le_zero.mp hlen)
      subst hnil
      simp [pyReplaceEmpty] at h
  | succ n ih =>
      intro pat cs hlen c h
      rcases cs with _ | ⟨c0, rest⟩
      · simp [pyReplaceEmpty] at h
      · rw [pyReplaceEmpty.eq_def] at h
        dsimp only at h
        split at h
        · rename_i hcond
          have hp1 : 1 ≤ pat.length := by
            rcases pat with _ | ⟨p, ps⟩
            · exact absurd rfl hcond.1
            · simp
          have hlen2 : ((c0 :: rest).drop pat.length).length ≤ n := by
            rw [List.length_drop]
            simp only [List.length_cons]
            simp only [List.length_cons] at hlen
            omega
          exact List.mem_of_mem_drop (ih pat _ hlen2 c h)
        · rcases List.mem_cons.mp h with rfl | h2
          · exact List.mem_cons_self _ _
          · have hlen2 : rest.length ≤ n := by
              simp only [List.length_cons] at hlen
              omega
            exact List.mem_cons_of_mem _ (ih pat rest hlen2 c h2)

theorem splitOnNewline_mem : ∀ (cs : List Char), ∀ l ∈ splitOnNewline cs,
    ∀ c ∈ l, c ∈ cs := by
  intro cs
  induction cs using splitOnNewline.induct with
  | case1 =>
      intro l hl c hc
      simp only [splitOnNewline, List.mem_singleton] at hl
      subst hl
      simp at hc
  | case2 r ih =>
      intro l hl c hc
      simp only [splitOnNewline] at hl
      rcases List.mem_cons.mp hl with rfl | h2
      · simp at hc
      · exact List.mem_cons_of_mem _ (ih l h2 c hc)
  | case3 c0 r hne l ls hsp ih =>
      intro l0 hl0 c1 hc1
      rw [splitOnNewline.eq_def] at hl0
      split at hl0
      · rename_i heq
        exact List.noConfusion heq
      · rename_i r2 heq
        injection heq with h1 h2
        exact absurd h1 hne
      · rename_i c2 r2 hg heq
        injection heq with h1 h2
        subst h1; subst h2
        rw [hsp] at hl0
        rcases List.mem_cons.mp hl0 with rfl | h2
        · rcases List.mem_cons.mp hc1 with rfl | h3
          · exact List.mem_cons_self _ _
          · exact List.mem_cons_of_mem _
              (ih l (by rw [hsp]; exact List.mem_cons_self _ _) c1 h3)
        · exact List.mem_cons_of_mem _
            (ih l0 (by rw [hsp]; exact List.mem_cons_of_mem _ h2) c1 hc1)
  | case4 c0 r hne hsp ih =>
      intro l0 hl0 c1 hc1
      rw [splitOnNewline.eq_def] at hl0
      split at hl0
      · rename_i heq
        exact List.noConfusion heq
      · rename_i r2 heq
        injection heq with h1 h2
        exact absurd h1 hne
      · rename_i c2 r2 hg heq
        injection heq with h1 h2
        subst h1; subst h2
        rw [hsp] at hl0
        simp only [List.mem_singleton] at hl0
        subst hl0
        simp only [List.mem_singleton] at hc1
        subst hc1
        exact List.mem_cons_self _ _

theorem mem_intersperse_newline : ∀ (xs : List (List Char)) (l : List Char),
    l ∈ xs.intersperse ['\n'] → l = ['\n'] ∨ l ∈ xs
  | [], l, h => by simp [List.intersperse] at h
  | [x], l, h => by
      simp only [List.intersperse_singleton, List.mem_singleton] at h
      exact Or.inr (by simp [h])
  | x :: y :: zs, l, h => by
      rw [List.intersperse_cons_cons] at h
      rcases List.mem_cons.mp h with rfl | h2
      · exact Or.inr (List.mem_cons_self _ _)
      · rcases List.mem_cons.mp h2 with rfl | h3
        · exact Or.inl rfl
        · rcases mem_intersperse_newline (y :: zs) l h3 with h4 | h4
          · exact Or.inl h4
          · exact Or.inr (List.mem_cons_of_mem _ h4)

theorem mem_preClean {c : Char} {cs : List Char} (h : c ∈ preClean cs) :
    c ∈ cs ∨ c = '\n' := by
  simp only [preClean, cutToFirstBracket] at h
  have h1 : c ∈ pyStrip (List.intercalate ['\n']
      ((splitOnNewline (pyStrip (pyReplaceEmpty ("```".toList)
        (pyReplaceEmpty ("```json".toList) (pyStrip cs))))).filter
          (fun l => ¬ isFenceLine l))) := by
    split at h
    · exact (List.dropWhile_sublist _).subset h
    · exact h
  have h2 := mem_pyStrip h1
  have h3 : c ∈ (((splitOnNewline (pyStrip (pyReplaceEmpty ("```".toList)
      (pyReplaceEmpty ("```json".toList) (pyStrip cs))))).filter
        (fun l => ¬ isFenceLine l)).intersperse ['\n']).flatten := h2
  obtain ⟨l, hl, hcl⟩ := List.mem_flatten.mp h3
  rcases mem_intersperse_newline _ l hl with rfl | hl2
  · right
    simpa using hcl
  · left
    have hl3 := List.mem_of_mem_filter hl2
    have h4 := splitOnNewline_mem _ l hl3 c hcl
    have h5 := mem_pyStrip h4
    have h6 := mem_pyReplaceEmpty (pyReplaceEmpty ("```json".toList) (pyStrip cs)).length
      _ _ le_rfl c h5
    have h7 := mem_pyReplaceEmpty (pyStrip cs).length _ _ le_rfl c h6
    exact mem_pyStrip h7

theorem getLast?_cons_of_ne_nil (c0 : Char) (xs : List Char) (hx : xs ≠ []) :
    (c0 :: xs).getLast? = xs.getLast? := by
  have h : c0 :: xs = [c0] ++ xs := rfl
  rw [h, List.getLast?_append_of_ne_nil _ hx]

theorem mem_subCommaWsBracket : ∀ (n : ℕ) (cs : List Char), cs.length ≤ n →
    ∀ c, c ∈ subCommaWsBracket cs → c ∈ cs := by
  intro n
  induction n with
  | zero =>
      intro cs hlen c h
      have hnil : cs = [] := List.eq_nil_of_length_eq_zero (Nat.le_zero.mp hlen)
      subst hnil
      simp [subCommaWsBracket] at h
  | succ n ih =>
      intro cs hlen c h
      rw [subCommaWsBracket.eq_def] at h
      split at h
      · simp at h
      · rename_i rest
        simp only [List.length_cons] at hlen
        split at h
        · rename_i tail heq2
          have htlen : tail.length ≤ n := by
            have hd : (List.dropWhile isPyWs rest).length ≤ rest.length :=
              (List.dropWhile_sublist isPyWs).length_le
            rw [heq2] at hd
            simp only [List.length_cons] at hd
            omega
          rcases List.mem_cons.mp h with rfl | h2
          · refine List.mem_cons_of_mem _ ?_
            exact (List.dropWhile_sublist isPyWs).subset
              (by rw [heq2]; exact List.mem_cons_self _ _)
          · have h3 := ih tail htlen c h2
            refine List.mem_cons_of_mem _ ?_
            exact (List.dropWhile_sublist isPyWs).subset
              (by rw [heq2]; exact List.mem_cons_of_mem _ h3)
        · rcases List.mem_cons.mp h with rfl | h2
          · exact List.mem_cons_self _ _
          · exact List.mem_cons_of_mem _ (ih rest (by omega) c h2)
      · rename_i c2 rest hg
        simp only [List.length_cons] at hlen
        rcases List.mem_cons.mp h with rfl | h2
        · exact List.mem_cons_self _ _
        · exact List.mem_cons_of_mem _ (ih rest (by omega) c h2)

theorem subCommaWsBracket_last : ∀ (n : ℕ) (cs : List Char), cs.length ≤ n →
    cs.getLast? = some ']' → (subCommaWsBracket cs).getLast? = some ']' := by
  intro n
  induction n with
  | zero =>
      intro cs hlen hlast
      have hnil : cs = [] := List.eq_nil_of_length_eq_zero (Nat.le_zero.mp hlen)
      subst hnil
      simp at hlast
  | succ n ih =>
      intro cs hlen hlast
      rw [subCommaWsBracket.eq_def]
      split
      · exact hlast
      · rename_i rest
        simp only [List.length_cons] at hlen
        split
        · rename_i tail heq2
          obtain ⟨W, hW⟩ := dropWhile_decomp heq2
          rcases htail : tail with _ | ⟨t0, ts⟩
          · simp [subCommaWsBracket]
          · rw [← htail]
            have htne : tail ≠ [] := by rw [htail]; simp
            have hrne : rest ≠ [] := by
              intro hnil
              rw [hnil] at hW
              exact List.noConfusion ((List.append_eq_nil.mp hW.symm).2)
            rw [getLast?_cons_of_ne_nil ',' rest hrne, hW,
              List.getLast?_append_of_ne_nil _ (List.cons_ne_nil _ _),
              getLast?_cons_of_ne_nil ']' tail htne] at hlast
            have htlen : tail.length ≤ n := by
              have hd : (List.dropWhile isPyWs rest).length ≤ rest.length :=
                (List.dropWhile_sublist isPyWs).length_le
              rw [heq2] at hd
              simp only [List.length_cons] at hd
              omega
            have hrec := ih tail htlen hlast
            have hsne : subCommaWsBracket tail ≠ [] := by
              intro hnil
              rw [hnil] at hrec
              simp at hrec
            rw [getLast?_cons_of_ne_nil ']' _ hsne]
            exact hrec
        · rcases hrest : rest with _ | ⟨r0, rs⟩
          · rw [hrest] at hlast
            simp at hlast
          · rw [← hrest]
            have hrne : rest ≠ [] := by rw [hrest]; simp
            rw [getLast?_cons_of_ne_nil ',' rest hrne] at hlast
            have hrec := ih rest (by omega) hlast
            have hsne : subCommaWsBracket rest ≠ [] := by
              intro hnil
              rw [hnil] at hrec
              simp at hrec
            rw [getLast?_cons_of_ne_nil ',' _ hsne]
            exact hrec
      · rename_i c2 rest hg
        simp only [List.length_cons] at hlen
        rcases hrest : rest with _ | ⟨r0, rs⟩
        · rw [hrest] at hlast
          simp at hlast
          subst hlast
          simp [hrest, subCommaWsBracket]
        · rw [← hrest]
          have hrne : rest ≠ [] := by rw [hrest]; simp
          rw [getLast?_cons_of_ne_nil c2 rest hrne] at hlast
          have hrec := ih rest (by omega) hlast
          have hsne : subCommaWsBracket rest ≠ [] := by
            intro hnil
            rw [hnil] at hrec
            simp at hrec
          rw [getLast?_cons_of_ne_nil c2 _ hsne]
          exact hrec

theorem parseJsonValue_nil (f : ℕ) : parseJsonValue (f + 1) [] = none := by
  conv_lhs => rw [parseJsonValue.eq_def]
  dsimp only
  rfl

theorem jsonLoads_nil : jsonLoads ([] : List Char) = none := by
  simp only [jsonLoads, List.length_nil]
  rw [parseJsonValue_nil 0]

/-- Unfolding equation for `_parse_issues_json` with the cleaned text
abstracted, so later rewriting does not force evaluation of the cleanup
pipeline on a symbolic input. -/
theorem parse_issues_spec (t : String) (X : List Char)
    (hX : pyRstrip (preClean t.toList) = X) :
    _parse_issues_json t =
      (match jsonLoads (subCommaWsBracket
          (if X ≠ [] ∧ ¬ endsWithBracket X then
            match _rescue_incomplete_json_array X with
            | some r => r
            | none => X ++ [']']
          else X)) with
       | some (.arr issues) => .ok issues
       | some _ => .ok []
       | none =>
          if X ≠ [] ∧ ¬ endsWithBracket X then
            match _rescue_incomplete_json_array X with
            | some r =>
                if r ≠ [] then
                  match jsonLoads r with
                  | some (.arr issues) => .ok issues
                  | _ => .error ⟨t⟩
                else .error ⟨t⟩
            | none => .error ⟨t⟩
          else .error ⟨t⟩) := by
  subst hX
  rfl

/-- C8: for every input text containing no `[` character, `_parse_issues_json`
fails with a `JSONParseError` whose raw-text payload is the original input,
unchanged. -/
theorem unrecoverable_input_error (t : String) (hnb : '[' ∉ t.toList) :
    _parse_issues_json t = .error ⟨t⟩ := by
  have htbr : '[' ∉ pyRstrip (preClean t.toList) := by
    intro hmem
    rcases mem_preClean (mem_pyRstrip hmem) with h1 | h1
    · exact hnb h1
    · exact absurd h1 (by decide)
  generalize hX : pyRstrip (preClean t.toList) = X
  rw [hX] at htbr
  rw [parse_issues_spec t X hX]
  have hres : _rescue_incomplete_json_array X = none := by
    unfold _rescue_incomplete_json_array
    rw [if_pos (Or.inr htbr)]
  by_cases hcond : X ≠ [] ∧ ¬ endsWithBracket X
  · have hnb2 : '[' ∉ subCommaWsBracket (X ++ [']']) := by
      intro hmem
      have h2 := mem_subCommaWsBracket _ _ le_rfl _ hmem
      rcases List.mem_append.mp h2 with h3 | h3
      · exact htbr h3
      · simp at h3
    have hl2 : (subCommaWsBracket (X ++ [']'])).getLast? = some ']' :=
      subCommaWsBracket_last _ _ le_rfl (List.getLast?_concat _)
    have hload := jsonLoads_no_bracket _ hnb2 hl2
    rw [if_pos hcond, hres]
    dsimp only
    rw [hload, if_pos hcond]
  · rw [if_neg hcond]
    by_cases h0 : X = []
    · have hload : jsonLoads (subCommaWsBracket X) = none := by
        rw [h0]
        simp only [subCommaWsBracket]
        exact jsonLoads_nil
      rw [hload]
      dsimp only
      rw [if_neg hcond]
    · have hend : endsWithBracket X = true := by
        by_contra hend2
        exact hcond ⟨h0, hend2⟩
      have hl : X.getLast? = some ']' := by
        simpa [endsWithBracket] using hend
      have hload := jsonLoads_no_bracket _
        (fun hm => htbr (mem_subCommaWsBracket _ _ le_rfl _ hm))
        (subCommaWsBracket_last _ _ le_rfl hl)
      rw [hload]
      dsimp only
      rw [if_neg hcond]

theorem unrecoverable_input_error_witness :
    '[' ∉ "hello".toList ∧ _parse_issues_json "hello" = .error ⟨"hello"⟩ :=
  ⟨by decide, unrecoverable_input_error "hello" (by decide)⟩

/-! ### Clean findings: string fields without backticks or closing brackets

The cleanup pipeline of `_parse_issues_json` operates on raw text, so string
content that resembles its cleanup targets (code fences, `,\s*]` artifacts) is
mangled.  A finding whose strings avoid the backtick and `]` characters is
transparent to every cleanup step. -/

mutual
def CleanJson : PyJson → Prop
  | .null => True
  | .bool _ => True
  | .num _ => True
  | .str s => '`' ∉ s.data ∧ ']' ∉ s.data
  | .arr es => CleanElems es
  | .obj ms => CleanFields ms

def CleanElems : List PyJson → Prop
  | [] => True
  | e :: es => CleanJson e ∧ CleanElems es

def CleanFields : List (String × PyJson) → Prop
  | [] => True
  | (k, v) :: ms => ('`' ∉ k.data ∧ ']' ∉ k.data) ∧ CleanJson v ∧ CleanFields ms
end

/-- Every closing bracket of the text is directly preceded by a character that
is neither a comma nor whitespace (so the pattern `,\s*]` never matches). -/
def BracketPred (cs : List Char) : Prop :=
  ∀ pre tail, cs = pre ++ ']' :: tail →
    pre = [] ∨ ∃ d, pre.getLast? = some d ∧ d ≠ ',' ∧ isPyWs d = false

theorem BracketPred_of_not_mem {cs : List Char} (h : ']' ∉ cs) : BracketPred cs := by
  intro pre tail heq
  exact absurd (heq ▸ List.mem_append.mpr (Or.inr (List.mem_cons_self _ _))) h

theorem BracketPred_nil : BracketPred [] := BracketPred_of_not_mem (by simp)

theorem BracketPred_append (a b : List Char) (ha : BracketPred a) (hb : BracketPred b)
    (hbd : ∀ tail, b = ']' :: tail →
      a = [] ∨ ∃ d, a.getLast? = some d ∧ d ≠ ',' ∧ isPyWs d = false) :
    BracketPred (a ++ b) := by
  intro pre tail heq
  rcases List.append_eq_append_iff.mp heq with ⟨k, hk1, hk2⟩ | ⟨k, hk1, hk2⟩
  · rcases hb k tail hk2 with hknil | ⟨d, hd1, hd2, hd3⟩
    · subst hknil
      rw [List.append_nil] at hk1
      subst hk1
      rw [List.nil_append] at hk2
      exact hbd tail hk2
    · have hkne : k ≠ [] := by
        intro hnil
        rw [hnil] at hd1
        simp at hd1
      refine Or.inr ⟨d, ?_, hd2, hd3⟩
      rw [hk1, List.getLast?_append_of_ne_nil _ hkne]
      exact hd1
  · rcases k with _ | ⟨k0, kr⟩
    · rw [List.append_nil] at hk1
      subst hk1
      rw [List.nil_append] at hk2
      exact hbd tail hk2.symm
    · injection hk2 with h1 h2
      subst h1
      exact ha pre kr (by rw [hk1])

theorem BracketPred_cons (c : Char) (cs : List Char)
    (hc : c ≠ ',' ∧ isPyWs c = false) (h : BracketPred cs) :
    BracketPred (c :: cs) := by
  intro pre tail heq
  rcases pre with _ | ⟨p0, pr⟩
  · exact Or.inl rfl
  · injection heq with h1 h2
    subst h1
    rcases h pr tail h2 with hnil | ⟨d, hd1, hd2, hd3⟩
    · subst hnil
      exact Or.inr ⟨c, rfl, hc.1, hc.2⟩
    · refine Or.inr ⟨d, ?_, hd2, hd3⟩
      have hprne : pr ≠ [] := by
        intro hnil
        rw [hnil] at hd1
        simp at hd1
      rw [getLast?_cons_of_ne_nil _ _ hprne]
      exact hd1

theorem BracketPred_two (c1 : Char) (X : List Char) (h : BracketPred X)
    (hhd : ∀ tail, X = ']' :: tail → False) :
    BracketPred (c1 :: ' ' :: X) := by
  intro pre tail heq
  rcases pre with _ | ⟨p0, pr⟩
  · exact Or.inl rfl
  · injection heq with h1 h2
    subst h1
    rcases pr with _ | ⟨p1, pr2⟩
    · injection h2 with h3 h4
      exact absurd h3.symm (by decide)
    · injection h2 with h3 h4
      subst h3
      rcases h pr2 tail h4 with hnil | ⟨d, hd1, hd2, hd3⟩
      · subst hnil
        exact absurd h4 (hhd tail)
      · refine Or.inr ⟨d, ?_, hd2, hd3⟩
        have hprne : pr2 ≠ [] := by
          intro hnil
          rw [hnil] at hd1
          simp at hd1
        rw [getLast?_cons_of_ne_nil _ _ (by simp), getLast?_cons_of_ne_nil _ _ hprne]
        exact hd1

theorem toLowerHexChar_props (k : ℕ) (hk : k < 16) :
    toLowerHexChar k ≠ '`' ∧ toLowerHexChar k ≠ '\n' ∧ toLowerHexChar k ≠ ']' := by
  interval_cases k <;> exact ⟨by decide, by decide, by decide⟩

theorem backtick_notin_escape (c : Char) (hc : c ≠ '`') : '`' ∉ escapeJsonChar c := by
  unfold escapeJsonChar
  split_ifs with h1 h2 h3 h4 h5 h6 h7 h8
  · simp
  · simp
  · simp
  · simp
  · simp
  · simp
  · simp
  · intro hmem
    have hd : c.toNat / 16 < 16 := by omega
    have hm : c.toNat % 16 < 16 := by omega
    have hp1 := toLowerHexChar_props _ hd
    have hp2 := toLowerHexChar_props _ hm
    simp only [List.mem_cons, List.not_mem_nil, or_false] at hmem
    rcases hmem with h | h | h | h | h | h
    · exact absurd h (by decide)
    · exact absurd h (by decide)
    · exact absurd h (by decide)
    · exact absurd h (by decide)
    · exact hp1.1 h.symm
    · exact hp2.1 h.symm
  · simp only [List.mem_singleton]
    exact fun h => hc h.symm

theorem newline_notin_escape (c : Char) : '\n' ∉ escapeJsonChar c := by
  unfold escapeJsonChar
  split_ifs with h1 h2 h3 h4 h5 h6 h7 h8
  · simp
  · simp
  · simp
  · simp
  · simp
  · simp
  · simp
  · intro hmem
    have hd : c.toNat / 16 < 16 := by omega
    have hm : c.toNat % 16 < 16 := by omega
    have hp1 := toLowerHexChar_props _ hd
    have hp2 := toLowerHexChar_props _ hm
    simp only [List.mem_cons, List.not_mem_nil, or_false] at hmem
    rcases hmem with h | h | h | h | h | h
    · exact absurd h (by decide)
    · exact absurd h (by decide)
    · exact absurd h (by decide)
    · exact absurd h (by decide)
    · exact hp1.2.1 h.symm
    · exact hp2.2.1 h.symm
  · simp only [List.mem_singleton]
    exact fun h => h3 h.symm

theorem bracket_notin_escape (c : Char) (hc : c ≠ ']') : ']' ∉ escapeJsonChar c := by
  unfold escapeJsonChar
  split_ifs with h1 h2 h3 h4 h5 h6 h7 h8
  · simp
  · simp
  · simp
  · simp
  · simp
  · simp
  · simp
  · intro hmem
    have hd : c.toNat / 16 < 16 := by omega
    have hm : c.toNat % 16 < 16 := by omega
    have hp1 := toLowerHexChar_props _ hd
    have hp2 := toLowerHexChar_props _ hm
    simp only [List.mem_cons, List.not_mem_nil, or_false] at hmem
    rcases hmem with h | h | h | h | h | h
    · exact absurd h (by decide)
    · exact absurd h (by decide)
    · exact absurd h (by decide)
    · exact absurd h (by decide)
    · exact hp1.2.2 h.symm
    · exact hp2.2.2 h.symm
  · simp only [List.mem_singleton]
    exact fun h => hc h.symm

theorem digit_not_pyws {c : Char} (h : isDigitChar c = true) : isPyWs c = false := by
  have h2 := (digitChar_props h).2.1
  simp only [isPyWs, h2, Bool.false_or, Bool.or_eq_false_iff, decide_eq_false_iff_not]
  simp only [isDigitChar, Bool.and_eq_true, decide_eq_true_eq] at h
  have h48 : 48 ≤ c.toNat := by
    have h3 := h.1
    rw [Char.le_def] at h3
    exact h3
  omega

theorem BracketPred_singleton (c : Char) : BracketPred [c] := by
  intro pre tail heq
  rcases pre with _ | ⟨p0, pr⟩
  · exact Or.inl rfl
  · injection heq with h1 h2
    exact absurd h2.symm (by simp)

theorem mem_serStr {c : Char} {s : String} (h : c ∈ serStr s) :
    c = '"' ∨ ∃ c0 ∈ s.data, c ∈ escapeJsonChar c0 := by
  simp only [serStr, List.mem_cons, List.mem_append, List.mem_singleton,
    List.not_mem_nil, or_false] at h
  rcases h with rfl | h | rfl
  · exact Or.inl rfl
  · obtain ⟨c0, hc0, hc⟩ := List.mem_flatMap.mp h
    exact Or.inr ⟨c0, hc0, hc⟩
  · exact Or.inl rfl

theorem backtick_notin_serStr {s : String} (hs : '`' ∉ s.data) : '`' ∉ serStr s := by
  intro h
  rcases mem_serStr h with h1 | ⟨c0, hc0, hc⟩
  · exact absurd h1 (by decide)
  · by_cases he : c0 = '`'
    · subst he
      exact hs hc0
    · exact backtick_notin_escape c0 he hc

theorem newline_notin_serStr (s : String) : '\n' ∉ serStr s := by
  intro h
  rcases mem_serStr h with h1 | ⟨c0, hc0, hc⟩
  · exact absurd h1 (by decide)
  · exact newline_notin_escape c0 hc

theorem bracket_notin_serStr {s : String} (hs : ']' ∉ s.data) : ']' ∉ serStr s := by
  intro h
  rcases mem_serStr h with h1 | ⟨c0, hc0, hc⟩
  · exact absurd h1 (by decide)
  · by_cases he : c0 = ']'
    · subst he
      exact hs hc0
    · exact bracket_notin_escape c0 he hc

theorem serStr_last (s : String) : (serStr s).getLast? = some '"' := by
  simp only [serStr]
  exact lastOfConcat _ _ _

theorem mem_serInt {c : Char} {i : ℤ} (h : c ∈ serInt i) :
    c = '-' ∨ isDigitChar c = true := by
  simp only [serInt, List.mem_append] at h
  rcases h with h | h
  · split at h
    · simp only [List.mem_singleton] at h
      exact Or.inl h
    · simp at h
  · exact Or.inr (natDigits_digits _ _ h)

theorem serInt_last (i : ℤ) :
    ∃ d, (serInt i).getLast? = some d ∧ isDigitChar d = true := by
  rcases hl : (natDigits i.natAbs).getLast? with _ | d
  · rw [List.getLast?_eq_none_iff] at hl
    exact absurd hl (natDigits_notNil _)
  · refine ⟨d, ?_, natDigits_digits _ _ (List.mem_of_mem_getLast? hl)⟩
    simp only [serInt]
    rw [List.getLast?_append_of_ne_nil _ (natDigits_notNil _)]
    exact hl

theorem serNum_integral {q : ℚ} (h : q.den = 1) : serNum q = serInt q.num := by
  simp [serNum, h]

theorem lastGood_append (a b : List Char)
    (hb : b ≠ [] → ∃ d, b.getLast? = some d ∧ d ≠ ',' ∧ isPyWs d = false)
    (ha : ∃ d, a.getLast? = some d ∧ d ≠ ',' ∧ isPyWs d = false) :
    ∃ d, (a ++ b).getLast? = some d ∧ d ≠ ',' ∧ isPyWs d = false := by
  rcases b with _ | ⟨b0, br⟩
  · rw [List.append_nil]
    exact ha
  · obtain ⟨d, h1, h2, h3⟩ := hb (by simp)
    exact ⟨d, by rw [List.getLast?_append_of_ne_nil _ (by simp)]; exact h1, h2, h3⟩

theorem head_ne_bracket_append (a b : List Char) (hane : a ≠ [])
    (ha : ∀ t, a = ']' :: t → False) : ∀ t, a ++ b = ']' :: t → False := by
  intro t ht
  rcases a with _ | ⟨a0, ar⟩
  · exact hane rfl
  · injection ht with h1 h2
    exact ha ar (by rw [h1])

theorem ne_nil_of_getLast?_good {cs : List Char}
    (h : ∃ d, cs.getLast? = some d ∧ d ≠ ',' ∧ isPyWs d = false) : cs ≠ [] := by
  obtain ⟨d, h1, -, -⟩ := h
  intro hnil
  rw [hnil] at h1
  simp at h1

mutual
theorem serClean_value : ∀ (v : PyJson), CleanJson v → IntegralJson v →
    BracketPred (serValue v) ∧ '`' ∉ serValue v ∧ '\n' ∉ serValue v ∧
    (∃ d, (serValue v).getLast? = some d ∧ d ≠ ',' ∧ isPyWs d = false) ∧
    (∀ t, serValue v = ']' :: t → False)
  | .null, _, _ => by
      refine ⟨BracketPred_of_not_mem (by decide), by decide, by decide,
        ⟨'l', by decide, by decide, by decide⟩, ?_⟩
      intro t ht
      injection ht with h1 _
      exact absurd h1 (by decide)
  | .bool true, _, _ => by
      refine ⟨BracketPred_of_not_mem (by decide), by decide, by decide,
        ⟨'e', by decide, by decide, by decide⟩, ?_⟩
      intro t ht
      injection ht with h1 _
      exact absurd h1 (by decide)
  | .bool false, _, _ => by
      refine ⟨BracketPred_of_not_mem (by decide), by decide, by decide,
        ⟨'e', by decide, by decide, by decide⟩, ?_⟩
      intro t ht
      injection ht with h1 _
      exact absurd h1 (by decide)
  | .num q, _, hint => by
      have hser : serValue (.num q) = serInt q.num := by
        simp only [serValue]
        exact serNum_integral hint
      rw [hser]
      have hnb : ']' ∉ serInt q.num := by
        intro h
        rcases mem_serInt h with h1 | h1
        · exact absurd h1 (by decide)
        · exact (digitChar_props h1).2.2.1 rfl
      refine ⟨BracketPred_of_not_mem hnb, ?_, ?_, ?_, ?_⟩
      · intro h
        rcases mem_serInt h with h1 | h1
        · exact absurd h1 (by decide)
        · exact absurd h1 (by decide)
      · intro h
        rcases mem_serInt h with h1 | h1
        · exact absurd h1 (by decide)
        · exact absurd ((digitChar_props h1).2.1) (by decide)
      · obtain ⟨d, h1, h2⟩ := serInt_last q.num
        exact ⟨d, h1, (digitChar_props h2).2.2.2.2.2.2.2.2.2.2.1, digit_not_pyws h2⟩
      · intro t ht
        exact hnb (by rw [ht]; exact List.mem_cons_self _ _)
  | .str s, hcl, _ => by
      have hser : serValue (.str s) = serStr s := by simp only [serValue]
      rw [hser]
      refine ⟨BracketPred_of_not_mem (bracket_notin_serStr hcl.2),
        backtick_notin_serStr hcl.1, newline_notin_serStr s,
        ⟨'"', serStr_last s, by decide, by decide⟩, ?_⟩
      intro t ht
      simp only [serStr] at ht
      injection ht with h1 _
      exact absurd h1 (by decide)
  | .arr es, hcl, hint => by
      have hser : serValue (.arr es) = '[' :: (serElemsList es ++ [']']) := by
        simp only [serValue]
      rw [hser]
      obtain ⟨eBP, eNB, eNN, eLG, eHD⟩ := serClean_elemsList es hcl hint
      refine ⟨?_, ?_, ?_, ?_, ?_⟩
      · refine BracketPred_cons '[' _ ⟨by decide, by decide⟩ ?_
        refine BracketPred_append _ _ eBP (BracketPred_singleton ']') ?_
        intro tail ht
        rcases hes : serElemsList es with _ | _
        · exact Or.inl rfl
        · rw [← hes]
          exact Or.inr (eLG (by rw [hes]; simp))
      · simp only [List.mem_cons, List.mem_append, List.mem_singleton]
        intro h
        rcases h with h | h | h
        · exact absurd h (by decide)
        · exact eNB h
        · exact absurd h (by decide)
      · simp only [List.mem_cons, List.mem_append, List.mem_singleton]
        intro h
        rcases h with h | h | h
        · exact absurd h (by decide)
        · exact eNN h
        · exact absurd h (by decide)
      · exact ⟨']', lastOfConcat _ _ _, by decide, by decide⟩
      · intro t ht
        injection ht with h1 _
        exact absurd h1 (by decide)
  | .obj ms, hcl, hint => by
      have hser : serValue (.obj ms) = '{' :: (serFieldsList ms ++ ['}']) := by
        simp only [serValue]
      rw [hser]
      obtain ⟨fBP, fNB, fNN, fLG, fHD⟩ := serClean_fieldsList ms hcl hint
      refine ⟨?_, ?_, ?_, ?_, ?_⟩
      · refine BracketPred_cons '{' _ ⟨by decide, by decide⟩ ?_
        refine BracketPred_append _ _ fBP (BracketPred_singleton '}') ?_
        intro tail ht
        exact absurd ht (by simp)
      · simp only [List.mem_cons, List.mem_append, List.mem_singleton]
        intro h
        rcases h with h | h | h
        · exact absurd h (by decide)
        · exact fNB h
        · exact absurd h (by decide)
      · simp only [List.mem_cons, List.mem_append, List.mem_singleton]
        intro h
        rcases h with h | h | h
        · exact absurd h (by decide)
        · exact fNN h
        · exact absurd h (by decide)
      · exact ⟨'}', lastOfConcat _ _ _, by decide, by decide⟩
      · intro t ht
        injection ht with h1 _
        exact absurd h1 (by decide)
  termination_by v => (sizeOf v, 0)

theorem serClean_elemsList : ∀ (es : List PyJson), CleanElems es → IntegralElems es →
    BracketPred (serElemsList es) ∧ '`' ∉ serElemsList es ∧ '\n' ∉ serElemsList es ∧
    (serElemsList es ≠ [] →
      ∃ d, (serElemsList es).getLast? = some d ∧ d ≠ ',' ∧ isPyWs d = false) ∧
    (∀ t, serElemsList es = ']' :: t → False)
  | [], _, _ => by
      refine ⟨BracketPred_nil, by decide, by decide, ?_, ?_⟩
      · intro h
        exact absurd rfl h
      · intro t ht
        exact List.noConfusion ht
  | e :: es, hcl, hint => by
      have hser : serElemsList (e :: es) = serValue e ++ serElemsTail es := by
        simp only [serElemsList]
      rw [hser]
      obtain ⟨vBP, vNB, vNN, vLG, vHD⟩ := serClean_value e hcl.1 hint.1
      obtain ⟨tBP, tNB, tNN, tLG, tHD⟩ := serClean_elemsTail es hcl.2 hint.2
      have hvne : serValue e ≠ [] := ne_nil_of_getLast?_good vLG
      refine ⟨?_, ?_, ?_, ?_, ?_⟩
      · refine BracketPred_append _ _ vBP tBP ?_
        intro tail ht
        exact (tHD tail ht).elim
      · simp only [List.mem_append]
        intro h
        rcases h with h | h
        · exact vNB h
        · exact tNB h
      · simp only [List.mem_append]
        intro h
        rcases h with h | h
        · exact vNN h
        · exact tNN h
      · intro h
        exact lastGood_append _ _ tLG vLG
      · exact head_ne_bracket_append _ _ hvne vHD
  termination_by es => (sizeOf es, 0)

theorem serClean_elemsTail : ∀ (es : List PyJson), CleanElems es → IntegralElems es →
    BracketPred (serElemsTail es) ∧ '`' ∉ serElemsTail es ∧ '\n' ∉ serElemsTail es ∧
    (serElemsTail es ≠ [] →
      ∃ d, (serElemsTail es).getLast? = some d ∧ d ≠ ',' ∧ isPyWs d = false) ∧
    (∀ t, serElemsTail es = ']' :: t → False)
  | [], _, _ => by
      refine ⟨BracketPred_nil, by decide, by decide, ?_, ?_⟩
      · intro h
        exact absurd rfl h
      · intro t ht
        exact List.noConfusion ht
  | e :: es, hcl, hint => by
      have hser : serElemsTail (e :: es)
          = ',' :: ' ' :: (serValue e ++ serElemsTail es) := by
        simp only [serElemsTail]
      rw [hser]
      obtain ⟨vBP, vNB, vNN, vLG, vHD⟩ := serClean_value e hcl.1 hint.1
      obtain ⟨tBP, tNB, tNN, tLG, tHD⟩ := serClean_elemsTail es hcl.2 hint.2
      have hvne : serValue e ≠ [] := ne_nil_of_getLast?_good vLG
      have hXLG := lastGood_append _ _ tLG vLG
      have hXne : serValue e ++ serElemsTail es ≠ [] := ne_nil_of_getLast?_good hXLG
      refine ⟨?_, ?_, ?_, ?_, ?_⟩
      · refine BracketPred_two ',' _ (BracketPred_append _ _ vBP tBP ?_) ?_
        · intro tail ht
          exact (tHD tail ht).elim
        · exact head_ne_bracket_append _ _ hvne vHD
      · simp only [List.mem_cons, List.mem_append]
        intro h
        rcases h with h | h | h | h
        · exact absurd h (by decide)
        · exact absurd h (by decide)
        · exact vNB h
        · exact tNB h
      · simp only [List.mem_cons, List.mem_append]
        intro h
        rcases h with h | h | h | h
        · exact absurd h (by decide)
        · exact absurd h (by decide)
        · exact vNN h
        · exact tNN h
      · intro h
        obtain ⟨d, h1, h2, h3⟩ := hXLG
        refine ⟨d, ?_, h2, h3⟩
        rw [getLast?_cons_of_ne_nil _ _ (by simp), getLast?_cons_of_ne_nil _ _ hXne]
        exact h1
      · intro t ht
        injection ht with h1 _
        exact absurd h1 (by decide)
  termination_by es => (sizeOf es, 0)

theorem serClean_fieldsList : ∀ (ms : List (String × PyJson)),
    CleanFields ms → IntegralFields ms →
    BracketPred (serFieldsList ms) ∧ '`' ∉ serFieldsList ms ∧ '\n' ∉ serFieldsList ms ∧
    (serFieldsList ms ≠ [] →
      ∃ d, (serFieldsList ms).getLast? = some d ∧ d ≠ ',' ∧ isPyWs d = false) ∧
    (∀ t, serFieldsList ms = ']' :: t → False)
  | [], _, _ => by
      refine ⟨BracketPred_nil, by decide, by decide, ?_, ?_⟩
      · intro h
        exact absurd rfl h
      · intro t ht
        exact List.noConfusion ht
  | (k, v) :: ms, hcl, hint => by
      have hser : serFieldsList ((k, v) :: ms)
          = serStr k ++ ':' :: ' ' :: (serValue v ++ serFieldsTail ms) := by
        simp only [serFieldsList]
      rw [hser]
      obtain ⟨vBP, vNB, vNN, vLG, vHD⟩ := serClean_value v hcl.2.1 hint.1
      obtain ⟨tBP, tNB, tNN, tLG, tHD⟩ := serClean_fieldsTail ms hcl.2.2 hint.2
      have hvne : serValue v ≠ [] := ne_nil_of_getLast?_good vLG
      have hXLG := lastGood_append _ _ tLG vLG
      have hXne : serValue v ++ serFieldsTail ms ≠ [] := ne_nil_of_getLast?_good hXLG
      refine ⟨?_, ?_, ?_, ?_, ?_⟩
      · refine BracketPred_append _ _
          (BracketPred_of_not_mem (bracket_notin_serStr hcl.1.2))
          (BracketPred_two ':' _ (BracketPred_append _ _ vBP tBP ?_) ?_) ?_
        · intro tail ht
          exact (tHD tail ht).elim
        · exact head_ne_bracket_append _ _ hvne vHD
        · intro tail ht
          injection ht with h1 _
          exact absurd h1 (by decide)
      · simp only [List.mem_append, List.mem_cons]
        intro h
        rcases h with h | h | h | h | h
        · exact backtick_notin_serStr hcl.1.1 h
        · exact absurd h (by decide)
        · exact absurd h (by decide)
        · exact vNB h
        · exact tNB h
      · simp only [List.mem_append, List.mem_cons]
        intro h
        rcases h with h | h | h | h | h
        · exact newline_notin_serStr k h
        · exact absurd h (by decide)
        · exact absurd h (by decide)
        · exact vNN h
        · exact tNN h
      · intro h
        obtain ⟨d, h1, h2, h3⟩ := hXLG
        refine ⟨d, ?_, h2, h3⟩
        rw [List.getLast?_append_of_ne_nil _ (by simp),
          getLast?_cons_of_ne_nil _ _ (by simp), getLast?_cons_of_ne_nil _ _ hXne]
        exact h1
      · intro t ht
        simp only [serStr, List.cons_append] at ht
        injection ht with h1 _
        exact absurd h1 (by decide)
  termination_by ms => (sizeOf ms, 0)

theorem serClean_fieldsTail : ∀ (ms : List (String × PyJson)),
    CleanFields ms → IntegralFields ms →
    BracketPred (serFieldsTail ms) ∧ '`' ∉ serFieldsTail ms ∧ '\n' ∉ serFieldsTail ms ∧
    (serFieldsTail ms ≠ [] →
      ∃ d, (serFieldsTail ms).getLast? = some d ∧ d ≠ ',' ∧ isPyWs d = false) ∧
    (∀ t, serFieldsTail ms = ']' :: t → False)
  | [], _, _ => by
      refine ⟨BracketPred_nil, by decide, by decide, ?_, ?_⟩
      · intro h
        exact absurd rfl h
      · intro t ht
        exact List.noConfusion ht
  | (k, v) :: ms, hcl, hint => by
      have hser : serFieldsTail ((k, v) :: ms)
          = ',' :: ' ' :: serFieldsList ((k, v) :: ms) := by
        simp only [serFieldsTail, serFieldsList]
      rw [hser]
      obtain ⟨fBP, fNB, fNN, fLG, fHD⟩ := serClean_fieldsList ((k, v) :: ms) hcl hint
      have hfne : serFieldsList ((k, v) :: ms) ≠ [] := by
        simp only [serFieldsList, serStr]
        simp
      refine ⟨?_, ?_, ?_, ?_, ?_⟩
      · exact BracketPred_two ',' _ fBP fHD
      · simp only [List.mem_cons]
        intro h
        rcases h with h | h | h
        · exact absurd h (by decide)
        · exact absurd h (by decide)
        · exact fNB h
      · simp only [List.mem_cons]
        intro h
        rcases h with h | h | h
        · exact absurd h (by decide)
        · exact absurd h (by decide)
        · exact fNN h
      · intro h
        obtain ⟨d, h1, h2, h3⟩ := fLG hfne
        refine ⟨d, ?_, h2, h3⟩
        rw [getLast?_cons_of_ne_nil _ _ (by simp), getLast?_cons_of_ne_nil _ _ hfne]
        exact h1
      · intro t ht
        injection ht with h1 _
        exact absurd h1 (by decide)
  termination_by ms => (sizeOf ms, 1)
end

theorem dropWhile_decomp_ws {cs X : List Char} (h : cs.dropWhile isPyWs = X) :
    ∃ W, cs = W ++ X ∧ ∀ c ∈ W, isPyWs c = true :=
  ⟨cs.takeWhile isPyWs, by rw [← h, List.takeWhile_append_dropWhile],
    fun c hc => List.mem_takeWhile_imp hc⟩

theorem BracketPred_tail {c : Char} {cs : List Char} (h : BracketPred (c :: cs)) :
    BracketPred cs := by
  intro pre tail heq
  rcases h (c :: pre) tail (by rw [heq]; rfl) with h1 | ⟨d, hd1, hd2, hd3⟩
  · exact List.noConfusion h1
  · rcases hpre : pre with _ | ⟨p0, pr⟩
    · exact Or.inl rfl
    · rw [← hpre]
      refine Or.inr ⟨d, ?_, hd2, hd3⟩
      rw [getLast?_cons_of_ne_nil _ _ (by rw [hpre]; simp)] at hd1
      exact hd1

theorem subCommaWsBracket_noop : ∀ (n : ℕ) (cs : List Char), cs.length ≤ n →
    BracketPred cs → subCommaWsBracket cs = cs := by
  intro n
  induction n with
  | zero =>
      intro cs hlen hBP
      have hnil : cs = [] := List.eq_nil_of_length_eq_zero (Nat.le_zero.mp hlen)
      subst hnil
      simp [subCommaWsBracket]
  | succ n ih =>
      intro cs hlen hBP
      rw [subCommaWsBracket.eq_def]
      split
      · rfl
      · rename_i rest
        simp only [List.length_cons] at hlen
        split
        · rename_i tail heq2
          exfalso
          obtain ⟨W, hW, hWws⟩ := dropWhile_decomp_ws heq2
          have hdec : ',' :: rest = (',' :: W) ++ ']' :: tail := by
            rw [hW]
            rfl
          rcases hBP (',' :: W) tail hdec with h1 | ⟨d, hd1, hd2, hd3⟩
          · exact List.noConfusion h1
          · rcases hWs : W with _ | ⟨w0, wr⟩
            · rw [hWs] at hd1
              simp at hd1
              exact hd2 hd1.symm
            · have hWne : W ≠ [] := by rw [hWs]; simp
              rw [getLast?_cons_of_ne_nil _ _ hWne] at hd1
              have hdW : d ∈ W := List.mem_of_mem_getLast? hd1
              rw [hWws d hdW] at hd3
              exact Bool.noConfusion hd3
        · rw [ih rest (by omega) (BracketPred_tail hBP)]
      · rename_i c2 rest hg
        simp only [List.length_cons] at hlen
        rw [ih rest (by omega) (BracketPred_tail hBP)]

theorem pyRstrip_noop {cs : List Char} {d : Char} (hl : cs.getLast? = some d)
    (hd : isPyWs d = false) : pyRstrip cs = cs := by
  rcases hrev : cs.reverse with _ | ⟨x, xs⟩
  · have hnil : cs = [] := by
      have := congrArg List.reverse hrev
      simpa using this
    subst hnil
    rfl
  · have hx : x = d := by
      have h1 : cs.reverse.head? = some d := by
        rw [List.head?_reverse]
        exact hl
      rw [hrev] at h1
      exact Option.some.inj h1
    subst hx
    have hdw : List.dropWhile isPyWs (x :: xs) = x :: xs :=
      List.dropWhile_cons_of_neg (by rw [hd]; simp)
    simp only [pyRstrip, hrev, hdw]
    rw [← hrev, List.reverse_reverse]

theorem pyStrip_noop {cs : List Char} {c0 d : Char} {X : List Char}
    (hhd : cs = c0 :: X) (hc0 : isPyWs c0 = false)
    (hl : cs.getLast? = some d) (hd : isPyWs d = false) : pyStrip cs = cs := by
  subst hhd
  have hdw : List.dropWhile isPyWs (c0 :: X) = c0 :: X :=
    List.dropWhile_cons_of_neg (by rw [hc0]; simp)
  simp only [pyStrip, hdw]
  exact pyRstrip_noop hl hd

theorem pyReplaceEmpty_noop : ∀ (cs : List Char) (p0 : Char) (ps : List Char),
    p0 ∉ cs → pyReplaceEmpty (p0 :: ps) cs = cs
  | [], p0, ps, _ => by simp [pyReplaceEmpty]
  | c :: rest, p0, ps, h => by
      rw [pyReplaceEmpty.eq_def]
      dsimp only
      have hsw : startsWithChars (p0 :: ps) (c :: rest) = false := by
        simp only [startsWithChars, Bool.and_eq_false_iff]
        left
        simp only [decide_eq_false_iff_not]
        intro he
        exact h (by rw [he]; exact List.mem_cons_self _ _)
      rw [if_neg (by rw [hsw]; simp)]
      rw [pyReplaceEmpty_noop rest p0 ps (fun hm => h (List.mem_cons_of_mem _ hm))]

theorem splitOnNewline_single : ∀ (cs : List Char), '\n' ∉ cs →
    splitOnNewline cs = [cs]
  | [], _ => rfl
  | c :: rest, h => by
      have hc : c ≠ '\n' := by
        intro he
        exact h (by rw [he]; exact List.mem_cons_self _ _)
      rw [splitOnNewline.eq_def]
      split
      · rename_i heq
        exact List.noConfusion heq
      · rename_i r heq
        injection heq with h1 h2
        exact absurd h1 hc
      · rename_i c2 r hg heq
        injection heq with h1 h2
        subst h1
        subst h2
        rw [splitOnNewline_single rest (fun hm => h (List.mem_cons_of_mem _ hm))]

theorem intercalate_single (cs : List Char) : List.intercalate ['\n'] [cs] = cs := by
  simp [List.intercalate]

theorem isFenceLine_bracket (X : List Char) (hstrip : pyStrip ('[' :: X) = '[' :: X) :
    isFenceLine ('[' :: X) = false := by
  simp only [isFenceLine, hstrip, Bool.or_eq_false_iff]
  refine ⟨⟨?_, ?_⟩, ?_⟩
  · show ('[' == '`' && (X == "``".toList)) = false
    simp
  · show ('[' == '`' && (X == "``json".toList)) = false
    simp
  · show ('[' == '`' && (X == "``python".toList)) = false
    simp

theorem cutToFirstBracket_bracket (X : List Char) :
    cutToFirstBracket ('[' :: X) = '[' :: X := by
  simp only [cutToFirstBracket]
  rw [if_pos (List.mem_cons_self _ _)]
  rw [List.dropWhile_cons_of_neg (by simp)]

theorem preClean_noop (X : List Char) (hbt : '`' ∉ '[' :: X) (hnl : '\n' ∉ '[' :: X)
    (hl : ∃ d, ('[' :: X).getLast? = some d ∧ isPyWs d = false) :
    preClean ('[' :: X) = '[' :: X := by
  obtain ⟨d, hld, hdw⟩ := hl
  have hs1 : pyStrip ('[' :: X) = '[' :: X := pyStrip_noop rfl (by decide) hld hdw
  have hr1 : pyReplaceEmpty ("```json".toList) ('[' :: X) = '[' :: X := by
    have hj : ("```json".toList) = '`' :: ("``json".toList) := rfl
    rw [hj]
    exact pyReplaceEmpty_noop _ _ _ hbt
  have hr2 : pyReplaceEmpty ("```".toList) ('[' :: X) = '[' :: X := by
    have hj : ("```".toList) = '`' :: ("``".toList) := rfl
    rw [hj]
    exact pyReplaceEmpty_noop _ _ _ hbt
  simp only [preClean, hs1, hr1, hr2, splitOnNewline_single _ hnl]
  rw [List.filter_cons_of_pos (by simp [isFenceLine_bracket X hs1])]
  simp only [List.filter_nil]
  rw [intercalate_single, hs1]
  exact cutToFirstBracket_bracket X

/-- C9 (amended): on every finding sequence whose string fields are free of
backticks and `]` and whose numbers are integer-valued, parsing the standard
serialization returns the original sequence. -/
theorem parser_roundtrip_clean (findings : List PyJson)
    (hcl : CleanElems findings) (hint : IntegralElems findings) :
    _parse_issues_json (pyJsonDumps (.arr findings)) = .ok findings := by
  have hser : serValue (.arr findings) = '[' :: (serElemsList findings ++ [']']) := by
    simp only [serValue]
  obtain ⟨BP, NB, NN, LG, HD⟩ := serClean_value (.arr findings) hcl hint
  rw [hser] at NB NN
  have hX : pyRstrip (preClean ((pyJsonDumps (PyJson.arr findings)).toList))
      = serValue (.arr findings) := by
    have htl : (pyJsonDumps (PyJson.arr findings)).toList
        = serValue (.arr findings) := rfl
    rw [htl, hser]
    rw [preClean_noop _ NB NN ⟨']', lastOfConcat _ _ _, by decide⟩]
    exact pyRstrip_noop (lastOfConcat _ _ _) (by decide)
  rw [parse_issues_spec _ _ hX]
  have hend : endsWithBracket (serValue (.arr findings)) = true := by
    simp only [endsWithBracket, decide_eq_true_eq]
    rw [hser]
    exact lastOfConcat _ _ _
  have hcond : ¬(serValue (.arr findings) ≠ []
      ∧ ¬ endsWithBracket (serValue (.arr findings))) :=
    fun h => h.2 hend
  rw [if_neg hcond]
  rw [subCommaWsBracket_noop _ _ le_rfl BP]
  rw [jsonLoads_serValue (.arr findings) (show IntegralJson (.arr findings) from hint)]

set_option maxHeartbeats 2000000 in
/-- C9: the claimed unconditional round trip fails — a finding whose string
content contains a code fence is mangled by the cleanup pipeline, so parsing
the serialization of `[{"category": "```"}]` does not return the original
sequence. -/
theorem c9_counterexample :
    _parse_issues_json (pyJsonDumps (.arr [PyJson.obj [("category", PyJson.str "```")]]))
      ≠ .ok [PyJson.obj [("category", PyJson.str "```")]] := by
  have hs0 : serValue (.arr [PyJson.obj [("category", PyJson.str "```")]])
      = "[\x7b\"category\": \"```\"\x7d]".toList := by
    simp only [serValue, serElemsList, serElemsTail, serFieldsList, serFieldsTail]
    rfl
  have hs1 : serValue (.arr [PyJson.obj [("category", PyJson.str "")]])
      = "[\x7b\"category\": \"\"\x7d]".toList := by
    simp only [serValue, serElemsList, serElemsTail, serFieldsList, serFieldsTail]
    rfl
  have hX : pyRstrip (preClean ((pyJsonDumps
      (.arr [PyJson.obj [("category", PyJson.str "```")]])).toList))
      = serValue (.arr [PyJson.obj [("category", PyJson.str "")]]) := by
    rw [show (pyJsonDumps (.arr [PyJson.obj [("category", PyJson.str "```")]])).toList
        = serValue (.arr [PyJson.obj [("category", PyJson.str "```")]]) from rfl,
      hs0, hs1]
    simp +decide [preClean, pyReplaceEmpty, pyStrip, pyRstrip, splitOnNewline,
      isFenceLine, cutToFirstBracket, List.intercalate, startsWithChars]
  obtain ⟨BP, NB, NN, LG, HD⟩ :=
    serClean_value (.arr [PyJson.obj [("category", PyJson.str "")]])
      (by simp +decide [CleanElems, CleanJson, CleanFields])
      (by simp [IntegralElems, IntegralJson, IntegralFields])
  rw [parse_issues_spec _ _ hX]
  have hend : endsWithBracket
      (serValue (.arr [PyJson.obj [("category", PyJson.str "")]])) = true := by
    simp only [endsWithBracket, decide_eq_true_eq]
    rw [show serValue (.arr [PyJson.obj [("category", PyJson.str "")]])
        = '[' :: (serElemsList [PyJson.obj [("category", PyJson.str "")]] ++ [']'])
        from by simp only [serValue]]
    exact lastOfConcat _ _ _
  rw [if_neg (fun h => h.2 hend)]
  rw [subCommaWsBracket_noop _ _ le_rfl BP]
  rw [jsonLoads_serValue (.arr [PyJson.obj [("category", PyJson.str "")]])
    (by simp [IntegralElems, IntegralJson, IntegralFields])]
  intro h
  simp +decide at h

theorem parser_roundtrip_clean_witness :
    CleanElems [PyJson.obj [("category", PyJson.str "A"), ("status", PyJson.str "error"),
      ("item", PyJson.str "x"), ("evidence", PyJson.str "e"), ("target", PyJson.str "t"),
      ("message", PyJson.str "m"),
      ("box_2d", PyJson.arr [PyJson.num 1, PyJson.num 2, PyJson.num 3, PyJson.num 4]),
      ("image_index", PyJson.num 0)]] ∧
    IntegralElems [PyJson.obj [("category", PyJson.str "A"), ("status", PyJson.str "error"),
      ("item", PyJson.str "x"), ("evidence", PyJson.str "e"), ("target", PyJson.str "t"),
      ("message", PyJson.str "m"),
      ("box_2d", PyJson.arr [PyJson.num 1, PyJson.num 2, PyJson.num 3, PyJson.num 4]),
      ("image_index", PyJson.num 0)]] ∧
    _parse_issues_json (pyJsonDumps (.arr [PyJson.obj [("category", PyJson.str "A"),
      ("status", PyJson.str "error"), ("item", PyJson.str "x"),
      ("evidence", PyJson.str "e"), ("target", PyJson.str "t"),
      ("message", PyJson.str "m"),
      ("box_2d", PyJson.arr [PyJson.num 1, PyJson.num 2, PyJson.num 3, PyJson.num 4]),
      ("image_index", PyJson.num 0)]]))
      = .ok [PyJson.obj [("category", PyJson.str "A"), ("status", PyJson.str "error"),
      ("item", PyJson.str "x"), ("evidence", PyJson.str "e"), ("target", PyJson.str "t"),
      ("message", PyJson.str "m"),
      ("box_2d", PyJson.arr [PyJson.num 1, PyJson.num 2, PyJson.num 3, PyJson.num 4]),
      ("image_index", PyJson.num 0)]] := by
  have hc : CleanElems [PyJson.obj [("category", PyJson.str "A"),
      ("status", PyJson.str "error"), ("item", PyJson.str "x"),
      ("evidence", PyJson.str "e"), ("target", PyJson.str "t"),
      ("message", PyJson.str "m"),
      ("box_2d", PyJson.arr [PyJson.num 1, PyJson.num 2, PyJson.num 3, PyJson.num 4]),
      ("image_index", PyJson.num 0)]] := by
    simp +decide [CleanElems, CleanJson, CleanFields]
  have hi : IntegralElems [PyJson.obj [("category", PyJson.str "A"),
      ("status", PyJson.str "error"), ("item", PyJson.str "x"),
      ("evidence", PyJson.str "e"), ("target", PyJson.str "t"),
      ("message", PyJson.str "m"),
      ("box_2d", PyJson.arr [PyJson.num 1, PyJson.num 2, PyJson.num 3, PyJson.num 4]),
      ("image_index", PyJson.num 0)]] := by
    norm_num [IntegralElems, IntegralJson, IntegralFields]
  exact ⟨hc, hi, parser_roundtrip_clean _ hc hi⟩

/-! ### Truncation recovery: rescuing a serialization cut after a `},` -/

theorem serValue_obj_last (ms : List (String × PyJson)) :
    (serValue (.obj ms)).getLast? = some '}' := by
  simp only [serValue]
  exact lastOfConcat _ _ _

mutual
theorem serElemsList_obj_last : ∀ (os : List PyJson), os ≠ [] →
    (∀ o ∈ os, ∃ ms, o = PyJson.obj ms) → (serElemsList os).getLast? = some '}'
  | [], h, _ => absurd rfl h
  | [o], _, hobj => by
      have hser : serElemsList [o] = serValue o ++ serElemsTail [] := by
        simp only [serElemsList]
      rw [hser, show serElemsTail [] = ([] : List Char) from by simp only [serElemsTail],
        List.append_nil]
      obtain ⟨ms, rfl⟩ := hobj o (List.mem_cons_self _ _)
      exact serValue_obj_last ms
  | o :: o2 :: os2, _, hobj => by
      have hser : serElemsList (o :: o2 :: os2)
          = serValue o ++ serElemsTail (o2 :: os2) := by
        simp only [serElemsList]
      rw [hser]
      have ih := serElemsTail_obj_last (o2 :: os2) (by simp)
        (fun x hx => hobj x (List.mem_cons_of_mem _ hx))
      have hne : serElemsTail (o2 :: os2) ≠ [] := by
        intro hnil
        rw [hnil] at ih
        simp at ih
      rw [List.getLast?_append_of_ne_nil _ hne]
      exact ih
  termination_by os => (sizeOf os, 0)

theorem serElemsTail_obj_last : ∀ (os : List PyJson), os ≠ [] →
    (∀ o ∈ os, ∃ ms, o = PyJson.obj ms) → (serElemsTail os).getLast? = some '}'
  | [], h, _ => absurd rfl h
  | o :: os, _, hobj => by
      have hser : serElemsTail (o :: os) = ',' :: ' ' :: serElemsList (o :: os) := by
        simp only [serElemsTail, serElemsList]
      rw [hser]
      have ih := serElemsList_obj_last (o :: os) (by simp) hobj
      have hne : serElemsList (o :: os) ≠ [] := by
        intro hnil
        rw [hnil] at ih
        simp at ih
      rw [getLast?_cons_of_ne_nil _ _ (by simp), getLast?_cons_of_ne_nil _ _ hne]
      exact ih
  termination_by os => (sizeOf os, 1)
end

theorem filter_range_getLast (p : ℕ → Bool) : ∀ (n m : ℕ), m < n → p m = true →
    (∀ j, m < j → j < n → p j = false) →
    ((List.range n).filter p).getLast? = some m := by
  intro n
  induction n with
  | zero =>
      intro m hm
      omega
  | succ n ih =>
      intro m hm hpm hmax
      by_cases hn : m = n
      · subst hn
        rw [List.range_succ, List.filter_append]
        rw [show List.filter p [m] = [m] from by simp [hpm]]
        exact List.getLast?_concat _
      · have hpn : p n = false := hmax n (by omega) (by omega)
        rw [List.range_succ, List.filter_append]
        rw [show List.filter p [n] = [] from by simp [hpn], List.append_nil]
        exact ih m (by omega) hpm (fun j h1 h2 => hmax j h1 (by omega))

/-- Unfolding equation for the rescue routine once its guard fails, with the
cleaned text abstracted. -/
theorem rescue_spec (text t2 : List Char)
    (h2 : subTrailingCommaBracket (pyRstrip
      (text.dropWhile (fun c => ¬ c = '['))) = t2)
    (hne : ¬(text = [] ∨ ¬ '[' ∈ text)) :
    _rescue_incomplete_json_array text =
      (if endsWithBracket t2 then some t2
       else
        match rescueCandidates t2 (boundaryPositions t2).reverse with
        | some c => some c
        | none =>
            if matchesSingleObjectOpen t2 then
              match jsonLoads (stripTrailingComma t2 ++ [']']) with
              | some (.arr _) => some (stripTrailingComma t2 ++ [']'])
              | _ => none
            else none) := by
  subst h2
  unfold _rescue_incomplete_json_array
  rw [if_neg hne]

theorem drop_boundary (A : List Char) (c1 c2 : Char) :
    ('[' :: ((A ++ [c1]) ++ [c2])).drop ((A ++ [c1]).length) = [c1, c2] := by
  rw [List.length_append, List.length_singleton, List.drop_succ_cons,
    List.append_assoc]
  exact List.drop_left _ _

/-- Core of the truncation-recovery analysis: when the cleaned text is a
serialized array of clean findings cut immediately after a complete `},`,
the rescue path reparses exactly the complete objects. -/
theorem truncated_parse (os : List PyJson) (hne : os ≠ [])
    (hobj : ∀ o ∈ os, ∃ ms, o = PyJson.obj ms)
    (hcl : CleanElems os) (hint : IntegralElems os) (tstr : String)
    (hX : pyRstrip (preClean tstr.toList) = '[' :: (serElemsList os ++ [','])) :
    _parse_issues_json tstr = .ok os := by
  have hElast : (serElemsList os).getLast? = some '}' :=
    serElemsList_obj_last os hne hobj
  have hEne : serElemsList os ≠ [] := by
    intro hnil
    rw [hnil] at hElast
    simp at hElast
  have hgl : serElemsList os = (serElemsList os).dropLast ++ ['}'] := by
    have h1 := List.dropLast_append_getLast hEne
    have h2 := List.getLast?_eq_getLast (serElemsList os) hEne
    rw [hElast] at h2
    rw [Option.some.inj h2.symm] at h1
    exact h1.symm
  have hserArr : serValue (.arr os) = '[' :: (serElemsList os ++ [']']) := by
    simp only [serValue]
  obtain ⟨arrBP, -, -, -, -⟩ := serClean_value (.arr os) hcl hint
  have htlast : ('[' :: (serElemsList os ++ [','])).getLast? = some ',' :=
    lastOfConcat _ _ _
  have hdrop2 : ('[' :: (serElemsList os ++ [','])).drop (serElemsList os).length
      = ['}', ','] := by
    have h := drop_boundary (serElemsList os).dropLast '}' ','
    rw [← hgl] at h
    exact h
  have hdrop1 : ('[' :: (serElemsList os ++ [','])).drop ((serElemsList os).length + 1)
      = [','] := by
    rw [List.drop_succ_cons]
    exact List.drop_left _ _
  have hb2 : boundaryAt ('[' :: (serElemsList os ++ [','])) (serElemsList os).length
      = true := by
    unfold boundaryAt
    rw [hdrop2]
    rfl
  have hb1 : boundaryAt ('[' :: (serElemsList os ++ [',']))
      ((serElemsList os).length + 1) = false := by
    unfold boundaryAt
    rw [hdrop1]
    rfl
  have hlen_t : ('[' :: (serElemsList os ++ [','])).length
      = (serElemsList os).length + 2 := by
    simp
  have hBPos : (boundaryPositions ('[' :: (serElemsList os ++ [',']))).getLast?
      = some (serElemsList os).length := by
    unfold boundaryPositions
    rw [hlen_t]
    refine filter_range_getLast _ _ _ (by omega) hb2 ?_
    intro j h1 h2
    have hj : j = (serElemsList os).length + 1 := by omega
    subst hj
    exact hb1
  have hhead : (boundaryPositions ('[' :: (serElemsList os ++ [',']))).reverse.head?
      = some (serElemsList os).length := by
    rw [List.head?_reverse]
    exact hBPos
  have htake : ('[' :: (serElemsList os ++ [','])).take ((serElemsList os).length + 1)
      = '[' :: serElemsList os := by
    rw [List.take_succ_cons, List.take_left]
  have hcand : ('[' :: (serElemsList os ++ [','])).take ((serElemsList os).length + 1)
      ++ [']'] = serValue (.arr os) := by
    rw [htake, hserArr]
    rfl
  have hguard : ¬(('[' :: (serElemsList os ++ [','])) = []
      ∨ ¬ '[' ∈ ('[' :: (serElemsList os ++ [',']))) := by
    intro h
    rcases h with h | h
    · exact List.noConfusion h
    · exact h (List.mem_cons_self _ _)
  have hdw : ('[' :: (serElemsList os ++ [','])).dropWhile (fun c => ¬ c = '[')
      = '[' :: (serElemsList os ++ [',']) :=
    List.dropWhile_cons_of_neg (by simp)
  have hrs : pyRstrip ('[' :: (serElemsList os ++ [',']))
      = '[' :: (serElemsList os ++ [',']) :=
    pyRstrip_noop htlast (by decide)
  have hstb : subTrailingCommaBracket ('[' :: (serElemsList os ++ [',']))
      = '[' :: (serElemsList os ++ [',']) := by
    have hrv : ('[' :: (serElemsList os ++ [','])).reverse.head? = some ',' := by
      rw [List.head?_reverse]
      exact htlast
    rcases hsh2 : ('[' :: (serElemsList os ++ [','])).reverse with _ | ⟨c0, r0⟩
    · rw [hsh2] at hrv
      simp at hrv
    · rw [hsh2] at hrv
      simp only [List.head?_cons, Option.some.injEq] at hrv
      subst hrv
      unfold subTrailingCommaBracket
      rw [hsh2]
      rfl
  have hendf : endsWithBracket ('[' :: (serElemsList os ++ [','])) = false := by
    simp [endsWithBracket, htlast]
  have hres : _rescue_incomplete_json_array ('[' :: (serElemsList os ++ [',']))
      = some (serValue (.arr os)) := by
    rw [rescue_spec _ _ (by rw [hdw, hrs, hstb]) hguard]
    rw [if_neg (by rw [hendf]; simp)]
    rcases hsh : (boundaryPositions ('[' :: (serElemsList os ++ [',']))).reverse
      with _ | ⟨i0, is⟩
    · rw [hsh] at hhead
      simp at hhead
    · rw [hsh] at hhead
      simp only [List.head?_cons, Option.some.injEq] at hhead
      subst hhead
      simp only [rescueCandidates]
      rw [hcand]
      rw [subCommaWsBracket_noop _ _ le_rfl arrBP]
      rw [jsonLoads_serValue (.arr os) (show IntegralJson (.arr os) from hint)]
  rw [parse_issues_spec _ _ hX]
  rw [if_pos ⟨fun h => List.noConfusion h, by rw [hendf]; simp⟩, hres]
  rw [subCommaWsBracket_noop _ _ le_rfl arrBP]
  rw [jsonLoads_serValue (.arr os) (show IntegralJson (.arr os) from hint)]

/-- C1 (amended): for every nonempty sequence of clean finding objects
(string fields without backticks or `]`, integer-valued numbers), the parser
applied to the array serialization truncated immediately after a complete
`},` returns exactly those complete objects, raising no error. -/
theorem truncation_recovery (os : List PyJson) (hne : os ≠ [])
    (hobj : ∀ o ∈ os, ∃ ms, o = PyJson.obj ms)
    (hcl : CleanElems os) (hint : IntegralElems os) :
    _parse_issues_json ⟨'[' :: (serElemsList os ++ [','])⟩ = .ok os := by
  refine truncated_parse os hne hobj hcl hint _ ?_
  have htl : (⟨'[' :: (serElemsList os ++ [','])⟩ : String).toList
      = '[' :: (serElemsList os ++ [',']) := rfl
  rw [htl]
  obtain ⟨-, eNB, eNN, -, -⟩ := serClean_elemsList os hcl hint
  have hbt : '`' ∉ '[' :: (serElemsList os ++ [',']) := by
    simp only [List.mem_cons, List.mem_append, List.mem_singleton]
    rintro (h | h | h)
    · exact absurd h (by decide)
    · exact eNB h
    · exact absurd h (by decide)
  have hnl : '\n' ∉ '[' :: (serElemsList os ++ [',']) := by
    simp only [List.mem_cons, List.mem_append, List.mem_singleton]
    rintro (h | h | h)
    · exact absurd h (by decide)
    · exact eNN h
    · exact absurd h (by decide)
  rw [preClean_noop _ hbt hnl ⟨',', lastOfConcat _ _ _, by decide⟩]
  exact pyRstrip_noop (lastOfConcat _ _ _) (by decide)

set_option maxHeartbeats 2000000 in
/-- C1: the claimed recovery for every well-formed truncated serialization
fails — cleanup mangles string content, so the serialization of
`[{"category": "```"}, …]` cut right after the first `},` parses to a list
whose object differs from the complete object before the cut. -/
theorem c1_counterexample :
    _parse_issues_json ⟨'[' :: (serElemsList [PyJson.obj [("category",
        PyJson.str "```")]] ++ [','])⟩
      ≠ .ok [PyJson.obj [("category", PyJson.str "```")]] := by
  have hact : _parse_issues_json ⟨'[' :: (serElemsList [PyJson.obj [("category",
      PyJson.str "```")]] ++ [','])⟩
      = .ok [PyJson.obj [("category", PyJson.str "")]] := by
    refine truncated_parse [PyJson.obj [("category", PyJson.str "")]] (by simp)
      ?_ (by simp +decide [CleanElems, CleanJson, CleanFields])
      (by simp [IntegralElems, IntegralJson, IntegralFields]) _ ?_
    · intro o ho
      simp only [List.mem_singleton] at ho
      subst ho
      exact ⟨_, rfl⟩
    · have hshape : ('[' :: (serElemsList [PyJson.obj [("category",
          PyJson.str "```")]] ++ [','])) = "[\x7b\"category\": \"```\"\x7d,".toList := by
        simp only [serElemsList, serElemsTail, serValue, serFieldsList, serFieldsTail]
        rfl
      have hshapeM : ('[' :: (serElemsList [PyJson.obj [("category",
          PyJson.str "")]] ++ [','])) = "[\x7b\"category\": \"\"\x7d,".toList := by
        simp only [serElemsList, serElemsTail, serValue, serFieldsList, serFieldsTail]
        rfl
      rw [show (⟨'[' :: (serElemsList [PyJson.obj [("category",
          PyJson.str "```")]] ++ [','])⟩ : String).toList
          = '[' :: (serElemsList [PyJson.obj [("category",
            PyJson.str "```")]] ++ [',']) from rfl]
      rw [hshape, hshapeM]
      simp +decide [preClean, pyReplaceEmpty, pyStrip, pyRstrip, splitOnNewline,
        isFenceLine, cutToFirstBracket, List.intercalate, startsWithChars]
  rw [hact]
  simp +decide

theorem truncation_recovery_witness :
    ([PyJson.obj [("category", PyJson.str "A"), ("image_index", PyJson.num 0)]]
      ≠ ([] : List PyJson)) ∧
    _parse_issues_json ⟨'[' :: (serElemsList [PyJson.obj [("category", PyJson.str "A"),
        ("image_index", PyJson.num 0)]] ++ [','])⟩
      = .ok [PyJson.obj [("category", PyJson.str "A"), ("image_index", PyJson.num 0)]] := by
  constructor
  · simp
  · refine truncation_recovery _ (by simp) ?_ ?_ ?_
    · intro o ho
      simp only [List.mem_singleton] at ho
      subst ho
      exact ⟨_, rfl⟩
    · simp +decide [CleanElems, CleanJson, CleanFields]
    · norm_num [IntegralElems, IntegralJson, IntegralFields]

/-! ### C10: totality of the box normalizer -/

